import Mathlib

set_option linter.unusedVariables false

/-!
Verification of the map subsystem of the undercity repository
(src/map/mod.rs, src/map/data.rs, src/map/gen.rs).

The Rust code is shallowly embedded: i32 coordinates become unbounded Int
(all arithmetic in the map module stays far from the i32 range limits, and
the bitwise operators that the source applies to coordinates are modelled
with the two-complement operations Int.land, Int.lor and Int.shiftRight,
which agree with the i32 operations on all in-range inputs), the sparse
chunk HashMap becomes an association list keyed by chunk position, a chunk
tile array becomes a function from array index to tile pair, and the
SmallRng / thread_rng generators become explicit streams of natural
numbers threaded through the generation functions.  Functions from the
rand crate (gen_range, gen_bool, choose) are modelled by their contract:
a draw from the stream reduced into the requested range, with an error on
an empty range exactly where the rand crate panics.  Rust panics and
asserts are modelled with Except String.
-/

namespace Undercity

/-! ## Arithmetic helper lemmas for the two-complement coordinate operations -/

/-- Bridge from testBit to divisions, true case. -/
theorem testBit_true_iff (x k : ℕ) : (x.testBit k = true) ↔ x / 2^k % 2 = 1 := by
  rw [Nat.testBit_to_div_mod]
  exact decide_eq_true_iff

/-- Bridge from testBit to divisions, false case. -/
theorem testBit_false_iff (x k : ℕ) : (x.testBit k = false) ↔ ¬ (x / 2^k % 2 = 1) := by
  rw [Nat.testBit_to_div_mod]
  constructor
  · intro h hc
    simp [hc] at h
  · intro h
    simpa using h

/-- On naturals, masking with 31 is reduction mod 32. -/
theorem nat_land_31 (m : ℕ) : m &&& 31 = m % 32 := by
  apply Nat.eq_of_testBit_eq
  intro k
  rw [Nat.testBit_land]
  rcases Nat.lt_or_ge k 5 with h | h
  · rw [Bool.eq_iff_iff]
    simp only [Bool.and_eq_true, testBit_true_iff]
    interval_cases k <;> norm_num <;> omega
  · have hpow : (32 : ℕ) ≤ 2 ^ k := by
      calc (32:ℕ) = 2^5 := by norm_num
      _ ≤ 2^k := Nat.pow_le_pow_right (by norm_num) h
    have h31 : Nat.testBit 31 k = false := Nat.testBit_lt_two_pow (by omega)
    have hm : Nat.testBit (m % 32) k = false := Nat.testBit_lt_two_pow (by omega)
    simp [h31, hm]

/-- Bitwise difference from the all-ones low mask is complement within the mask. -/
theorem nat_ldiff_31 (m : ℕ) : Nat.ldiff 31 m = 31 - m % 32 := by
  apply Nat.eq_of_testBit_eq
  intro k
  rw [Nat.testBit_ldiff]
  rcases Nat.lt_or_ge k 5 with h | h
  · rw [Bool.eq_iff_iff]
    simp only [Bool.and_eq_true, Bool.not_eq_true', testBit_true_iff, testBit_false_iff]
    interval_cases k <;> norm_num <;> omega
  · have hpow : (32 : ℕ) ≤ 2 ^ k := by
      calc (32:ℕ) = 2^5 := by norm_num
      _ ≤ 2^k := Nat.pow_le_pow_right (by norm_num) h
    have h31 : Nat.testBit 31 k = false := Nat.testBit_lt_two_pow (by omega)
    have hm : Nat.testBit (31 - m % 32) k = false := Nat.testBit_lt_two_pow (by omega)
    simp [h31, hm]

/-- Bitwise difference of a small value from a number with all-ones low mask. -/
theorem nat_ldiff_low (q b : ℕ) (hb : b < 32) :
    Nat.ldiff (32 * q + 31) b = 32 * q + 31 - b := by
  apply Nat.eq_of_testBit_eq
  intro k
  rw [Nat.testBit_ldiff]
  have e1 : 32 * q + 31 = 2 ^ 5 * q + 31 := by norm_num
  rw [e1]
  have e2 : 2 ^ 5 * q + 31 - b = 2 ^ 5 * q + (31 - b) := by omega
  rw [e2, Nat.testBit_mul_pow_two_add _ (by norm_num : (31:ℕ) < 2 ^ 5),
    Nat.testBit_mul_pow_two_add _ (by omega : 31 - b < 2 ^ 5)]
  rcases Nat.lt_or_ge k 5 with h | h
  · simp only [if_pos h]
    rw [Bool.eq_iff_iff]
    simp only [Bool.and_eq_true, Bool.not_eq_true', testBit_true_iff, testBit_false_iff]
    interval_cases k <;> norm_num <;> omega
  · simp only [if_neg (Nat.not_lt.mpr h)]
    have hb5 : Nat.testBit b k = false := Nat.testBit_lt_two_pow (by
      calc b < 32 := hb
      _ = 2^5 := by norm_num
      _ ≤ 2^k := Nat.pow_le_pow_right (by norm_num) h)
    simp [hb5]

/-- The two-complement mask with 31 on Int is the (nonnegative) remainder mod 32.
This is the fact the source relies on for chunk-relative coordinates of
negative tile positions. -/
theorem int_land_31 (x : Int) : Int.land x 31 = x % 32 := by
  cases x with
  | ofNat m =>
      have h : Int.land (Int.ofNat m) (31 : Int) = Int.ofNat (m &&& 31) := rfl
      rw [h, nat_land_31]
      simp only [Int.ofNat_eq_natCast]
      push_cast
      omega
  | negSucc m =>
      have h : Int.land (Int.negSucc m) (31 : Int) = Int.ofNat (Nat.ldiff 31 m) := rfl
      rw [h, nat_ldiff_31, Int.negSucc_eq]
      simp only [Int.ofNat_eq_natCast]
      omega

/-- The arithmetic right shift by 5 on Int is flooring division by 32. -/
theorem int_sar_5 (x : Int) : x >>> (5 : Nat) = x / 32 := by
  rw [Int.shiftRight_eq_div_pow]
  norm_num

/-- Bitwise or of a multiple of 32 with a value below 32 is addition.  This is
the fact chunk tile-position enumeration relies on. -/
theorem int_lor_low (a b : Int) (h0 : 0 ≤ b) (h1 : b < 32) :
    Int.lor (32 * a) b = 32 * a + b := by
  obtain ⟨bn, rfl⟩ := Int.eq_ofNat_of_zero_le h0
  have hbn : bn < 32 := by exact_mod_cast h1
  cases a with
  | ofNat n =>
      have e : (32 * Int.ofNat n) = Int.ofNat (32 * n) := by simp
      rw [e]
      have h : Int.lor (Int.ofNat (32 * n)) ((bn : ℕ) : Int) = Int.ofNat ((32 * n) ||| bn) := rfl
      rw [h]
      have h2 : (32 * n) ||| bn = 32 * n + bn := by
        have h3 := @Nat.mul_add_lt_is_or 5 bn (by omega) n
        norm_num at h3 ⊢
        omega
      rw [h2]
      simp only [Int.ofNat_eq_natCast]
      push_cast
      omega
  | negSucc n =>
      have e : (32 : Int) * Int.negSucc n = Int.negSucc (32 * n + 31) := by
        rw [Int.negSucc_eq, Int.negSucc_eq]
        push_cast
        ring
      rw [e]
      have h : Int.lor (Int.negSucc (32 * n + 31)) ((bn : ℕ) : Int) =
          Int.negSucc (Nat.ldiff (32 * n + 31) bn) := rfl
      rw [h, nat_ldiff_low _ _ hbn, Int.negSucc_eq, Int.negSucc_eq]
      push_cast [Nat.cast_sub (by omega : bn ≤ 32 * n + 31)]
      ring

/-! ## Tile catalog (src/map/data.rs) -/

/-- Tileset enum from data.rs: the visual skin of a tile. -/
inductive Tileset where
  | BrickBlue | BrickCyan | BrickGreen | BrickPurple | BrickRed | BrickYellow
  | Catacomb | Cocutos | Crypt | Gallery | Gehena | Hive | Lair | Lapis
  | Moss | Mucus | Normal | PandemBlue | PandemGreen | PandemPurple
  | PandemRed | PandemYellow | Rock | Tunnel
deriving DecidableEq, Repr

/-- WallShape enum from data.rs. -/
inductive WallShape where
  | Pillar | North | East | South | West
  | Northeast | Northwest | Southeast | Southwest
  | Eastwest | Northsouth
  | Solid | SolidNorth | SolidEast | SolidSouth | SolidWest
deriving DecidableEq, Repr

/-- Discriminant values of WallShape (the repr u8 values used as atlas indices). -/
def WallShape.code : WallShape → Nat
  | .Pillar => 0 | .North => 1 | .East => 2 | .South => 8 | .West => 4
  | .Northeast => 3 | .Northwest => 5 | .Southeast => 10 | .Southwest => 12
  | .Eastwest => 6 | .Northsouth => 9
  | .Solid => 15 | .SolidNorth => 7 | .SolidEast => 11 | .SolidSouth => 14 | .SolidWest => 13

/-- Landmark enum from data.rs. -/
inductive Landmark where
  | Well
  | StatueDragon | StatueFace | StatueBronze
  | StairsMarbleTop | StairsMarbleBottom | StairsSandstoneTop | StairsSandstoneBottom
  | TrapArrow | TrapPentagram | TrapSkull
  | PortalLight | PortalDark | PortalRed | PortalBlue | PortalGreen
  | PortalSkulls | PortalStar | PortalArch | PortalDemon | PortalWormhole | PortalBlank
  | ShrinePalm | ShrineIdol | ShrineSkulls | ShrineGeode | ShrineFace | ShrineScroll
  | ShrineCross | ShrineFlame | ShrineLapis | ShrineSacrifice | ShrineDemon
  | ShrineUrn | ShrineChair
  | SpawnPlayer | SpawnWitch | SpawnWitchette | SpawnJester | SpawnRedDemon
  | SpawnYellowDemon | SpawnGreenDemon | SpawnBlueDemon | SpawnWingedDemon
  | Cursor | ExplosionRed | ExplosionBlue | ExplosionGreen
  | ExplosionSmokeLight | ExplosionSmokeDark
deriving DecidableEq, Repr

/-- Discriminant values of Landmark (the repr u8 atlas indices). -/
def Landmark.code : Landmark → Nat
  | .Well => 67
  | .StatueDragon => 68 | .StatueFace => 69 | .StatueBronze => 70
  | .StairsMarbleTop => 81 | .StairsMarbleBottom => 85
  | .StairsSandstoneTop => 89 | .StairsSandstoneBottom => 90
  | .TrapArrow => 78 | .TrapPentagram => 79 | .TrapSkull => 80
  | .PortalLight => 91 | .PortalDark => 92 | .PortalRed => 93 | .PortalBlue => 94
  | .PortalGreen => 95 | .PortalSkulls => 96 | .PortalStar => 97 | .PortalArch => 98
  | .PortalDemon => 99 | .PortalWormhole => 101 | .PortalBlank => 102
  | .ShrinePalm => 103 | .ShrineIdol => 104 | .ShrineSkulls => 105 | .ShrineGeode => 106
  | .ShrineFace => 107 | .ShrineScroll => 108 | .ShrineCross => 109 | .ShrineFlame => 110
  | .ShrineLapis => 111 | .ShrineSacrifice => 112 | .ShrineDemon => 113
  | .ShrineUrn => 114 | .ShrineChair => 115
  | .SpawnPlayer => 116 | .SpawnWitch => 119 | .SpawnWitchette => 120
  | .SpawnJester => 124 | .SpawnRedDemon => 125 | .SpawnYellowDemon => 127
  | .SpawnGreenDemon => 130 | .SpawnBlueDemon => 131 | .SpawnWingedDemon => 132
  | .Cursor => 165 | .ExplosionRed => 168 | .ExplosionBlue => 171 | .ExplosionGreen => 174
  | .ExplosionSmokeLight => 179 | .ExplosionSmokeDark => 180

/-- FloorType enum from data.rs. -/
inductive FloorType where
  | Tileset | Black | LavaRed | LavaBlue | LavaCyan | Slab
deriving DecidableEq, Repr

/-- Discriminant values of FloorType in the misc atlas. -/
def FloorType.code : FloorType → Nat
  | .Tileset => 20 | .Black => 0 | .LavaRed => 71 | .LavaBlue => 72
  | .LavaCyan => 73 | .Slab => 74

/-- TileType enum from data.rs.  The Rust field name of the door payload is
`open`, a reserved word in Lean, rendered here as isOpen. -/
inductive TileType where
  | Empty
  | Floor (floor : FloorType)
  | Wall (shape : WallShape)
  | DoorNS (isOpen : Bool)
  | DoorEW (isOpen : Bool)
  | Landmark (ty : Landmark) (flip : Bool)
deriving DecidableEq, Repr

/-- Tile struct from mod.rs.  Its Rust Default is Empty with tileset BrickBlue. -/
structure Tile where
  ty : TileType
  tileset : Tileset
deriving DecidableEq, Repr

/-- The Default derive of Tile. -/
def Tile.defaultTile : Tile := ⟨.Empty, .BrickBlue⟩

/-- TilePair struct from mod.rs. -/
structure TilePair where
  foreground : Tile
  background : Tile
  plucked : Bool
deriving DecidableEq, Repr

/-! ## Spatial addressing (src/map/data.rs) -/

/-- TilePos: a signed 2D tile coordinate (an IVec2 in the source). -/
structure TilePos where
  x : Int
  y : Int
deriving DecidableEq, Repr

/-- ChunkPos: a signed 2D chunk coordinate. -/
structure ChunkPos where
  x : Int
  y : Int
deriving DecidableEq, Repr

def TilePos.of (x y : Int) : TilePos := ⟨x, y⟩

def ChunkPos.of (x y : Int) : ChunkPos := ⟨x, y⟩

/-- Chunk::diameterTiles. -/
def diameterTiles : Nat := 32

/-- TilePos::chunk_relative: mask each axis with 0x1F. -/
def TilePos.chunk_relative (p : TilePos) : TilePos :=
  ⟨Int.land p.x 0x1F, Int.land p.y 0x1F⟩

/-- TilePos::chunk_index: index into the chunk tile array.  The source computes
y * 32 + x as i32 and casts to usize; on chunk-relative positions both
coordinates are in 0..32 so the cast is the Int.toNat below. -/
def TilePos.chunk_index (p : TilePos) : Nat :=
  (p.y * (diameterTiles : Int) + p.x).toNat

/-- The From TilePos for ChunkPos conversion: arithmetic shift right by 5. -/
def ChunkPos.fromTile (p : TilePos) : ChunkPos :=
  ⟨p.x >>> (5 : Nat), p.y >>> (5 : Nat)⟩

/-- Direction enum from data.rs. -/
inductive Direction where
  | North | NorthEast | East | SouthEast | South | SouthWest | West | NorthWest
deriving DecidableEq, Repr

/-- Direction::delta.  The y axis grows southward, as in the source. -/
def Direction.delta : Direction → Int × Int
  | .North => (0, -1)
  | .NorthEast => (1, -1)
  | .East => (1, 0)
  | .SouthEast => (1, 1)
  | .South => (0, 1)
  | .SouthWest => (-1, 1)
  | .West => (-1, 0)
  | .NorthWest => (-1, -1)

/-- TilePos::neighbor. -/
def TilePos.neighbor (p : TilePos) (d : Direction) : TilePos :=
  ⟨p.x + d.delta.1, p.y + d.delta.2⟩

/-- TilePos::moore_neighborhood: the 8 surrounding positions, in source order. -/
def TilePos.moore_neighborhood (p : TilePos) : List TilePos :=
  [Direction.North, .NorthEast, .East, .SouthEast, .South, .SouthWest, .West,
    .NorthWest].map p.neighbor

/-- TilePos::von_neumann_neighborhood: the 4 edge-adjacent positions. -/
def TilePos.von_neumann_neighborhood (p : TilePos) : List TilePos :=
  [Direction.North, .East, .South, .West].map p.neighbor

/-! ## Claim C5: chunk addressing round-trip -/

/-- Claim C5: for all integer coordinates x and y, the chunk position obtained
by arithmetic shift right by 5 per axis and the chunk-relative offset obtained
by masking with 31 per axis reconstruct the original coordinates:
32 * chunk + relative = original, with the relative offset in 0..32, including
for negative coordinates. -/
theorem chunk_addressing_round_trip (x y : Int) :
    32 * (ChunkPos.fromTile (TilePos.of x y)).x + (TilePos.of x y).chunk_relative.x = x ∧
    32 * (ChunkPos.fromTile (TilePos.of x y)).y + (TilePos.of x y).chunk_relative.y = y ∧
    0 ≤ (TilePos.of x y).chunk_relative.x ∧ (TilePos.of x y).chunk_relative.x < 32 ∧
    0 ≤ (TilePos.of x y).chunk_relative.y ∧ (TilePos.of x y).chunk_relative.y < 32 := by
  show 32 * (x >>> (5:Nat)) + Int.land x 0x1F = x ∧
    32 * (y >>> (5:Nat)) + Int.land y 0x1F = y ∧
    0 ≤ Int.land x 0x1F ∧ Int.land x 0x1F < 32 ∧
    0 ≤ Int.land y 0x1F ∧ Int.land y 0x1F < 32
  have hx := int_land_31 x
  have hy := int_land_31 y
  have hx5 := int_sar_5 x
  have hy5 := int_sar_5 y
  norm_num at hx hy hx5 hy5 ⊢
  rw [hx, hy, hx5, hy5]
  omega

/-! ## Tile and TilePair operations (src/map/mod.rs) -/

/-- Tile::is_empty. -/
def Tile.is_empty (t : Tile) : Bool :=
  match t.ty with
  | .Empty => true
  | _ => false

/-- TilePair::is_empty. -/
def TilePair.is_empty (p : TilePair) : Bool :=
  p.foreground.is_empty && p.background.is_empty

/-- TilePair::is_wall. -/
def TilePair.is_wall (p : TilePair) : Bool :=
  match p.foreground.ty with
  | .Wall _ => true
  | _ => false

/-- TilePair::is_floor. -/
def TilePair.is_floor (p : TilePair) : Bool :=
  p.foreground.is_empty &&
    match p.background.ty with
    | .Floor _ => true
    | _ => false

/-- TilePair::is_door. -/
def TilePair.is_door (p : TilePair) : Bool :=
  match p.foreground.ty with
  | .DoorNS _ => true
  | .DoorEW _ => true
  | _ => false

/-- TilePair::is_landmark. -/
def TilePair.is_landmark (p : TilePair) : Bool :=
  match p.foreground.ty with
  | .Landmark _ _ => true
  | _ => false

/-- TilePair::set_with_floor: set a wall-like tile with a custom floor type in
its background. -/
def TilePair.set_with_floor (p : TilePair) (tile : Tile) (floor : FloorType) : TilePair :=
  { p with
    foreground := tile
    background := { ty := .Floor floor, tileset := tile.tileset } }

/-- TilePair::set: set foreground or background depending on the type of the
tile; setting a floor clears the foreground type (keeping its tileset,
as the source assigns only the ty field). -/
def TilePair.set (p : TilePair) (tile : Tile) : TilePair :=
  match tile.ty with
  | .Floor _ =>
      { p with
        foreground := { p.foreground with ty := .Empty }
        background := tile }
  | _ => p.set_with_floor tile .Tileset

/-- TilePair::clear. -/
def TilePair.clear (p : TilePair) : TilePair :=
  { p with
    foreground := { p.foreground with ty := .Empty }
    background := { p.background with ty := .Empty } }

/-- Claim C2: for every TilePair p and Tile t, if t is a floor then p.set t has
an empty foreground and background exactly t; otherwise p.set t has foreground
exactly t and background a floor of kind FloorType::Tileset with the tileset
of t.  This holds for every TileType variant. -/
theorem tile_pair_set_spec (p : TilePair) (t : Tile) :
    ((∃ f, t.ty = .Floor f) →
      (p.set t).foreground.is_empty = true ∧ (p.set t).background = t) ∧
    ((∀ f, t.ty ≠ .Floor f) →
      (p.set t).foreground = t ∧
      (p.set t).background = { ty := .Floor .Tileset, tileset := t.tileset }) := by
  constructor
  · rintro ⟨f, hf⟩
    obtain ⟨ty, ts⟩ := t
    cases hf
    simp [TilePair.set, Tile.is_empty]
  · intro hnf
    obtain ⟨ty, ts⟩ := t
    cases ty with
    | Floor f => exact absurd rfl (hnf f)
    | Empty => simp [TilePair.set, TilePair.set_with_floor]
    | Wall s => simp [TilePair.set, TilePair.set_with_floor]
    | DoorNS o => simp [TilePair.set, TilePair.set_with_floor]
    | DoorEW o => simp [TilePair.set, TilePair.set_with_floor]
    | Landmark l fl => simp [TilePair.set, TilePair.set_with_floor]

/-- Witness for claim C2: both branches of the set contract at concrete tiles. -/
theorem tile_pair_set_spec_witness :
    (let p : TilePair := ⟨⟨.Wall .Solid, .Rock⟩, ⟨.Floor .Slab, .Moss⟩, false⟩
     let t : Tile := ⟨.Floor .LavaRed, .Crypt⟩
     (p.set t).foreground.is_empty = true ∧ (p.set t).background = t) ∧
    (let p : TilePair := ⟨⟨.Empty, .Normal⟩, ⟨.Empty, .Normal⟩, false⟩
     let t : Tile := ⟨.Wall .Pillar, .Hive⟩
     (p.set t).foreground = t ∧
     (p.set t).background = { ty := .Floor .Tileset, tileset := t.tileset }) :=
  ⟨(tile_pair_set_spec _ _).1 ⟨.LavaRed, rfl⟩,
   (tile_pair_set_spec _ _).2 (fun f h => by simp at h)⟩

/-! ## Entity conversion (src/map/mod.rs, Tile::texture_info, Tile::into_bundle,
TilePair::into_entity)

The rendering side effects are modelled by the data that the source computes
and hands to the engine: for the foreground, an optional sprite (texture path,
atlas rectangle origin, flip) and an optional collider (present exactly for
wall shapes, identified by the shape whose collider geometry the source
builds); for the background, an optional sprite.  Spawning positions and the
engine handles are out of scope. -/

/-- Tileset::asset_path. -/
def Tileset.asset_path : Tileset → String
  | .BrickBlue => "tiles/brick_blue.png"
  | .BrickCyan => "tiles/brick_cyan.png"
  | .BrickGreen => "tiles/brick_green.png"
  | .BrickPurple => "tiles/brick_purple.png"
  | .BrickRed => "tiles/brick_red.png"
  | .BrickYellow => "tiles/brick_yellow.png"
  | .Catacomb => "tiles/catacomb.png"
  | .Cocutos => "tiles/cocutos.png"
  | .Crypt => "tiles/crypt.png"
  | .Gallery => "tiles/gallery.png"
  | .Gehena => "tiles/gehena.png"
  | .Hive => "tiles/hive.png"
  | .Lair => "tiles/lair.png"
  | .Lapis => "tiles/lapis.png"
  | .Moss => "tiles/moss.png"
  | .Mucus => "tiles/mucus.png"
  | .Normal => "tiles/normal.png"
  | .PandemBlue => "tiles/pandem_blue.png"
  | .PandemGreen => "tiles/pandem_green.png"
  | .PandemPurple => "tiles/pandem_purple.png"
  | .PandemRed => "tiles/pandem_red.png"
  | .PandemYellow => "tiles/pandem_yellow.png"
  | .Rock => "tiles/rock.png"
  | .Tunnel => "tiles/tunnel.png"

/-- Sprite data computed by Tile::texture_info: texture path, atlas rectangle
origin in pixels (the source multiplies the atlas cell by the tile diameter 64
and derives a 64 by 64 rectangle from this origin), and the flip flag. -/
structure SpriteInfo where
  texture : String
  rectOrigin : Nat × Nat
  flip : Bool
deriving DecidableEq, Repr

/-- Tile::texture_info.  On an Empty tile the source panics (unimplemented),
modelled as an error. -/
def Tile.texture_info (t : Tile) : Except String SpriteInfo :=
  match t.ty with
  | .Empty => .error "Should never convert empty tiles into tile bundle"
  | .Floor floor =>
      let texture : Option String :=
        match floor with
        | .Tileset => none
        | _ => some "tiles/misc.png"
      let index := floor.code
      let widthElems : Nat := match texture with | some _ => 16 | none => 8
      .ok ⟨texture.getD t.tileset.asset_path,
        ((index % widthElems) * 64, (index / widthElems) * 64), false⟩
  | .Wall shape =>
      let index := shape.code
      .ok ⟨t.tileset.asset_path, ((index % 8) * 64, (index / 8) * 64), false⟩
  | .DoorNS isOpen =>
      let index := 17 + (if isOpen then 2 else 0)
      .ok ⟨t.tileset.asset_path, ((index % 8) * 64, (index / 8) * 64), false⟩
  | .DoorEW isOpen =>
      let index := 16 + (if isOpen then 2 else 0)
      .ok ⟨t.tileset.asset_path, ((index % 8) * 64, (index / 8) * 64), false⟩
  | .Landmark ty flip =>
      let index := ty.code
      .ok ⟨"tiles/misc.png", ((index % 16) * 64, (index / 16) * 64), flip⟩

/-- Collider data of Tile::into_bundle: a collider is attached exactly for
wall tiles, with geometry determined by the wall shape. -/
def Tile.bundle_collider (t : Tile) : Option WallShape :=
  match t.ty with
  | .Wall shape => some shape
  | _ => none

/-- The spawned data of TilePair::into_entity. -/
structure SpawnParts where
  fgSprite : Option SpriteInfo
  fgCollider : Option WallShape
  bgSprite : Option SpriteInfo
deriving DecidableEq, Repr

/-- TilePair::into_entity, modelled as the data it spawns: if the pair is
plucked, the foreground type is replaced by Empty before rendering; an empty
foreground spawns a bare transform holder (no sprite, no collider); a nonempty
foreground spawns its bundle sprite plus its collider when one exists; a
nonempty background spawns its sprite as a child. -/
def TilePair.into_entity_parts (p : TilePair) : Except String SpawnParts :=
  let foreground := if p.plucked then { p.foreground with ty := .Empty } else p.foreground
  let background := p.background
  let fg : Except String (Option SpriteInfo × Option WallShape) :=
    if foreground.is_empty then .ok (none, none)
    else
      match foreground.texture_info with
      | .error e => .error e
      | .ok sprite => .ok (some sprite, foreground.bundle_collider)
  match fg with
  | .error e => .error e
  | .ok (fgSprite, fgCollider) =>
      if background.is_empty then .ok ⟨fgSprite, fgCollider, none⟩
      else
        match background.texture_info with
        | .error e => .error e
        | .ok sprite => .ok ⟨fgSprite, fgCollider, some sprite⟩

/-- Claim C6: for every nonempty TilePair with plucked set, the entity
conversion behaves as if the stored foreground were Empty: it spawns no
foreground sprite and no foreground collider, regardless of the stored
foreground type, and its whole result equals the conversion of the same pair
with the foreground type erased. -/
theorem plucked_into_entity_empty_foreground (p : TilePair)
    (hne : p.is_empty = false) (hp : p.plucked = true) :
    (∀ parts, p.into_entity_parts = .ok parts →
      parts.fgSprite = none ∧ parts.fgCollider = none) ∧
    p.into_entity_parts =
      TilePair.into_entity_parts { p with foreground := { p.foreground with ty := .Empty } } := by
  constructor
  · intro parts hparts
    rw [TilePair.into_entity_parts] at hparts
    simp only [hp, if_true] at hparts
    simp only [Tile.is_empty, if_true] at hparts
    split at hparts
    · cases hparts
      exact ⟨rfl, rfl⟩
    · split at hparts
      · cases hparts
      · cases hparts
        exact ⟨rfl, rfl⟩
  · rw [TilePair.into_entity_parts, TilePair.into_entity_parts]
    simp [hp]

/-- Witness for claim C6: a plucked wall pair spawns no foreground sprite or
collider and converts like an erased-foreground pair. -/
theorem plucked_into_entity_empty_foreground_witness :
    (let p : TilePair := ⟨⟨.Wall .Solid, .Rock⟩, ⟨.Floor .Tileset, .Rock⟩, true⟩
     (∀ parts, p.into_entity_parts = .ok parts →
        parts.fgSprite = none ∧ parts.fgCollider = none) ∧
     p.into_entity_parts =
       TilePair.into_entity_parts { p with foreground := { p.foreground with ty := .Empty } }) :=
  plucked_into_entity_empty_foreground _ (by decide) (by decide)

/-! ## TileRect (src/map/data.rs and src/map/gen.rs) -/

/-- Componentwise minimum, as IVec2::min. -/
def TilePos.minP (a b : TilePos) : TilePos := ⟨min a.x b.x, min a.y b.y⟩

/-- Componentwise maximum, as IVec2::max. -/
def TilePos.maxP (a b : TilePos) : TilePos := ⟨max a.x b.x, max a.y b.y⟩

/-- TileRect: an inclusive axis-aligned rectangle of tile positions. -/
structure TileRect where
  min : TilePos
  max : TilePos
deriving DecidableEq, Repr

/-- TileRect::new: sorts the two corners componentwise. -/
def TileRect.new (a b : TilePos) : TileRect := ⟨a.minP b, a.maxP b⟩

/-- TileRect::new_presorted. -/
def TileRect.new_presorted (a b : TilePos) : TileRect := ⟨a, b⟩

/-- TileRect::size: max - min per axis. -/
def TileRect.size (r : TileRect) : Int × Int := (r.max.x - r.min.x, r.max.y - r.min.y)

/-- TileRect::translate (the source mutates in place; here the moved rect is
returned). -/
def TileRect.translate (r : TileRect) (by_ : Int × Int) : TileRect :=
  ⟨⟨r.min.x + by_.1, r.min.y + by_.2⟩, ⟨r.max.x + by_.1, r.max.y + by_.2⟩⟩

/-- TileRect::split from gen.rs. -/
def TileRect.split (r : TileRect) (xAxis : Bool) (firstWidth : Int) : TileRect × TileRect :=
  if xAxis then
    let mid := r.min.x + firstWidth
    (TileRect.new_presorted r.min (TilePos.of mid r.max.y),
     TileRect.new_presorted (TilePos.of mid r.min.y) r.max)
  else
    let mid := r.min.y + firstWidth
    (TileRect.new_presorted r.min (TilePos.of r.max.x mid),
     TileRect.new_presorted (TilePos.of r.min.x mid) r.max)

/-- The inclusive integer range lo ..= hi as a list. -/
def intRange (lo hi : Int) : List Int :=
  (List.range (hi + 1 - lo).toNat).map fun (i : Nat) => lo + (i : Int)

theorem mem_intRange {lo hi a : Int} : a ∈ intRange lo hi ↔ lo ≤ a ∧ a ≤ hi := by
  unfold intRange
  simp only [List.mem_map, List.mem_range]
  constructor
  · rintro ⟨i, hi', rfl⟩
    omega
  · rintro ⟨h1, h2⟩
    exact ⟨(a - lo).toNat, by omega, by omega⟩

/-- TileRect::tiles from gen.rs: all positions, rows (y) outer, columns (x)
inner. -/
def TileRect.tiles (r : TileRect) : List TilePos :=
  (intRange r.min.y r.max.y).flatMap fun y =>
    (intRange r.min.x r.max.x).map fun x => TilePos.of x y

theorem mem_tiles {r : TileRect} {p : TilePos} :
    p ∈ r.tiles ↔ r.min.x ≤ p.x ∧ p.x ≤ r.max.x ∧ r.min.y ≤ p.y ∧ p.y ≤ r.max.y := by
  unfold TileRect.tiles
  simp only [List.mem_flatMap, List.mem_map]
  constructor
  · rintro ⟨y, hy, x, hx, rfl⟩
    rw [mem_intRange] at hy hx
    exact ⟨hx.1, hx.2, hy.1, hy.2⟩
  · rintro ⟨h1, h2, h3, h4⟩
    exact ⟨p.y, mem_intRange.mpr ⟨h3, h4⟩, p.x, mem_intRange.mpr ⟨h1, h2⟩, rfl⟩

/-! ## Chunk (src/map/mod.rs) -/

/-- The empty tile used by Chunk::new (note its tileset is Normal, unlike the
BrickBlue of the Default derive). -/
def emptyTileNormal : Tile := ⟨.Empty, .Normal⟩

/-- The all-empty tile pair of Chunk::new. -/
def emptyPair : TilePair := ⟨emptyTileNormal, emptyTileNormal, false⟩

/-- Chunk: a 32 by 32 block of tile pairs.  The dense array of the source is
modelled as a function from array index to pair; only indices below 1024 are
ever read or written. -/
structure Chunk where
  pos : ChunkPos
  tiles : Nat → TilePair

/-- Chunk::new. -/
def Chunk.new (pos : ChunkPos) : Chunk := ⟨pos, fun _ => emptyPair⟩

/-- Chunk::is_empty: every stored pair is empty. -/
def Chunk.is_empty (c : Chunk) : Bool :=
  (List.range (diameterTiles ^ 2)).all fun i => (c.tiles i).is_empty

/-- The i32 left shift by 5 used in Chunk::tile_positions; without overflow it
is multiplication by 32, and the tile coordinates involved are far inside the
i32 range. -/
def shl5 (a : Int) : Int := a * 32

/-- Chunk::tile_positions: absolute positions of all 1024 cells, in array
order (y outer, x inner), each computed as chunk coordinate shifted left by 5
orred with the cell offset. -/
def Chunk.tile_positions (c : Chunk) : List TilePos :=
  (intRange 0 (diameterTiles - 1 : Nat)).flatMap fun y =>
    (intRange 0 (diameterTiles - 1 : Nat)).map fun x =>
      TilePos.of (Int.lor (shl5 c.pos.x) x) (Int.lor (shl5 c.pos.y) y)

/-! ## Map (src/map/mod.rs) -/

/-- Map: the sparse chunk store.  The HashMap of the source becomes an
association list with unique keys (the entry API of the source never inserts a
duplicate); the only key iteration in the source (used_chunks) computes an
order-independent componentwise minimum and maximum, so list order is
unobservable. -/
structure Map where
  chunks : List (ChunkPos × Chunk)

/-- Map::new. -/
def Map.new : Map := ⟨[]⟩

/-- HashMap::get on the chunk store. -/
def Map.find_chunk (m : Map) (p : ChunkPos) : Option Chunk :=
  (m.chunks.find? fun e => e.1 == p).map Prod.snd

/-- The static ghost chunk of the Index impl: an all-empty chunk with position
(i32::MAX, i32::MAX). -/
def ghostChunk : Chunk := Chunk.new (ChunkPos.of 2147483647 2147483647)

/-- Index of ChunkPos for Map: a missing chunk reads as the shared immutable
ghost chunk, with no allocation. -/
def Map.index_chunk (m : Map) (p : ChunkPos) : Chunk :=
  (m.find_chunk p).getD ghostChunk

/-- The set of allocated chunk keys, in store order. -/
def Map.allocated (m : Map) : List ChunkPos := m.chunks.map Prod.fst

/-- IndexMut of ChunkPos for Map: get-or-create.  Returns the chunk handed to
the caller together with the updated store. -/
def Map.index_mut_chunk (m : Map) (p : ChunkPos) : Chunk × Map :=
  match m.find_chunk p with
  | some c => (c, m)
  | none => (Chunk.new p, ⟨m.chunks ++ [(p, Chunk.new p)]⟩)

/-- A mutation through the IndexMut of ChunkPos: get-or-create the chunk, then
replace it by f of it. -/
def Map.modify_chunk (m : Map) (p : ChunkPos) (f : Chunk → Chunk) : Map :=
  match m.find_chunk p with
  | some _ => ⟨m.chunks.map fun e => if e.1 == p then (e.1, f e.2) else e⟩
  | none => ⟨m.chunks ++ [(p, f (Chunk.new p))]⟩

/-- Index of TilePos for Map. -/
def Map.index_tile (m : Map) (p : TilePos) : TilePair :=
  (m.index_chunk (ChunkPos.fromTile p)).tiles (p.chunk_relative.chunk_index)

/-- Writing one cell of a chunk. -/
def Chunk.set_tile (c : Chunk) (i : Nat) (v : TilePair) : Chunk :=
  { c with tiles := fun j => if j = i then v else c.tiles j }

/-- Assignment through the IndexMut of TilePos for Map. -/
def Map.set_tile (m : Map) (p : TilePos) (v : TilePair) : Map :=
  m.modify_chunk (ChunkPos.fromTile p) fun c => c.set_tile (p.chunk_relative.chunk_index) v

/-! ### Read and write characterization -/

theorem chunk_relative_bounds (p : TilePos) :
    0 ≤ p.chunk_relative.x ∧ p.chunk_relative.x < 32 ∧
    0 ≤ p.chunk_relative.y ∧ p.chunk_relative.y < 32 := by
  obtain ⟨p1, p2, p3, p4, p5, p6⟩ := chunk_addressing_round_trip p.x p.y
  exact ⟨p3, p4, p5, p6⟩

theorem tile_decomposition (p : TilePos) :
    p.x = 32 * (ChunkPos.fromTile p).x + p.chunk_relative.x ∧
    p.y = 32 * (ChunkPos.fromTile p).y + p.chunk_relative.y := by
  obtain ⟨p1, p2, _⟩ := chunk_addressing_round_trip p.x p.y
  exact ⟨p1.symm, p2.symm⟩

/-- The in-chunk array index of the chunk-relative position, as the arithmetic
value determined by the remainders of the coordinates. -/
theorem chunk_relative_index (p : TilePos) :
    ((p.chunk_relative.chunk_index : Nat) : Int) = (p.y % 32) * 32 + (p.x % 32) := by
  rw [TilePos.chunk_relative, TilePos.chunk_index]
  show ((Int.land p.y 0x1F * (diameterTiles : Int) + Int.land p.x 0x1F).toNat : Int) = _
  have h₁ := int_land_31 p.x
  have h₂ := int_land_31 p.y
  rw [show ((0x1F : Int) = 31) from rfl] at h₁ h₂ ⊢
  rw [h₁, h₂, show ((diameterTiles : Int) = 32) from rfl]
  omega

/-- The chunk coordinates of a tile position are the flooring divisions. -/
theorem fromTile_eq_div (p : TilePos) :
    (ChunkPos.fromTile p).x = p.x / 32 ∧ (ChunkPos.fromTile p).y = p.y / 32 :=
  ⟨int_sar_5 p.x, int_sar_5 p.y⟩

/-- In-chunk array indices are below 1024. -/
theorem chunk_index_lt (p : TilePos) : p.chunk_relative.chunk_index < 1024 := by
  have h := chunk_relative_index p
  omega

/-- Chunk position and in-chunk array index together determine the tile
position. -/
theorem tile_pos_injective {p q : TilePos}
    (hc : ChunkPos.fromTile p = ChunkPos.fromTile q)
    (hi : p.chunk_relative.chunk_index = q.chunk_relative.chunk_index) : p = q := by
  have hcx : p.x / 32 = q.x / 32 := by
    rw [← (fromTile_eq_div p).1, ← (fromTile_eq_div q).1, hc]
  have hcy : p.y / 32 = q.y / 32 := by
    rw [← (fromTile_eq_div p).2, ← (fromTile_eq_div q).2, hc]
  have hip := chunk_relative_index p
  have hiq := chunk_relative_index q
  rw [hi] at hip
  obtain ⟨px, py⟩ := p
  obtain ⟨qx, qy⟩ := q
  simp only at hcx hcy hip hiq
  have hx : px = qx := by omega
  have hy : py = qy := by omega
  rw [hx, hy]

theorem key_of_modify_entry (e : ChunkPos × Chunk) (p : ChunkPos) (f : Chunk → Chunk) :
    ((if e.1 == p then (e.1, f e.2) else e)).1 = e.1 := by
  rcases hb : (e.1 == p) with _ | _ <;> simp [hb]

theorem find?_map_modify (l : List (ChunkPos × Chunk)) (p : ChunkPos) (f : Chunk → Chunk) :
    ((l.map fun e => if e.1 == p then (e.1, f e.2) else e).find? fun e => e.1 == p)
      = (l.find? fun e => e.1 == p).map fun e => (e.1, f e.2) := by
  induction l with
  | nil => rfl
  | cons e t ih =>
      rcases hb : (e.1 == p) with _ | _
      · have he : (if e.1 == p then (e.1, f e.2) else e) = e := by simp [hb]
        simp only [List.map_cons]
        rw [he]
        simp only [List.find?_cons, hb, cond_false]
        exact ih
      · have he : (if e.1 == p then (e.1, f e.2) else e) = (e.1, f e.2) := by simp [hb]
        simp only [List.map_cons]
        rw [he]
        simp only [List.find?_cons]
        rw [show (((e.1, f e.2) : ChunkPos × Chunk).1 == p) = true from hb]
        simp

theorem find?_map_modify_ne (l : List (ChunkPos × Chunk)) {p q : ChunkPos} (f : Chunk → Chunk)
    (hne : q ≠ p) :
    ((l.map fun e => if e.1 == p then (e.1, f e.2) else e).find? fun e => e.1 == q)
      = l.find? fun e => e.1 == q := by
  induction l with
  | nil => rfl
  | cons e t ih =>
      rcases hq : (e.1 == q) with _ | _
      · simp only [List.map_cons, List.find?_cons]
        rw [show ((if e.1 == p then (e.1, f e.2) else e).1 == q) = (e.1 == q) by
          rw [key_of_modify_entry], hq]
        simp only [cond_false]
        exact ih
      · have hep : (e.1 == p) = false := by
          rcases hp : (e.1 == p) with _ | _
          · rfl
          · exact absurd ((beq_iff_eq.mp hq).symm.trans (beq_iff_eq.mp hp)) hne
        have he : (if e.1 == p then (e.1, f e.2) else e) = e := by simp [hep]
        simp only [List.map_cons]
        rw [he]
        simp only [List.find?_cons, hq, cond_true]

theorem index_chunk_modify_self (m : Map) (p : ChunkPos) (f : Chunk → Chunk) :
    (m.modify_chunk p f).index_chunk p = f ((m.find_chunk p).getD (Chunk.new p)) := by
  rw [Map.modify_chunk]
  rcases h : m.find_chunk p with _ | c
  · rw [Map.index_chunk, Map.find_chunk]
    have hl : (m.chunks.find? fun e => e.1 == p) = none := by
      rw [Map.find_chunk] at h
      exact Option.map_eq_none'.mp h
    simp only [List.find?_append, hl, Option.none_or]
    simp [h]
  · rw [Map.index_chunk, Map.find_chunk]
    simp only [find?_map_modify]
    rw [Map.find_chunk] at h
    obtain ⟨e, he, rfl⟩ := Option.map_eq_some'.mp h
    simp [he, h]

theorem index_chunk_modify_ne (m : Map) {p q : ChunkPos} (f : Chunk → Chunk) (hne : q ≠ p) :
    (m.modify_chunk p f).index_chunk q = m.index_chunk q := by
  rw [Map.modify_chunk]
  rcases h : m.find_chunk p with _ | c
  · rw [Map.index_chunk, Map.find_chunk]
    simp only [List.find?_append]
    have h2 : (([(p, f (Chunk.new p))] : List (ChunkPos × Chunk)).find? fun e => e.1 == q)
        = none := by
      simp [List.find?, show (p == q) = false by simp [Ne.symm hne]]
    rw [h2]
    simp [Map.index_chunk, Map.find_chunk]
  · rw [Map.index_chunk, Map.find_chunk, find?_map_modify_ne _ _ hne]
    rfl

theorem allocated_modify_absent (m : Map) (p : ChunkPos) (f : Chunk → Chunk)
    (h : m.find_chunk p = none) :
    (m.modify_chunk p f).allocated = m.allocated ++ [p] := by
  rw [Map.modify_chunk, h]
  simp [Map.allocated]

theorem allocated_modify_present (m : Map) (p : ChunkPos) (f : Chunk → Chunk)
    (h : m.find_chunk p ≠ none) :
    (m.modify_chunk p f).allocated = m.allocated := by
  rw [Map.modify_chunk]
  rcases hc : m.find_chunk p with _ | c
  · exact absurd hc h
  · rw [Map.allocated, Map.allocated]
    show List.map Prod.fst (List.map _ m.chunks) = _
    rw [List.map_map]
    congr 1
    funext e
    show (if e.1 == p then (e.1, f e.2) else e).1 = e.1
    rw [key_of_modify_entry]

/-- The workhorse read-after-write lemma for single-cell assignment. -/
theorem index_tile_set (m : Map) (p : TilePos) (v : TilePair) (q : TilePos) :
    (m.set_tile p v).index_tile q = if q = p then v else m.index_tile q := by
  rcases hqp : decide (q = p) with _ | _
  · have hne : q ≠ p := of_decide_eq_false hqp
    rw [if_neg hne, Map.set_tile, Map.index_tile]
    rcases hc : decide (ChunkPos.fromTile q = ChunkPos.fromTile p) with _ | _
    · have hcne : ChunkPos.fromTile q ≠ ChunkPos.fromTile p := of_decide_eq_false hc
      rw [index_chunk_modify_ne _ _ hcne]
      rfl
    · have hceq : ChunkPos.fromTile q = ChunkPos.fromTile p := of_decide_eq_true hc
      rw [hceq, index_chunk_modify_self]
      have hine : q.chunk_relative.chunk_index ≠ p.chunk_relative.chunk_index :=
        fun hi => hne (tile_pos_injective hceq hi)
      rw [Chunk.set_tile]
      simp only [if_neg hine]
      rw [Map.index_tile, hceq]
      rcases h : m.find_chunk (ChunkPos.fromTile p) with _ | c
      · rw [Map.index_chunk, h]
        rfl
      · rw [Map.index_chunk, h]
        rfl
  · have heq : q = p := of_decide_eq_true hqp
    rw [if_pos heq, heq, Map.set_tile, Map.index_tile, index_chunk_modify_self,
      Chunk.set_tile]
    simp

/-- Reading any tile of the fresh map yields the all-empty pair. -/
theorem index_tile_new (p : TilePos) : Map.new.index_tile p = emptyPair := rfl

theorem find_chunk_none_iff (m : Map) (q : ChunkPos) :
    m.find_chunk q = none ↔ q ∉ m.allocated := by
  rw [Map.find_chunk, Option.map_eq_none', List.find?_eq_none, Map.allocated]
  constructor
  · intro h hq
    obtain ⟨e, he, hk⟩ := List.mem_map.mp hq
    have := h e he
    rw [hk] at this
    simp at this
  · intro h e he
    rcases hb : (e.1 == q) with _ | _
    · simp
    · exact absurd (List.mem_map.mpr ⟨e, he, beq_iff_eq.mp hb⟩) h

/-! ## Claim C9: reads never allocate, writes get-or-create -/

/-- Claim C9: reading through the immutable Index never changes the allocated
chunk set (the read is a pure function of the map; a position in an absent
chunk reads as the all-empty cell through the shared ghost chunk), while
IndexMut on a missing chunk allocates exactly that chunk (and leaves the map
unchanged when the chunk is already present). -/
theorem index_read_empty_index_mut_allocates (m : Map) (cp : ChunkPos) (p : TilePos) :
    (m.find_chunk cp = none → ∀ i, (m.index_chunk cp).tiles i = emptyPair) ∧
    (m.find_chunk (ChunkPos.fromTile p) = none → m.index_tile p = emptyPair) ∧
    (m.find_chunk cp = none →
      (m.index_mut_chunk cp).2.allocated = m.allocated ++ [cp]) ∧
    (m.find_chunk cp ≠ none → (m.index_mut_chunk cp).2 = m) := by
  refine ⟨?_, ?_, ?_, ?_⟩
  · intro h i
    rw [Map.index_chunk, h]
    rfl
  · intro h
    rw [Map.index_tile, Map.index_chunk, h]
    rfl
  · intro h
    rw [Map.index_mut_chunk, h]
    simp [Map.allocated]
  · intro h
    rw [Map.index_mut_chunk]
    rcases hc : m.find_chunk cp with _ | c
    · exact absurd hc h
    · rfl

/-- Witness for claim C9: the empty map observes an absent chunk as all-empty
without allocating, a write-access allocates it, and a second write-access on
the now-present chunk leaves the map unchanged. -/
theorem index_read_empty_index_mut_allocates_witness :
    (∀ i, (Map.new.index_chunk (ChunkPos.of 0 0)).tiles i = emptyPair) ∧
    Map.new.index_tile (TilePos.of 0 0) = emptyPair ∧
    ((Map.new.index_mut_chunk (ChunkPos.of 0 0)).2.allocated
      = Map.new.allocated ++ [ChunkPos.of 0 0]) ∧
    (((Map.new.index_mut_chunk (ChunkPos.of 0 0)).2.index_mut_chunk (ChunkPos.of 0 0)).2
      = (Map.new.index_mut_chunk (ChunkPos.of 0 0)).2) := by
  have h1 := (index_read_empty_index_mut_allocates Map.new (ChunkPos.of 0 0) (TilePos.of 0 0)).1
  have h2 := (index_read_empty_index_mut_allocates Map.new (ChunkPos.of 0 0) (TilePos.of 0 0)).2.1
  have h3 := (index_read_empty_index_mut_allocates Map.new (ChunkPos.of 0 0) (TilePos.of 0 0)).2.2.1
  have h4 := (index_read_empty_index_mut_allocates
    (Map.new.index_mut_chunk (ChunkPos.of 0 0)).2 (ChunkPos.of 0 0) (TilePos.of 0 0)).2.2.2
  refine ⟨h1 rfl, h2 rfl, ?_, ?_⟩
  · exact h3 rfl
  · refine h4 ?_
    intro hcontra
    rw [show (Map.new.index_mut_chunk (ChunkPos.of 0 0)).2.find_chunk (ChunkPos.of 0 0)
      = some (Chunk.new (ChunkPos.of 0 0)) from rfl] at hcontra
    cases hcontra

/-! ## Pseudo-random generator model

The source uses rand SmallRng seeded from a u64 (a deterministic function of
the seed) and thread_rng (ambient entropy).  Both are modelled as streams of
natural draws with a cursor; SmallRng::seed_from_u64 is abstracted by a
parameter seedFn from seed to stream.  The rand range samplers are modelled by
their contract: a draw reduced into the requested range, with an error where
rand panics (empty range). -/

/-- A generator state: the stream of raw draws and the position in it. -/
structure RngState where
  stream : Nat → Nat
  idx : Nat

/-- One raw draw. -/
def RngState.next (r : RngState) : Nat × RngState :=
  (r.stream r.idx, ⟨r.stream, r.idx + 1⟩)

/-- Rng::gen_range over a half-open i32 range lo..hi; panics (errors) when the
range is empty, otherwise yields a value in the range. -/
def gen_range (r : RngState) (lo hi : Int) : Except String (Int × RngState) :=
  if hi ≤ lo then .error "cannot sample empty range"
  else
    let (n, r') := r.next
    .ok (lo + (n : Int) % (hi - lo), r')

/-- Rng::gen_range over an inclusive range lo..=hi. -/
def gen_range_incl (r : RngState) (lo hi : Int) : Except String (Int × RngState) :=
  gen_range r lo (hi + 1)

/-- Rng::gen_bool(0.5). -/
def gen_bool (r : RngState) : Bool × RngState :=
  let (n, r') := r.next
  (n % 2 == 0, r')

/-- SliceRandom::choose: none on an empty slice, else a uniformly drawn
element. -/
def choose {α : Type} (l : List α) (r : RngState) : Option α × RngState :=
  if l.isEmpty then (none, r)
  else
    let (n, r') := r.next
    (l[n % l.length]?, r')

theorem gen_range_ok_bounds {r : RngState} {lo hi v : Int} {r' : RngState}
    (h : gen_range r lo hi = .ok (v, r')) : lo ≤ v ∧ v < hi := by
  rw [gen_range, RngState.next] at h
  rcases hlt : decide (hi ≤ lo) with _ | _
  · rw [if_neg (of_decide_eq_false hlt)] at h
    cases h
    have hpos : 0 < hi - lo := by
      have := of_decide_eq_false hlt
      omega
    have h1 := Int.emod_nonneg ((r.stream r.idx : Nat) : Int) (by omega : hi - lo ≠ 0)
    have h2 := Int.emod_lt_of_pos ((r.stream r.idx : Nat) : Int) hpos
    omega
  · rw [if_pos (of_decide_eq_true hlt)] at h
    cases h

theorem gen_range_incl_ok_bounds {r : RngState} {lo hi v : Int} {r' : RngState}
    (h : gen_range_incl r lo hi = .ok (v, r')) : lo ≤ v ∧ v ≤ hi := by
  have := @gen_range_ok_bounds r lo (hi + 1) v r' (by exact h)
  omega

theorem choose_mem {α : Type} {l : List α} {r : RngState} {a : α} {r' : RngState}
    (h : choose l r = (some a, r')) : a ∈ l := by
  rw [choose, RngState.next] at h
  rcases he : l.isEmpty with _ | _
  · rw [if_neg (by simp [he])] at h
    rw [Prod.mk.injEq] at h
    exact List.getElem?_mem h.1
  · rw [if_pos (by simp [List.isEmpty_iff.mp he])] at h
    rw [Prod.mk.injEq] at h
    cases h.1

/-! ## MutMap (src/map/mod.rs) -/

/-- MutMap: the map under construction together with its MapRng handle.  The
source shares one generator behind an Rc RefCell among the generation phases;
the embedding threads that shared generator state explicitly from call to
call, and the rng field below records the generator state the MutMap was
constructed with.  The source never draws through the field of a room map
(all draws go through the explicitly passed handle), which the determinism
theorem below makes precise. -/
structure MutMap where
  map : Map
  rng : RngState

/-- MutMap::new: seeds a fresh SmallRng from the given seed, or from a
thread_rng draw (the entropy stream) when none is given. -/
def MutMap.new (seedFn : Nat → Nat → Nat) (seed : Option Nat) (entropy : RngState) :
    MutMap × RngState :=
  match seed with
  | some s => ({ map := Map.new, rng := ⟨seedFn s, 0⟩ }, entropy)
  | none =>
      let (s, e') := entropy.next
      ({ map := Map.new, rng := ⟨seedFn s, 0⟩ }, e')

/-- MutMap::from_rng: a fresh map sharing the given generator handle. -/
def MutMap.from_rng (r : RngState) : MutMap := { map := Map.new, rng := r }

/-- The write self at pos set tile, through IndexMut of TilePos. -/
def Map.set_at (m : Map) (p : TilePos) (t : Tile) : Map :=
  m.set_tile p ((m.index_tile p).set t)

/-- MutMap::fill: set every cell of the inclusive sorted rectangle, rows outer,
columns inner. -/
def MutMap.fill (m : MutMap) (tile : Tile) (a b : TilePos) : MutMap :=
  { m with map := (TileRect.new a b).tiles.foldl (fun mm q => mm.set_at q tile) m.map }

/-- MutMap::fill_line: axis-aligned lines only; asserts (errors) on diagonal
input. -/
def MutMap.fill_line (m : MutMap) (tile : Tile) (a b : TilePos) : Except String MutMap :=
  let rect := TileRect.new a b
  if rect.min.y = rect.max.y then
    .ok { m with map := ((intRange rect.min.x rect.max.x).foldl
      (fun mm x => mm.set_at (TilePos.of x rect.min.y) tile) m.map) }
  else if rect.min.x = rect.max.x then
    .ok { m with map := ((intRange rect.min.y rect.max.y).foldl
      (fun mm y => mm.set_at (TilePos.of rect.min.x y) tile) m.map) }
  else .error "cannot fill diagonal lines"

/-- MutMap::fill_border: four fill_line calls tracing the sorted rectangle. -/
def MutMap.fill_border (m : MutMap) (tile : Tile) (a b : TilePos) :
    Except String MutMap :=
  let rect := TileRect.new a b
  (m.fill_line tile (TilePos.of rect.min.x rect.min.y) (TilePos.of rect.max.x rect.min.y)).bind
    fun m1 =>
      (m1.fill_line tile (TilePos.of rect.min.x rect.max.y)
          (TilePos.of rect.max.x rect.max.y)).bind
        fun m2 =>
          (m2.fill_line tile (TilePos.of rect.min.x rect.min.y)
              (TilePos.of rect.min.x rect.max.y)).bind
            fun m3 =>
              m3.fill_line tile (TilePos.of rect.max.x rect.min.y)
                (TilePos.of rect.max.x rect.max.y)

/-- i32::MAX. -/
def i32Max : Int := 2147483647

/-- i32::MIN. -/
def i32Min : Int := -2147483648

/-- Componentwise minimum of chunk positions (IVec2::min). -/
def ChunkPos.minC (a b : ChunkPos) : ChunkPos := ⟨min a.x b.x, min a.y b.y⟩

/-- Componentwise maximum of chunk positions (IVec2::max). -/
def ChunkPos.maxC (a b : ChunkPos) : ChunkPos := ⟨max a.x b.x, max a.y b.y⟩

/-- Map::used_chunks: componentwise minimum and maximum over the positions of
allocated, nonempty chunks, starting from the i32 extreme sentinels. -/
def Map.used_chunks (m : Map) : ChunkPos × ChunkPos :=
  m.chunks.foldl
    (fun acc e =>
      if (m.index_chunk e.1).is_empty then acc
      else (acc.1.minC e.1, acc.2.maxC e.1))
    (ChunkPos.of i32Max i32Max, ChunkPos.of i32Min i32Min)

/-- Map::used_tiles: scan the border chunks of the used_chunks rectangle for
nonempty cells and return the tight enclosing rectangle of those found. -/
def Map.used_tiles (m : Map) : TileRect :=
  let mc := m.used_chunks
  let minChunk := mc.1
  let maxChunk := mc.2
  let borderChunks : List ChunkPos :=
    ((intRange minChunk.x maxChunk.x).map fun x => ChunkPos.of x minChunk.y) ++
    ((intRange minChunk.x maxChunk.x).map fun x => ChunkPos.of x maxChunk.y) ++
    ((intRange (minChunk.y + 1) (maxChunk.y - 1)).map fun y => ChunkPos.of minChunk.x y) ++
    ((intRange (minChunk.y + 1) (maxChunk.y - 1)).map fun y => ChunkPos.of maxChunk.x y)
  let acc := borderChunks.foldl
    (fun acc chunkPos =>
      let chunk := m.index_chunk chunkPos
      (((List.range (diameterTiles ^ 2)).map chunk.tiles).zip chunk.tile_positions).foldl
        (fun acc tp =>
          if tp.1.is_empty then acc
          else (acc.1.minP tp.2, acc.2.maxP tp.2))
        acc)
    (TilePos.of i32Max i32Max, TilePos.of i32Min i32Min)
  TileRect.new_presorted acc.1 acc.2

/-- MutMap::copy_from: copy the used-tile rectangle of the other map into this
one, its minimum corner placed at destination; every cell of the rectangle is
assigned, empty ones included. -/
def MutMap.copy_from (m : MutMap) (other : MutMap) (destination : TilePos) : MutMap :=
  let rect := other.map.used_tiles
  { m with map :=
      ((intRange rect.min.y rect.max.y).foldl (fun mm y =>
        (intRange rect.min.x rect.max.x).foldl (fun mm x =>
          mm.set_tile
            (TilePos.of (destination.x + (x - rect.min.x)) (destination.y + (y - rect.min.y)))
            (other.map.index_tile (TilePos.of x y))) mm) m.map) }

/-! ## Prefab (src/map/mod.rs) -/

/-- Prefab: the parsed legend and the rows of the map drawing.  The size cache
field is omitted (it is a memo of a pure function of the rows). -/
structure Prefab where
  key : List (Char × TilePair)
  map : List String

/-- The outcome of a load-and-convert: a Rust panic, a typed error returned to
the caller, or success. -/
inductive LoadOutcome (α : Type) where
  | panicked (msg : String)
  | failed (msg : String)
  | ok (a : α)

/-- Whether the outcome is a panic. -/
def LoadOutcome.isPanicked {α : Type} : LoadOutcome α → Bool
  | .panicked _ => true
  | _ => false

/-- Whether the outcome is a typed failure. -/
def LoadOutcome.isFailed {α : Type} : LoadOutcome α → Bool
  | .failed _ => true
  | _ => false

/-- One row of Prefab::iter: space means no tile, any other character indexes
the legend through the panicking HashMap Index operator. -/
def prefab_cells (key : List (Char × TilePair)) (y : Nat) (chars : List Char) (x : Nat) :
    Except String (List (TilePos × TilePair)) :=
  match chars with
  | [] => .ok []
  | c :: rest =>
      if c = ' ' then prefab_cells key y rest (x + 1)
      else
        match key.lookup c with
        | none => .error "no entry found for key"
        | some t =>
            match prefab_cells key y rest (x + 1) with
            | .error e => .error e
            | .ok l => .ok ((TilePos.of (x : Int) (y : Int), t) :: l)

/-- Prefab::iter over all rows. -/
def prefab_rows (key : List (Char × TilePair)) (rows : List String) (y : Nat) :
    Except String (List (TilePos × TilePair)) :=
  match rows with
  | [] => .ok []
  | line :: rest =>
      match prefab_cells key y line.toList 0 with
      | .error e => .error e
      | .ok l =>
          match prefab_rows key rest (y + 1) with
          | .error e => .error e
          | .ok l2 => .ok (l ++ l2)

/-- Prefab::iter. -/
def Prefab.iter (p : Prefab) : Except String (List (TilePos × TilePair)) :=
  prefab_rows p.key p.map 0

/-- Prefab::into_map: build a MutMap and assign every parsed cell.  A missing
legend character panics inside iter; when iteration succeeds the Rust function
always returns Ok. -/
def Prefab.into_map (p : Prefab) (seedFn : Nat → Nat → Nat) (seed : Option Nat)
    (entropy : RngState) : LoadOutcome MutMap :=
  match p.iter with
  | .error e => .panicked e
  | .ok cells =>
      let res := (MutMap.new seedFn seed entropy).1
      .ok { res with map := (cells.foldl (fun mm c => mm.set_tile c.1 c.2) res.map) }

/-- Prefab::copy_into: assign every parsed cell offset by origin into the given
map.  A missing legend character panics. -/
def Prefab.copy_into (p : Prefab) (m : MutMap) (origin : TilePos) : LoadOutcome MutMap :=
  match p.iter with
  | .error e => .panicked e
  | .ok cells =>
      .ok { m with map := (cells.foldl
        (fun mm c => mm.set_tile (TilePos.of (c.1.x + origin.x) (c.1.y + origin.y)) c.2)
        m.map) }

/-- Whether some row of the prefab holds a non-space character missing from
the legend. -/
def Prefab.has_missing_key (p : Prefab) : Bool :=
  p.map.any fun line => line.toList.any fun c => c ≠ ' ' && (p.key.lookup c).isNone

theorem prefab_cells_missing_error (key : List (Char × TilePair)) (y : Nat)
    (chars : List Char) (x : Nat)
    (h : ∃ c ∈ chars, c ≠ ' ' ∧ key.lookup c = none) :
    ∃ e, prefab_cells key y chars x = .error e := by
  induction chars generalizing x with
  | nil => simp at h
  | cons c rest ih =>
      rw [prefab_cells]
      rcases h with ⟨c', hmem, hns, hnone⟩
      rcases List.mem_cons.mp hmem with rfl | hmem'
      · rw [if_neg hns, hnone]
        exact ⟨_, rfl⟩
      · rcases hsp : decide (c = ' ') with _ | _
        · rw [if_neg (of_decide_eq_false hsp)]
          rcases hk : key.lookup c with _ | t
          · exact ⟨_, rfl⟩
          · obtain ⟨e, he⟩ := ih (x + 1) ⟨c', hmem', hns, hnone⟩
            rw [he]
            exact ⟨e, rfl⟩
        · rw [if_pos (of_decide_eq_true hsp)]
          exact ih (x + 1) ⟨c', hmem', hns, hnone⟩

theorem prefab_rows_missing_error (key : List (Char × TilePair)) (rows : List String)
    (y : Nat)
    (h : ∃ line ∈ rows, ∃ c ∈ line.toList, c ≠ ' ' ∧ key.lookup c = none) :
    ∃ e, prefab_rows key rows y = .error e := by
  induction rows generalizing y with
  | nil => simp at h
  | cons line rest ih =>
      rw [prefab_rows]
      rcases h with ⟨line', hmem, hc⟩
      rcases List.mem_cons.mp hmem with rfl | hmem'
      · obtain ⟨e, he⟩ := prefab_cells_missing_error key y line'.toList 0 hc
        rw [he]
        exact ⟨e, rfl⟩
      · rcases hrow : prefab_cells key y line.toList 0 with e | l
        · exact ⟨e, rfl⟩
        · obtain ⟨e, he⟩ := ih (y + 1) ⟨line', hmem', hc⟩
          rw [he]
          exact ⟨e, rfl⟩

/-! ## Claim C8 (corrected): a missing legend character panics, it is not a
typed error -/

/-- Counterexample for claim C8 as stated: converting the concrete prefab
whose rows contain the character dot with a legend holding only the hash
character does not surface a typed failure to the caller; it panics inside
the legend lookup of Prefab::iter (the HashMap Index operator), for any seed
function, seed choice and entropy.  The claim said such input fails with a
typed, descriptive error rather than a crash. -/
theorem prefab_missing_key_panics_counterexample :
    (Prefab.into_map
        ⟨[('#', ⟨⟨.Wall .Solid, .Rock⟩, ⟨.Floor .Tileset, .Rock⟩, false⟩)], ["#.#"]⟩
        (fun _ _ => 0) none ⟨fun _ => 0, 0⟩).isPanicked = true ∧
    (Prefab.into_map
        ⟨[('#', ⟨⟨.Wall .Solid, .Rock⟩, ⟨.Floor .Tileset, .Rock⟩, false⟩)], ["#.#"]⟩
        (fun _ _ => 0) none ⟨fun _ => 0, 0⟩).isFailed = false := by
  constructor <;> rfl

/-- Claim C8, amended: if any non-space character of the prefab rows is
missing from the legend, then converting the prefab (into_map, and likewise
copy_into) panics — it does not return a typed error, and it does not
succeed.  Typed errors are produced only by the I/O and deserialization layer
of load_blocking, which does not validate the legend. -/
theorem prefab_missing_key_panics (p : Prefab) (seedFn : Nat → Nat → Nat)
    (seed : Option Nat) (entropy : RngState) (m : MutMap) (origin : TilePos)
    (h : p.has_missing_key = true) :
    (p.into_map seedFn seed entropy).isPanicked = true ∧
    (p.copy_into m origin).isPanicked = true := by
  rw [Prefab.has_missing_key, List.any_eq_true] at h
  obtain ⟨line, hline, hc⟩ := h
  rw [List.any_eq_true] at hc
  obtain ⟨c, hcmem, hcprop⟩ := hc
  rw [Bool.and_eq_true, Option.isNone_iff_eq_none] at hcprop
  have hex : ∃ line ∈ p.map, ∃ c ∈ line.toList, c ≠ ' ' ∧ p.key.lookup c = none :=
    ⟨line, hline, c, hcmem, by simpa using hcprop.1, hcprop.2⟩
  obtain ⟨e, he⟩ := prefab_rows_missing_error p.key p.map 0 hex
  constructor
  · rw [Prefab.into_map, Prefab.iter, he]
    rfl
  · rw [Prefab.copy_into, Prefab.iter, he]
    rfl

/-- Witness for the amended claim C8: the concrete prefab with a dot missing
from its legend panics in both conversion paths. -/
theorem prefab_missing_key_panics_witness :
    ((⟨[('#', ⟨⟨.Wall .Solid, .Rock⟩, ⟨.Floor .Tileset, .Rock⟩, false⟩)], ["#.#"]⟩ :
        Prefab).has_missing_key = true) ∧
    ((Prefab.copy_into
        ⟨[('#', ⟨⟨.Wall .Solid, .Rock⟩, ⟨.Floor .Tileset, .Rock⟩, false⟩)], ["#.#"]⟩
        (MutMap.from_rng ⟨fun _ => 0, 0⟩) (TilePos.of 0 0)).isPanicked = true) :=
  ⟨by decide,
   (prefab_missing_key_panics _ (fun _ _ => 0) none ⟨fun _ => 0, 0⟩
      (MutMap.from_rng ⟨fun _ => 0, 0⟩) (TilePos.of 0 0) (by decide)).2⟩

/-! ## Map::find_tile (src/map/mod.rs): breadth-first search -/

/-- The finite set of coordinate pairs of tile positions whose chunk lies in
the inclusive chunk rectangle. -/
def chunk_bounds_set (minChunk maxChunk : ChunkPos) : Finset (Int × Int) :=
  Finset.Icc (32 * minChunk.x, 32 * minChunk.y) (32 * maxChunk.x + 31, 32 * maxChunk.y + 31)

/-- The in-bounds test of find_tile on a neighbor position. -/
def chunk_in_bounds (minChunk maxChunk : ChunkPos) (other : TilePos) : Prop :=
  minChunk.x ≤ (ChunkPos.fromTile other).x ∧ (ChunkPos.fromTile other).x ≤ maxChunk.x ∧
  minChunk.y ≤ (ChunkPos.fromTile other).y ∧ (ChunkPos.fromTile other).y ≤ maxChunk.y

instance (minChunk maxChunk : ChunkPos) (other : TilePos) :
    Decidable (chunk_in_bounds minChunk maxChunk other) := by
  rw [chunk_in_bounds]
  infer_instance

theorem chunk_in_bounds_mem {minChunk maxChunk : ChunkPos} {other : TilePos}
    (h : chunk_in_bounds minChunk maxChunk other) :
    (other.x, other.y) ∈ chunk_bounds_set minChunk maxChunk := by
  obtain ⟨h1, h2, h3, h4⟩ := h
  rw [ChunkPos.fromTile] at h1 h2 h3 h4
  simp only at h1 h2 h3 h4
  rw [int_sar_5] at h1 h2
  rw [int_sar_5] at h3 h4
  rw [chunk_bounds_set, Finset.mem_Icc]
  constructor
  · constructor <;> simp only [Prod.fst, Prod.snd] <;> omega
  · constructor <;> simp only [Prod.fst, Prod.snd] <;> omega

/-- One expansion step of find_tile: push each not-yet-enqueued in-bounds Moore
neighbor onto the queue, marking it enqueued. -/
def bfs_expand (minChunk maxChunk : ChunkPos) (neighbors : List TilePos)
    (acc : List TilePos × Finset (Int × Int)) : List TilePos × Finset (Int × Int) :=
  neighbors.foldl
    (fun acc other =>
      if ¬ chunk_in_bounds minChunk maxChunk other ∨ (other.x, other.y) ∈ acc.2 then acc
      else (acc.1 ++ [other], insert (other.x, other.y) acc.2))
    acc

theorem bfs_expand_mono (minChunk maxChunk : ChunkPos) (neighbors : List TilePos)
    (acc : List TilePos × Finset (Int × Int)) :
    acc.2 ⊆ (bfs_expand minChunk maxChunk neighbors acc).2 := by
  induction neighbors generalizing acc with
  | nil => exact fun x h => h
  | cons n rest ih =>
      rw [bfs_expand, List.foldl_cons]
      rcases hc : decide (¬ chunk_in_bounds minChunk maxChunk n ∨ (n.x, n.y) ∈ acc.2)
        with _ | _
      · rw [if_neg (of_decide_eq_false hc)]
        intro x hx
        exact ih _ (Finset.mem_insert_of_mem hx)
      · rw [if_pos (of_decide_eq_true hc)]
        exact ih _

theorem bfs_expand_bounded (minChunk maxChunk : ChunkPos) (neighbors : List TilePos)
    (acc : List TilePos × Finset (Int × Int)) :
    (bfs_expand minChunk maxChunk neighbors acc).2
      ⊆ acc.2 ∪ chunk_bounds_set minChunk maxChunk := by
  induction neighbors generalizing acc with
  | nil => exact Finset.subset_union_left
  | cons n rest ih =>
      rw [bfs_expand, List.foldl_cons]
      rcases hc : decide (¬ chunk_in_bounds minChunk maxChunk n ∨ (n.x, n.y) ∈ acc.2)
        with _ | _
      · rw [if_neg (of_decide_eq_false hc)]
        have hin : chunk_in_bounds minChunk maxChunk n := by
          have := of_decide_eq_false hc
          push_neg at this
          exact this.1
        intro x hx
        rcases Finset.mem_union.mp (ih _ hx) with hx1 | hx2
        · rcases Finset.mem_insert.mp hx1 with rfl | hold
          · exact Finset.mem_union_right _ (chunk_in_bounds_mem hin)
          · exact Finset.mem_union_left _ hold
        · exact Finset.mem_union_right _ hx2
      · rw [if_pos (of_decide_eq_true hc)]
        exact ih _

theorem bfs_expand_queue_stable (minChunk maxChunk : ChunkPos) (neighbors : List TilePos)
    (acc : List TilePos × Finset (Int × Int))
    (h : (bfs_expand minChunk maxChunk neighbors acc).2 = acc.2) :
    (bfs_expand minChunk maxChunk neighbors acc).1 = acc.1 := by
  induction neighbors generalizing acc with
  | nil => rfl
  | cons n rest ih =>
      rw [bfs_expand, List.foldl_cons] at h ⊢
      rcases hc : decide (¬ chunk_in_bounds minChunk maxChunk n ∨ (n.x, n.y) ∈ acc.2)
        with _ | _
      · rw [if_neg (of_decide_eq_false hc)] at h ⊢
        exfalso
        have hsub := bfs_expand_mono minChunk maxChunk rest
          (acc.1 ++ [n], insert (n.x, n.y) acc.2)
        have hmem : (n.x, n.y) ∈ acc.2 := by
          rw [← h]
          exact hsub (Finset.mem_insert_self _ _)
        have := of_decide_eq_false hc
        push_neg at this
        exact absurd hmem this.2
      · rw [if_pos (of_decide_eq_true hc)] at h ⊢
        exact ih _ h

/-- Every queue entry of the expanded state is an old entry or an in-bounds
neighbor. -/
theorem bfs_expand_queue_mem (minChunk maxChunk : ChunkPos) (neighbors : List TilePos)
    (acc : List TilePos × Finset (Int × Int)) (q : TilePos)
    (hq : q ∈ (bfs_expand minChunk maxChunk neighbors acc).1) :
    q ∈ acc.1 ∨ (q ∈ neighbors ∧ chunk_in_bounds minChunk maxChunk q) := by
  induction neighbors generalizing acc with
  | nil => exact Or.inl hq
  | cons n rest ih =>
      rw [bfs_expand, List.foldl_cons] at hq
      rcases hc : decide (¬ chunk_in_bounds minChunk maxChunk n ∨ (n.x, n.y) ∈ acc.2)
        with _ | _
      · rw [if_neg (of_decide_eq_false hc)] at hq
        have hle := of_decide_eq_false hc
        push_neg at hle
        rcases ih _ hq with hold | hnew
        · rcases List.mem_append.mp hold with h1 | h2
          · exact Or.inl h1
          · rcases List.mem_singleton.mp h2 with rfl
            exact Or.inr ⟨List.mem_cons_self _ _, hle.1⟩
        · exact Or.inr ⟨List.mem_cons_of_mem _ hnew.1, hnew.2⟩
      · rw [if_pos (of_decide_eq_true hc)] at hq
        rcases ih _ hq with hold | hnew
        · exact Or.inl hold
        · exact Or.inr ⟨List.mem_cons_of_mem _ hnew.1, hnew.2⟩

theorem bfs_measure_decreases (minChunk maxChunk : ChunkPos) (neighbors : List TilePos)
    (acc : List TilePos × Finset (Int × Int))
    (h : (bfs_expand minChunk maxChunk neighbors acc).2 ≠ acc.2) :
    (chunk_bounds_set minChunk maxChunk \ (bfs_expand minChunk maxChunk neighbors acc).2).card
      < (chunk_bounds_set minChunk maxChunk \ acc.2).card := by
  apply Finset.card_lt_card
  rw [Finset.ssubset_iff_of_subset]
  · have hmono := bfs_expand_mono minChunk maxChunk neighbors acc
    have hne : ¬ (bfs_expand minChunk maxChunk neighbors acc).2 ⊆ acc.2 := by
      intro hsub
      exact h (Finset.Subset.antisymm hsub hmono)
    obtain ⟨x, hx1, hx2⟩ := Finset.not_subset.mp hne
    refine ⟨x, Finset.mem_sdiff.mpr ⟨?_, hx2⟩, fun hcon => ?_⟩
    · rcases Finset.mem_union.mp (bfs_expand_bounded minChunk maxChunk neighbors acc hx1)
        with h1 | h2
      · exact absurd h1 hx2
      · exact h2
    · exact absurd hx1 (Finset.mem_sdiff.mp hcon).2
  · intro x hx
    rw [Finset.mem_sdiff] at hx ⊢
    exact ⟨hx.1, fun hcon => hx.2 (bfs_expand_mono minChunk maxChunk neighbors acc hcon)⟩

/-- The search loop of Map::find_tile.  The queue is the VecDeque (front
first); enq is the enqueued set of coordinate pairs. -/
def find_tile_bfs (m : Map) (pred : TilePos → TilePair → Bool) (minChunk maxChunk : ChunkPos)
    (queue : List TilePos) (enq : Finset (Int × Int)) : Option TilePos :=
  match queue with
  | [] => none
  | tile :: rest =>
      if pred tile (m.index_tile tile) then some tile
      else
        let step := bfs_expand minChunk maxChunk tile.moore_neighborhood (rest, enq)
        find_tile_bfs m pred minChunk maxChunk step.1 step.2
termination_by ((chunk_bounds_set minChunk maxChunk \ enq).card, queue.length)
decreasing_by
  rcases hchange : decide
      ((bfs_expand minChunk maxChunk tile.moore_neighborhood (rest, enq)).2 = enq)
    with _ | _
  · have hne := of_decide_eq_false hchange
    exact Prod.Lex.left _ _ (bfs_measure_decreases minChunk maxChunk _ (rest, enq) hne)
  · have heq := of_decide_eq_true hchange
    have hqe := bfs_expand_queue_stable minChunk maxChunk tile.moore_neighborhood
      (rest, enq) heq
    rw [heq, hqe]
    exact Prod.Lex.right _ (by simp [List.length_cons])

/-- Map::find_tile. -/
def Map.find_tile (m : Map) (position : TilePos) (pred : TilePos → TilePair → Bool) :
    Option TilePos :=
  let mc := m.used_chunks
  find_tile_bfs m pred mc.1 mc.2 [position] {(position.x, position.y)}

theorem find_tile_bfs_sound (m : Map) (pred : TilePos → TilePair → Bool)
    (minChunk maxChunk : ChunkPos) (queue : List TilePos) (enq : Finset (Int × Int)) :
    find_tile_bfs m pred minChunk maxChunk queue enq = none ∨
      ∃ p, find_tile_bfs m pred minChunk maxChunk queue enq = some p ∧
        pred p (m.index_tile p) = true := by
  induction queue, enq using find_tile_bfs.induct m pred minChunk maxChunk with
  | case1 e =>
      left
      rw [find_tile_bfs]
  | case2 e t r hpred =>
      right
      refine ⟨t, ?_, hpred⟩
      rw [find_tile_bfs, if_pos hpred]
  | case3 e t r hpred step ih =>
      rw [find_tile_bfs, if_neg hpred]
      exact ih

theorem find_tile_bfs_result_inv (m : Map) (pred : TilePos → TilePair → Bool)
    (minChunk maxChunk : ChunkPos) (P : TilePos → Prop)
    (hP : ∀ nb, chunk_in_bounds minChunk maxChunk nb → P nb)
    (queue : List TilePos) (enq : Finset (Int × Int)) (hq : ∀ q ∈ queue, P q) :
    ∀ p, find_tile_bfs m pred minChunk maxChunk queue enq = some p → P p := by
  induction queue, enq using find_tile_bfs.induct m pred minChunk maxChunk with
  | case1 e =>
      intro p hp
      rw [find_tile_bfs] at hp
      cases hp
  | case2 e t r hpred =>
      intro p hp
      rw [find_tile_bfs, if_pos hpred] at hp
      cases hp
      exact hq _ (List.mem_cons_self _ _)
  | case3 e t r hpred step ih =>
      intro p hp
      rw [find_tile_bfs, if_neg hpred] at hp
      refine ih ?_ p hp
      intro q hqmem
      rcases bfs_expand_queue_mem minChunk maxChunk t.moore_neighborhood (r, e) q hqmem
        with hold | hnew
      · exact hq _ (List.mem_cons_of_mem _ hold)
      · exact hP _ hnew.2

/-! ## Claim C10: find_tile terminates and is sound -/

/-- Claim C10: for every map state (including one with no allocated or no
nonempty chunks), every start position and every predicate, Map::find_tile
terminates — it is a total function in this embedding, well-founded on the
finite set of positions inside the used_chunks rectangle not yet enqueued
(each position enters the enqueued set at most once, and only in-bounds
positions are ever added) — and either returns some position satisfying the
predicate, a position that is the start itself or lies inside the used_chunks
rectangle, or returns none after exhausting the frontier. -/
theorem find_tile_terminates_sound (m : Map) (position : TilePos)
    (pred : TilePos → TilePair → Bool) :
    (m.find_tile position pred = none ∨
      ∃ p, m.find_tile position pred = some p ∧ pred p (m.index_tile p) = true) ∧
    (∀ p, m.find_tile position pred = some p →
      p = position ∨ chunk_in_bounds m.used_chunks.1 m.used_chunks.2 p) := by
  constructor
  · exact find_tile_bfs_sound m pred m.used_chunks.1 m.used_chunks.2 [position]
      {(position.x, position.y)}
  · intro p hp
    refine find_tile_bfs_result_inv m pred m.used_chunks.1 m.used_chunks.2
      (fun q => q = position ∨ chunk_in_bounds m.used_chunks.1 m.used_chunks.2 q)
      (fun nb h => Or.inr h) [position] {(position.x, position.y)} ?_ p hp
    intro q hqmem
    rcases List.mem_singleton.mp hqmem with rfl
    exact Or.inl rfl

/-- Witness for claim C10: on the empty map with the always-true predicate the
search returns the start position, which satisfies the result soundness and
the bound. -/
theorem find_tile_terminates_sound_witness :
    (Map.new.find_tile (TilePos.of 0 0) (fun _ _ => true) = none ∨
      ∃ p, Map.new.find_tile (TilePos.of 0 0) (fun _ _ => true) = some p ∧
        (fun (_ : TilePos) (_ : TilePair) => true) p (Map.new.index_tile p) = true) ∧
    (TilePos.of 0 0 = TilePos.of 0 0 ∨
      chunk_in_bounds Map.new.used_chunks.1 Map.new.used_chunks.2 (TilePos.of 0 0)) := by
  have h := find_tile_terminates_sound Map.new (TilePos.of 0 0) (fun _ _ => true)
  refine ⟨h.1, h.2 (TilePos.of 0 0) ?_⟩
  rw [Map.find_tile, find_tile_bfs]
  simp

/-! ## Dungeon generator (src/map/gen.rs) -/

/-- TileRect::tile_on_border: draw one of the four edges, then a uniform
coordinate along it.  The unreachable arm of the source match is kept as an
error. -/
def TileRect.tile_on_border (r : TileRect) (rng : RngState) :
    Except String (TilePos × RngState) :=
  match gen_range rng 0 4 with
  | .error e => .error e
  | .ok (dir, rng) =>
      if dir = 0 ∨ dir = 1 then
        match gen_range_incl rng r.min.x r.max.x with
        | .error e => .error e
        | .ok (x, rng) =>
            let y := if dir % 2 = 0 then r.min.y else r.max.y
            .ok (TilePos.of x y, rng)
      else if dir = 2 ∨ dir = 3 then
        match gen_range_incl rng r.min.y r.max.y with
        | .error e => .error e
        | .ok (y, rng) =>
            let x := if dir % 2 = 0 then r.min.x else r.max.x
            .ok (TilePos.of x y, rng)
      else .error "internal error: entered unreachable code"

/-- Weight of a BSP work item for the termination measure of the split loop. -/
def bsp_weight (d : Nat) : Nat := if d ≥ 4 then 1 else 3 ^ (5 - d)

/-- Termination measure of the BSP loop: total weight of the queue. -/
def bsp_measure (queue : List (Nat × Bool × TileRect)) : Nat :=
  (queue.map fun it => bsp_weight it.1).sum

theorem bsp_weight_pos (d : Nat) : 0 < bsp_weight d := by
  rw [bsp_weight]
  rcases hd : decide (d ≥ 4) with _ | _
  · rw [if_neg (of_decide_eq_false hd)]
    positivity
  · rw [if_pos (of_decide_eq_true hd)]
    norm_num

theorem bsp_weight_step (d : Nat) (h : ¬ d > 3) : 2 * bsp_weight (d + 1) < bsp_weight d := by
  have hd : d ≤ 3 := by omega
  interval_cases d <;> norm_num [bsp_weight]

/-- The BSP partition loop of generate_map.  The VecDeque of the source only
sees push_back and pop_back after the initial push_front on the empty deque,
so it is held here back to front: the list head is the deque back. -/
def bsp_loop (queue : List (Nat × Bool × TileRect)) (allRects roomRects : List TileRect)
    (rng : RngState) : Except String (List TileRect × List TileRect × RngState) :=
  match queue with
  | [] => .ok (allRects, roomRects, rng)
  | (depth, xAxis, rect) :: rest =>
      if depth > 3 then bsp_loop rest (allRects ++ [rect]) (roomRects ++ [rect]) rng
      else
        let size := if xAxis then rect.size.1 else rect.size.2
        match gen_range rng (Int.tdiv (-size) 4) (Int.tdiv size 4) with
        | .error e => .error e
        | .ok (j, rng) =>
            let firstWidth := Int.tdiv size 2 + j
            let lr := rect.split xAxis firstWidth
            bsp_loop ((depth + 1, !xAxis, lr.2) :: (depth + 1, !xAxis, lr.1) :: rest)
              (allRects ++ [rect]) roomRects rng
termination_by bsp_measure queue
decreasing_by
  · simp only [bsp_measure, List.map_cons, List.sum_cons]
    have := bsp_weight_pos depth
    omega
  · simp only [bsp_measure, List.map_cons, List.sum_cons]
    have := bsp_weight_step depth (by assumption)
    omega

/-- The hallway floor tile of generate_map. -/
def floor_rock : Tile := ⟨.Floor .Tileset, .Rock⟩

/-- The inferred wall tile of generate_map. -/
def wall_rock : Tile := ⟨.Wall .Solid, .Rock⟩

/-- The hallway-carving loop: fill_border every recorded rectangle with rock
floor. -/
def hall_fill (rects : List TileRect) (res : MutMap) : Except String MutMap :=
  match rects with
  | [] => .ok res
  | rect :: rest =>
      match res.fill_border floor_rock rect.min rect.max with
      | .error e => .error e
      | .ok res2 => hall_fill rest res2

/-- The write res at pos set tile on a MutMap. -/
def MutMap.set_at_mm (m : MutMap) (p : TilePos) (t : Tile) : MutMap :=
  { m with map := m.map.set_at p t }

/-- The tileset list of generate_room, in source order. -/
def room_tilesets : List Tileset :=
  [.BrickBlue, .BrickCyan, .BrickGreen, .BrickPurple, .BrickRed, .BrickYellow,
   .Catacomb, .Cocutos, .Crypt, .Gallery, .Gehena, .Hive, .Lair, .Lapis,
   .Moss, .Mucus, .Normal, .PandemBlue, .PandemGreen, .PandemPurple,
   .PandemRed, .PandemYellow, .Rock, .Tunnel]

/-- The bounded retry loop that places a single door on the room border:
reject positions in von-Neumann range of an existing door, reject corner
positions with no opposing wall pair, place a NS door between north and south
walls or an EW door between east and west walls. -/
def place_door_attempts (fuel : Nat) (rng : RngState) (res : MutMap) (rect : TileRect)
    (tileset : Tileset) (doors : List TilePos) :
    Except String (MutMap × List TilePos × RngState) :=
  match fuel with
  | 0 => .ok (res, doors, rng)
  | fuel + 1 =>
      match rect.tile_on_border rng with
      | .error e => .error e
      | .ok (pos, rng) =>
          if pos.von_neumann_neighborhood.any (fun nb => (res.map.index_tile nb).is_door)
          then place_door_attempts fuel rng res rect tileset doors
          else
            if (res.map.index_tile (pos.neighbor .North)).is_wall &&
                (res.map.index_tile (pos.neighbor .South)).is_wall then
              .ok (res.set_at_mm pos ⟨.DoorNS false, tileset⟩, doors ++ [pos], rng)
            else if (res.map.index_tile (pos.neighbor .East)).is_wall &&
                (res.map.index_tile (pos.neighbor .West)).is_wall then
              .ok (res.set_at_mm pos ⟨.DoorEW false, tileset⟩, doors ++ [pos], rng)
            else place_door_attempts fuel rng res rect tileset doors

/-- The outer door loop of generate_room: numDoors rounds of the retry loop,
asserting after each round that at least one door has been placed. -/
def place_doors (n : Nat) (rng : RngState) (res : MutMap) (rect : TileRect)
    (tileset : Tileset) (doors : List TilePos) :
    Except String (MutMap × List TilePos × RngState) :=
  match n with
  | 0 => .ok (res, doors, rng)
  | n + 1 =>
      match place_door_attempts 1000 rng res rect tileset doors with
      | .error e => .error e
      | .ok (res2, doors2, rng2) =>
          if doors2.isEmpty then .error "could not place any doors"
          else place_doors n rng2 res2 rect tileset doors2

/-- generate_room from gen.rs: an independent MutMap (seeded from thread
entropy, never drawn from), floor fill, wall border, one shrine landmark at a
random interior position, and 1 to 4 doors on the border. -/
def generate_room (seedFn : Nat → Nat → Nat) (rng : RngState) (rect : TileRect)
    (entropy : RngState) :
    Except String ((MutMap × List TilePos) × RngState × RngState) :=
  let resE := MutMap.new seedFn none entropy
  match choose room_tilesets rng with
  | (none, _) => .error "called Option unwrap on a None value"
  | (some tileset, rng) =>
      let res := resE.1.fill ⟨.Floor .Tileset, tileset⟩ rect.min rect.max
      match res.fill_border ⟨.Wall .Solid, tileset⟩ rect.min rect.max with
      | .error e => .error e
      | .ok res =>
          match choose [Landmark.ShrineIdol, Landmark.ShrineSkulls] rng with
          | (none, _) => .error "called Option unwrap on a None value"
          | (some shrineType, rng) =>
              match gen_range rng (rect.min.x + 1) rect.max.x with
              | .error e => .error e
              | .ok (sx, rng) =>
                  match gen_range rng (rect.min.y + 1) rect.max.y with
                  | .error e => .error e
                  | .ok (sy, rng) =>
                      let fb := gen_bool rng
                      let res := res.set_at_mm (TilePos.of sx sy)
                        ⟨.Landmark shrineType fb.1, .BrickBlue⟩
                      match gen_range_incl fb.2 1 4 with
                      | .error e => .error e
                      | .ok (numDoors, rng) =>
                          match place_doors numDoors.toNat rng res rect tileset [] with
                          | .error e => .error e
                          | .ok (res, doors, rng) => .ok ((res, doors), rng, resE.2)

/-- The room loop of generate_map: shrink each leaf rectangle by a random
border inset, generate the room at the origin, copy it back in place and
record its door positions offset to world coordinates. -/
def rooms_loop (seedFn : Nat → Nat → Nat) (rects : List TileRect) (res : MutMap)
    (doors : List TilePos) (rng entropy : RngState) :
    Except String (MutMap × List TilePos × RngState × RngState) :=
  match rects with
  | [] => .ok (res, doors, rng, entropy)
  | rect :: rest =>
      match gen_range rng 3 7 with
      | .error e => .error e
      | .ok (borderSize, rng) =>
          let rect2 : TileRect := ⟨⟨rect.min.x + borderSize, rect.min.y + borderSize⟩,
            ⟨rect.max.x - borderSize, rect.max.y - borderSize⟩⟩
          let trect := rect2.translate (-rect2.min.x, -rect2.min.y)
          match generate_room seedFn rng trect entropy with
          | .error e => .error e
          | .ok ((room, roomDoors), rng, entropy) =>
              rooms_loop seedFn rest (res.copy_from room rect2.min)
                (doors ++ roomDoors.map fun p =>
                  TilePos.of (p.x + rect2.min.x) (p.y + rect2.min.y))
                rng entropy

/-- The inner walk of the door paving pass: carve rock floor outward from the
door until hitting a nonempty tile, up to the 249 steps of the 1..250 bound
(exhaustion only logs a diagnostic). -/
def pave_walk (res : MutMap) (pos : TilePos) (dir : Direction) (t : Int) (fuel : Nat) :
    MutMap :=
  match fuel with
  | 0 => res
  | fuel + 1 =>
      let newPos := TilePos.of (pos.x + dir.delta.1 * t) (pos.y + dir.delta.2 * t)
      if !(res.map.index_tile newPos).is_empty then res
      else pave_walk (res.set_at_mm newPos floor_rock) pos dir (t + 1) fuel

/-- The paving pass of generate_map: for each recorded door (asserted to still
be a door), pick the outward direction from the floor context and walk. -/
def paving_loop (doors : List TilePos) (res : MutMap) : Except String MutMap :=
  match doors with
  | [] => .ok res
  | pos :: rest =>
      if !(res.map.index_tile pos).is_door then
        .error "assertion failed: res[pos].is_door()"
      else
        match (res.map.index_tile pos).foreground.ty with
        | .DoorNS _ =>
            let dir := if (res.map.index_tile (pos.neighbor .East)).is_floor
              then Direction.West else Direction.East
            paving_loop rest (pave_walk res pos dir 1 249)
        | .DoorEW _ =>
            let dir := if (res.map.index_tile (pos.neighbor .North)).is_floor
              then Direction.South else Direction.North
            paving_loop rest (pave_walk res pos dir 1 249)
        | _ => .error "internal error: entered unreachable code"

/-- The inner neighbor scan of the perimeter walling pass. -/
def wall_neighbors (res : MutMap) (pos : TilePos) : MutMap :=
  pos.moore_neighborhood.foldl
    (fun res nb =>
      if (res.map.index_tile nb).is_empty then res.set_at_mm nb wall_rock else res)
    res

/-- The perimeter walling pass: for every floor tile of the scanned rectangle,
convert every still-empty Moore neighbor into a solid rock wall. -/
def wall_pass (positions : List TilePos) (res : MutMap) : MutMap :=
  positions.foldl
    (fun res pos =>
      if (res.map.index_tile pos).is_floor then wall_neighbors res pos else res)
    res

/-- The spawn-point loop of generate_map: up to 1000 draws of a random
position inside a random room rectangle; each hit on a floor tile turns its
foreground into a player-spawn landmark, stopping after five; exhaustion falls
through without any error. -/
def spawn_loop (fuel : Nat) (spawns : Nat) (roomRects : List TileRect) (res : MutMap)
    (rng : RngState) : Except String (MutMap × RngState) :=
  match fuel with
  | 0 => .ok (res, rng)
  | fuel + 1 =>
      match choose roomRects rng with
      | (none, _) => .error "called Option unwrap on a None value"
      | (some room, rng) =>
          match gen_range_incl rng room.min.x room.max.x with
          | .error e => .error e
          | .ok (x, rng) =>
              match gen_range_incl rng room.min.y room.max.y with
              | .error e => .error e
              | .ok (y, rng) =>
                  let pos := TilePos.of x y
                  if !(res.map.index_tile pos).is_floor then
                    spawn_loop fuel spawns roomRects res rng
                  else
                    let tp := res.map.index_tile pos
                    let res := { res with map := (res.map.set_tile pos
                      { tp with foreground :=
                          { tp.foreground with ty := .Landmark .SpawnPlayer false } }) }
                    if spawns + 1 ≥ 5 then .ok (res, rng)
                    else spawn_loop fuel (spawns + 1) roomRects res rng

/-- generate_map from gen.rs: seed the generator, BSP partition, carve hallway
borders, generate and place rooms, pave door connections, infer perimeter
walls over the used-tile rectangle, and place player spawn landmarks. -/
def generate_map (seedFn : Nat → Nat → Nat) (seed : Nat) (entropy : RngState) :
    Except String MutMap :=
  let rng : RngState := ⟨seedFn seed, 0⟩
  let mapRect := TileRect.new (TilePos.of (-60) (-60)) (TilePos.of 60 60)
  match bsp_loop [(0, false, mapRect)] [] [] rng with
  | .error e => .error e
  | .ok (allRects, roomRects, rng) =>
      match hall_fill allRects (MutMap.from_rng rng) with
      | .error e => .error e
      | .ok res =>
          match rooms_loop seedFn roomRects res [] rng entropy with
          | .error e => .error e
          | .ok (res, doors, rng, entropy) =>
              match paving_loop doors res with
              | .error e => .error e
              | .ok res =>
                  let res := wall_pass res.map.used_tiles.tiles res
                  match spawn_loop 1000 0 roomRects res rng with
                  | .error e => .error e
                  | .ok (res, rng) => .ok res

/-! ## Claim C7 (corrected): exhausting the spawn loop does not abort -/

theorem choose_of_ne_nil {α : Type} (l : List α) (r : RngState) (h : l ≠ []) :
    ∃ a r', choose l r = (some a, r') ∧ a ∈ l := by
  rw [choose, RngState.next]
  rw [if_neg (by simp [h])]
  have hlen : 0 < l.length := List.length_pos.mpr h
  have hlt : r.stream r.idx % l.length < l.length := Nat.mod_lt _ hlen
  refine ⟨l[r.stream r.idx % l.length], ⟨r.stream, r.idx + 1⟩, ?_, List.getElem_mem _⟩
  show (l[r.stream r.idx % l.length]?, ({ stream := r.stream, idx := r.idx + 1 } : RngState))
      = (some l[r.stream r.idx % l.length], ({ stream := r.stream, idx := r.idx + 1 } : RngState))
  rw [List.getElem?_eq_getElem hlt]

theorem gen_range_incl_of_le (r : RngState) (lo hi : Int) (h : lo ≤ hi) :
    ∃ v r', gen_range_incl r lo hi = .ok (v, r') := by
  rw [gen_range_incl, gen_range, if_neg (by omega)]
  exact ⟨_, _, rfl⟩

/-- The spawn-point placement loop never produces an error when the room list
is nonempty and each room rectangle is well formed, whether or not any valid
floor tile exists: its exhaustion path returns the map as is. -/
theorem spawn_loop_never_aborts (fuel spawns : Nat) (rooms : List TileRect) (res : MutMap)
    (rng : RngState) (hne : rooms ≠ [])
    (hwf : ∀ room ∈ rooms, room.min.x ≤ room.max.x ∧ room.min.y ≤ room.max.y) :
    ∃ out, spawn_loop fuel spawns rooms res rng = .ok out := by
  induction fuel generalizing spawns res rng with
  | zero => exact ⟨_, rfl⟩
  | succ fuel ih =>
      rw [spawn_loop]
      obtain ⟨room, r1, hchoose, hmem⟩ := choose_of_ne_nil rooms rng hne
      simp only [hchoose]
      obtain ⟨x, r2, hx⟩ := gen_range_incl_of_le r1 room.min.x room.max.x (hwf room hmem).1
      simp only [hx]
      obtain ⟨y, r3, hy⟩ := gen_range_incl_of_le r2 room.min.y room.max.y (hwf room hmem).2
      simp only [hy]
      rcases hfl : (!(res.map.index_tile (TilePos.of x y)).is_floor) with _ | _
      · rw [if_neg (by simp [hfl])]
        rcases hsp : decide (spawns + 1 ≥ 5) with _ | _
        · rw [if_neg (of_decide_eq_false hsp)]
          exact ih _ _ _
        · rw [if_pos (of_decide_eq_true hsp)]
          exact ⟨_, rfl⟩
      · rw [if_pos (by simp [hfl])]
        exact ih _ _ _

/-- The all-zero draw stream used by the concrete C7 input. -/
def zero_stream : Nat → Nat := fun _ => 0

/-- The concrete room rectangle of the C7 counterexample input. -/
def c7_room : TileRect := TileRect.new_presorted (TilePos.of 0 0) (TilePos.of 0 0)

/-- The concrete, entirely empty map of the C7 counterexample input. -/
def c7_empty : MutMap := MutMap.from_rng ⟨zero_stream, 0⟩

theorem spawn_loop_all_miss (fuel : Nat) : ∀ (spawns idx : Nat),
    spawn_loop fuel spawns [c7_room] c7_empty ⟨zero_stream, idx⟩
      = .ok (c7_empty, ⟨zero_stream, idx + 3 * fuel⟩) := by
  induction fuel with
  | zero =>
      intro spawns idx
      rw [spawn_loop]
      norm_num
  | succ fuel ih =>
      intro spawns idx
      rw [show spawn_loop (fuel + 1) spawns [c7_room] c7_empty ⟨zero_stream, idx⟩
          = spawn_loop fuel spawns [c7_room] c7_empty ⟨zero_stream, idx + 1 + 1 + 1⟩ from rfl,
        ih]
      have h3 : idx + 1 + 1 + 1 + 3 * fuel = idx + 3 * (fuel + 1) := by omega
      rw [h3]

/-- Counterexample for claim C7 as stated: a run of the spawn-point loop of
generate_map in which every one of the 1000 attempts fails to find a floor
tile (the map is entirely empty).  All attempts are consumed (the generator
advances by the full 3000 draws), no spawn landmark is placed (the returned
map is the unchanged, chunkless input), and the loop returns Ok rather than
aborting with an error.  The claim said generation aborts fatally in this
situation. -/
theorem spawn_exhaustion_returns_ok_counterexample :
    spawn_loop 1000 0 [c7_room] c7_empty ⟨zero_stream, 0⟩
      = .ok (c7_empty, ⟨zero_stream, 3000⟩) ∧
    c7_empty.map.chunks = [] := by
  constructor
  · rw [spawn_loop_all_miss 1000 0 0]
  · rfl

/-- Witness for the amended claim C7: the spawn loop on a concrete nonempty
well-formed room list returns Ok. -/
theorem spawn_loop_never_aborts_witness :
    ∃ out, spawn_loop 1000 0 [TileRect.new_presorted (TilePos.of 0 0) (TilePos.of 0 0)]
      (MutMap.from_rng ⟨fun _ => 0, 0⟩) ⟨fun _ => 0, 0⟩ = .ok out :=
  spawn_loop_never_aborts 1000 0 _ _ _ (by simp)
    (by intro room hmem; rw [List.mem_singleton] at hmem; rw [hmem]; exact ⟨by decide, by decide⟩)

/-! ## Claim C1: determinism of generate_map

The only nondeterministic inputs of generate_map are the thread_rng entropy
(drawn once per generated room, to seed a room-local generator that is never
drawn from) and the HashMap iteration order (used only in used_chunks, which
folds an order-independent componentwise minimum and maximum).  The theorems
below prove that the grid is a function of the seed alone: two runs with the
same seed and arbitrary different entropy streams produce identical results. -/

/-- Relation between Except-carried MutMaps that agree on the map. -/
def mm_except_rel (x y : Except String MutMap) : Prop :=
  match x, y with
  | .error a, .error b => a = b
  | .ok u, .ok v => u.map = v.map
  | _, _ => False

theorem set_at_mm_map (mm : MutMap) (p : TilePos) (t : Tile) :
    (mm.set_at_mm p t).map = mm.map.set_at p t := rfl

theorem fill_map_congr (mm1 mm2 : MutMap) (h : mm1.map = mm2.map) (t : Tile)
    (a b : TilePos) : (mm1.fill t a b).map = (mm2.fill t a b).map := by
  obtain ⟨m1, q1⟩ := mm1
  obtain ⟨m2, q2⟩ := mm2
  change m1 = m2 at h
  subst h
  rfl

theorem fill_line_congr (mm1 mm2 : MutMap) (h : mm1.map = mm2.map) (t : Tile)
    (a b : TilePos) : mm_except_rel (mm1.fill_line t a b) (mm2.fill_line t a b) := by
  obtain ⟨m1, q1⟩ := mm1
  obtain ⟨m2, q2⟩ := mm2
  change m1 = m2 at h
  subst h
  simp only [MutMap.fill_line]
  by_cases h1 : (TileRect.new a b).min.y = (TileRect.new a b).max.y
  · simp only [if_pos h1]
    exact rfl
  · simp only [if_neg h1]
    by_cases h2 : (TileRect.new a b).min.x = (TileRect.new a b).max.x
    · simp only [if_pos h2]
      exact rfl
    · simp only [if_neg h2]
      rfl

theorem mm_bind_congr {x y : Except String MutMap} {f g : MutMap → Except String MutMap}
    (hxy : mm_except_rel x y) (hfg : ∀ u v, u.map = v.map → mm_except_rel (f u) (g v)) :
    mm_except_rel (x.bind f) (y.bind g) := by
  cases x with
  | error a =>
      cases y with
      | error b =>
          have hab : a = b := hxy
          subst hab
          exact rfl
      | ok v => exact hxy.elim
  | ok u =>
      cases y with
      | error b => exact hxy.elim
      | ok v => exact hfg u v hxy

theorem fill_border_congr (mm1 mm2 : MutMap) (h : mm1.map = mm2.map) (t : Tile)
    (a b : TilePos) : mm_except_rel (mm1.fill_border t a b) (mm2.fill_border t a b) := by
  simp only [MutMap.fill_border]
  refine mm_bind_congr (fill_line_congr _ _ h _ _ _) fun u1 v1 h1 => ?_
  refine mm_bind_congr (fill_line_congr _ _ h1 _ _ _) fun u2 v2 h2 => ?_
  refine mm_bind_congr (fill_line_congr _ _ h2 _ _ _) fun u3 v3 h3 => ?_
  exact fill_line_congr _ _ h3 _ _ _

/-- Relation between door-placement results that agree except in the recorded
generator field of the room map. -/
def pd_rel (x y : Except String (MutMap × List TilePos × RngState)) : Prop :=
  match x, y with
  | .error a, .error b => a = b
  | .ok (res1, d1, r1), .ok (res2, d2, r2) => res1.map = res2.map ∧ d1 = d2 ∧ r1 = r2
  | _, _ => False

theorem place_door_attempts_congr (fuel : Nat) (rng : RngState) (mm1 mm2 : MutMap)
    (h : mm1.map = mm2.map) (rect : TileRect) (ts : Tileset) (doors : List TilePos) :
    pd_rel (place_door_attempts fuel rng mm1 rect ts doors)
      (place_door_attempts fuel rng mm2 rect ts doors) := by
  induction fuel generalizing rng mm1 mm2 doors with
  | zero => exact ⟨h, rfl, rfl⟩
  | succ fuel ih =>
      rw [place_door_attempts, place_door_attempts]
      rcases htob : rect.tile_on_border rng with e | pr
      · simp only [htob]
        exact rfl
      · obtain ⟨pos, rng2⟩ := pr
        simp only [htob]
        rw [h]
        by_cases hany :
            (pos.von_neumann_neighborhood.any fun nb => (mm2.map.index_tile nb).is_door)
              = true
        · rw [if_pos hany, if_pos hany]
          exact ih rng2 mm1 mm2 h doors
        · rw [if_neg hany, if_neg hany]
          by_cases hns : ((mm2.map.index_tile (pos.neighbor .North)).is_wall &&
              (mm2.map.index_tile (pos.neighbor .South)).is_wall) = true
          · rw [if_pos hns, if_pos hns]
            exact ⟨by rw [set_at_mm_map, set_at_mm_map, h], rfl, rfl⟩
          · rw [if_neg hns, if_neg hns]
            by_cases hew : ((mm2.map.index_tile (pos.neighbor .East)).is_wall &&
                (mm2.map.index_tile (pos.neighbor .West)).is_wall) = true
            · rw [if_pos hew, if_pos hew]
              exact ⟨by rw [set_at_mm_map, set_at_mm_map, h], rfl, rfl⟩
            · rw [if_neg hew, if_neg hew]
              exact ih rng2 mm1 mm2 h doors

theorem place_doors_congr (n : Nat) (rng : RngState) (mm1 mm2 : MutMap)
    (h : mm1.map = mm2.map) (rect : TileRect) (ts : Tileset) (doors : List TilePos) :
    pd_rel (place_doors n rng mm1 rect ts doors) (place_doors n rng mm2 rect ts doors) := by
  induction n generalizing rng mm1 mm2 doors with
  | zero => exact ⟨h, rfl, rfl⟩
  | succ n ih =>
      rw [place_doors, place_doors]
      have hpd := place_door_attempts_congr 1000 rng mm1 mm2 h rect ts doors
      rcases h1 : place_door_attempts 1000 rng mm1 rect ts doors with e1 | ok1 <;>
        rcases h2 : place_door_attempts 1000 rng mm2 rect ts doors with e2 | ok2 <;>
        rw [h1, h2] at hpd
      · simp only [h1, h2]
        exact hpd
      · exact hpd.elim
      · exact hpd.elim
      · obtain ⟨res1, d1, r1⟩ := ok1
        obtain ⟨res2, d2, r2⟩ := ok2
        obtain ⟨hres, hd, hr⟩ := hpd
        subst hd
        subst hr
        simp only [h1, h2]
        by_cases hemp : d1.isEmpty = true
        · rw [if_pos hemp, if_pos hemp]
          exact rfl
        · rw [if_neg hemp, if_neg hemp]
          exact ih r1 res1 res2 hres d1

/-- Relation between generate_room results that agree on everything except the
recorded room generator and the advanced entropy. -/
def room_rel (x y : Except String ((MutMap × List TilePos) × RngState × RngState)) : Prop :=
  match x, y with
  | .error a, .error b => a = b
  | .ok ((room1, doors1), rng1, _), .ok ((room2, doors2), rng2, _) =>
      room1.map = room2.map ∧ doors1 = doors2 ∧ rng1 = rng2
  | _, _ => False

/-- The generated room is independent of the thread entropy: the entropy seeds
the room-local generator, which is recorded but never drawn from. -/
theorem generate_room_indep (f : Nat → Nat → Nat) (rng : RngState) (rect : TileRect)
    (e1 e2 : RngState) :
    room_rel (generate_room f rng rect e1) (generate_room f rng rect e2) := by
  rw [generate_room, generate_room]
  rcases hc : choose room_tilesets rng with ⟨_ | tileset, rng1⟩
  · simp only [hc]
    exact rfl
  · simp only [hc]
    have hfill : ((MutMap.new f none e1).1.fill ⟨.Floor .Tileset, tileset⟩
          rect.min rect.max).map
        = ((MutMap.new f none e2).1.fill ⟨.Floor .Tileset, tileset⟩
          rect.min rect.max).map :=
      fill_map_congr _ _ rfl _ _ _
    have hfb := fill_border_congr _ _ hfill ⟨.Wall .Solid, tileset⟩ rect.min rect.max
    rcases h1 : ((MutMap.new f none e1).1.fill ⟨.Floor .Tileset, tileset⟩
        rect.min rect.max).fill_border ⟨.Wall .Solid, tileset⟩ rect.min rect.max
      with er1 | u <;>
      rcases h2 : ((MutMap.new f none e2).1.fill ⟨.Floor .Tileset, tileset⟩
          rect.min rect.max).fill_border ⟨.Wall .Solid, tileset⟩ rect.min rect.max
        with er2 | v <;>
      rw [h1, h2] at hfb
    · simp only [h1, h2]
      exact hfb
    · exact hfb.elim
    · exact hfb.elim
    · simp only [h1, h2]
      rcases hs : choose [Landmark.ShrineIdol, Landmark.ShrineSkulls] rng1
        with ⟨_ | shrineType, rng2⟩
      · simp only [hs]
        exact rfl
      · simp only [hs]
        rcases hx : gen_range rng2 (rect.min.x + 1) rect.max.x with ex | ⟨sx, rng3⟩
        · simp only [hx]
          exact rfl
        · simp only [hx]
          rcases hy : gen_range rng3 (rect.min.y + 1) rect.max.y with ey | ⟨sy, rng4⟩
          · simp only [hy]
            exact rfl
          · simp only [hy]
            have hset : ((u.set_at_mm (TilePos.of sx sy)
                  ⟨.Landmark shrineType (gen_bool rng4).1, .BrickBlue⟩)).map
                = ((v.set_at_mm (TilePos.of sx sy)
                  ⟨.Landmark shrineType (gen_bool rng4).1, .BrickBlue⟩)).map := by
              rw [set_at_mm_map, set_at_mm_map, hfb]
            rcases hn : gen_range_incl (gen_bool rng4).2 1 4 with en | ⟨numDoors, rng5⟩
            · simp only [hn]
              exact rfl
            · simp only [hn]
              have hpd := place_doors_congr numDoors.toNat rng5 _ _ hset rect tileset []
              rcases hp1 : place_doors numDoors.toNat rng5
                  (u.set_at_mm (TilePos.of sx sy)
                    ⟨.Landmark shrineType (gen_bool rng4).1, .BrickBlue⟩)
                  rect tileset [] with ep1 | ⟨res1, d1, r1⟩ <;>
                rcases hp2 : place_doors numDoors.toNat rng5
                    (v.set_at_mm (TilePos.of sx sy)
                      ⟨.Landmark shrineType (gen_bool rng4).1, .BrickBlue⟩)
                    rect tileset [] with ep2 | ⟨res2, d2, r2⟩ <;>
                rw [hp1, hp2] at hpd
              · simp only [hp1, hp2]
                exact hpd
              · exact hpd.elim
              · exact hpd.elim
              · obtain ⟨hres, hd, hr⟩ := hpd
                simp only [hp1, hp2]
                exact ⟨hres, hd, hr⟩

/-- Relation between rooms-loop results that agree on everything except the
advanced entropy. -/
def rl_rel (x y : Except String (MutMap × List TilePos × RngState × RngState)) : Prop :=
  match x, y with
  | .error a, .error b => a = b
  | .ok (res1, d1, r1, _), .ok (res2, d2, r2, _) => res1 = res2 ∧ d1 = d2 ∧ r1 = r2
  | _, _ => False

theorem copy_from_congr (m : MutMap) (o1 o2 : MutMap) (h : o1.map = o2.map) (d : TilePos) :
    m.copy_from o1 d = m.copy_from o2 d := by
  simp only [MutMap.copy_from, h]

theorem rooms_loop_indep (f : Nat → Nat → Nat) (rects : List TileRect) :
    ∀ (res : MutMap) (doors : List TilePos) (rng e1 e2 : RngState),
    rl_rel (rooms_loop f rects res doors rng e1) (rooms_loop f rects res doors rng e2) := by
  induction rects with
  | nil =>
      intro res doors rng e1 e2
      exact ⟨rfl, rfl, rfl⟩
  | cons rect rest ih =>
      intro res doors rng e1 e2
      rw [rooms_loop, rooms_loop]
      rcases hb : gen_range rng 3 7 with eb | pb
      · simp only [hb]
        exact rfl
      · obtain ⟨borderSize, rng1⟩ := pb
        simp only [hb]
        have hroom := generate_room_indep f rng1
          (TileRect.translate
            ⟨⟨rect.min.x + borderSize, rect.min.y + borderSize⟩,
             ⟨rect.max.x - borderSize, rect.max.y - borderSize⟩⟩
            (-(rect.min.x + borderSize), -(rect.min.y + borderSize)))
          e1 e2
        rcases h1 : generate_room f rng1
            (TileRect.translate
              ⟨⟨rect.min.x + borderSize, rect.min.y + borderSize⟩,
               ⟨rect.max.x - borderSize, rect.max.y - borderSize⟩⟩
              (-(rect.min.x + borderSize), -(rect.min.y + borderSize)))
            e1 with er1 | ok1 <;>
          rcases h2 : generate_room f rng1
              (TileRect.translate
                ⟨⟨rect.min.x + borderSize, rect.min.y + borderSize⟩,
                 ⟨rect.max.x - borderSize, rect.max.y - borderSize⟩⟩
                (-(rect.min.x + borderSize), -(rect.min.y + borderSize)))
              e2 with er2 | ok2 <;>
          rw [h1, h2] at hroom
        · simp only [h1, h2]
          exact hroom
        · exact hroom.elim
        · exact hroom.elim
        · obtain ⟨⟨room1, doors1⟩, rng1', ent1⟩ := ok1
          obtain ⟨⟨room2, doors2⟩, rng2', ent2⟩ := ok2
          obtain ⟨hroommap, hdoors, hrng⟩ := hroom
          subst hdoors
          subst hrng
          simp only [h1, h2]
          rw [copy_from_congr _ _ _ hroommap]
          exact ih _ _ _ _ _

theorem generate_map_indep (f : Nat → Nat → Nat) (s : Nat) (e1 e2 : RngState) :
    generate_map f s e1 = generate_map f s e2 := by
  simp only [generate_map.eq_def]
  rcases hb : bsp_loop
      [(0, false, TileRect.new (TilePos.of (-60) (-60)) (TilePos.of 60 60))] [] []
      ⟨f s, 0⟩ with eb | ⟨allRects, roomRects, rng⟩
  · simp only [hb]
  · simp only [hb]
    rcases hh : hall_fill allRects (MutMap.from_rng rng) with eh | res
    · simp only [hh]
    · simp only [hh]
      have hrl := rooms_loop_indep f roomRects res [] rng e1 e2
      rcases h1 : rooms_loop f roomRects res [] rng e1
          with er1 | ⟨res1, doors1, rng1, ent1⟩ <;>
        rcases h2 : rooms_loop f roomRects res [] rng e2
            with er2 | ⟨res2, doors2, rng2, ent2⟩ <;>
        rw [h1, h2] at hrl
      · simp only [h1, h2]
        rw [hrl]
      · exact hrl.elim
      · exact hrl.elim
      · obtain ⟨hres, hdoors, hrng⟩ := hrl
        subst hres
        subst hdoors
        subst hrng
        simp only [h1, h2]

/-- Claim C1: map generation is deterministic in the seed. Two calls of
generate_map with the same seed function and seed, under any two ambient
thread-entropy streams, yield bit-identical grids: the same set of chunk
positions holding a nonempty tile, and equal TilePair contents at every tile
position; on failure, identical error messages. -/
theorem generate_map_deterministic (f : Nat → Nat → Nat) (s : Nat) (e1 e2 : RngState) :
    match generate_map f s e1, generate_map f s e2 with
    | .ok r1, .ok r2 =>
        (∀ cp : ChunkPos,
          (∃ q : TilePos, ChunkPos.fromTile q = cp ∧ r1.map.index_tile q ≠ emptyPair) ↔
          (∃ q : TilePos, ChunkPos.fromTile q = cp ∧ r2.map.index_tile q ≠ emptyPair)) ∧
        (∀ p : TilePos, r1.map.index_tile p = r2.map.index_tile p)
    | .error a, .error b => a = b
    | _, _ => False := by
  rw [← generate_map_indep f s e1 e2]
  rcases h1 : generate_map f s e1 with er | r <;> simp only [h1]
  exact ⟨fun _ => trivial, fun _ => trivial⟩

/-! ## Claim C4: door properties of generated rooms -/

/-- Coordinatewise characterization of von Neumann neighborhood membership. -/
theorem mem_vn_iff (p q : TilePos) : q ∈ p.von_neumann_neighborhood ↔
    (q.x = p.x ∧ q.y = p.y - 1) ∨ (q.x = p.x + 1 ∧ q.y = p.y) ∨
    (q.x = p.x ∧ q.y = p.y + 1) ∨ (q.x = p.x - 1 ∧ q.y = p.y) := by
  obtain ⟨qx, qy⟩ := q
  simp only [TilePos.von_neumann_neighborhood, TilePos.neighbor, Direction.delta,
    List.map_cons, List.map_nil, List.mem_cons, List.not_mem_nil, or_false,
    TilePos.mk.injEq]
  omega

/-- Von Neumann adjacency is symmetric. -/
theorem vn_symm {p q : TilePos} (h : q ∈ p.von_neumann_neighborhood) :
    p ∈ q.von_neumann_neighborhood := by
  rw [mem_vn_iff] at h ⊢
  omega

/-- No position is von Neumann adjacent to itself. -/
theorem self_not_vn (p : TilePos) : p ∉ p.von_neumann_neighborhood := by
  rw [mem_vn_iff]
  omega

/-- Stepping to a neighbor always moves. -/
theorem neighbor_ne (p : TilePos) (d : Direction) : p.neighbor d ≠ p := by
  obtain ⟨px, py⟩ := p
  cases d <;>
    simp only [TilePos.neighbor, Direction.delta, ne_eq, TilePos.mk.injEq, not_and] <;>
    omega

theorem neighbor_north_vn (p : TilePos) :
    p.neighbor .North ∈ p.von_neumann_neighborhood := by
  rw [mem_vn_iff]
  exact Or.inl ⟨show p.x + 0 = p.x by omega, show p.y + -1 = p.y - 1 by omega⟩

theorem neighbor_south_vn (p : TilePos) :
    p.neighbor .South ∈ p.von_neumann_neighborhood := by
  rw [mem_vn_iff]
  exact Or.inr (Or.inr (Or.inl
    ⟨show p.x + 0 = p.x by omega, show p.y + 1 = p.y + 1 by omega⟩))

theorem neighbor_east_vn (p : TilePos) :
    p.neighbor .East ∈ p.von_neumann_neighborhood := by
  rw [mem_vn_iff]
  exact Or.inr (Or.inl
    ⟨show p.x + 1 = p.x + 1 by omega, show p.y + 0 = p.y by omega⟩)

theorem neighbor_west_vn (p : TilePos) :
    p.neighbor .West ∈ p.von_neumann_neighborhood := by
  rw [mem_vn_iff]
  exact Or.inr (Or.inr (Or.inr
    ⟨show p.x + -1 = p.x - 1 by omega, show p.y + 0 = p.y by omega⟩))

/-- Setting a door tile through TilePair::set puts it in the foreground. -/
theorem set_doorNS_foreground (pr : TilePair) (ts : Tileset) (o : Bool) :
    (pr.set ⟨.DoorNS o, ts⟩).foreground = ⟨.DoorNS o, ts⟩ := rfl

theorem set_doorEW_foreground (pr : TilePair) (ts : Tileset) (o : Bool) :
    (pr.set ⟨.DoorEW o, ts⟩).foreground = ⟨.DoorEW o, ts⟩ := rfl

theorem set_doorNS_is_door (pr : TilePair) (ts : Tileset) (o : Bool) :
    (pr.set ⟨.DoorNS o, ts⟩).is_door = true := rfl

theorem set_doorEW_is_door (pr : TilePair) (ts : Tileset) (o : Bool) :
    (pr.set ⟨.DoorEW o, ts⟩).is_door = true := rfl

/-- A write through TilePair::set yields a door only if the written tile was a
door. -/
theorem set_is_door_imp (pr : TilePair) (t : Tile) (h : (pr.set t).is_door = true) :
    (∃ o, t.ty = TileType.DoorNS o) ∨ (∃ o, t.ty = TileType.DoorEW o) := by
  obtain ⟨ty, ts⟩ := t
  cases ty <;>
    first
      | exact Or.inl ⟨_, rfl⟩
      | exact Or.inr ⟨_, rfl⟩
      | simp_all [TilePair.set, TilePair.set_with_floor, TilePair.is_door]

theorem set_is_door_false (pr : TilePair) (t : Tile)
    (hnd : ∀ o, t.ty ≠ TileType.DoorNS o ∧ t.ty ≠ TileType.DoorEW o) :
    (pr.set t).is_door = false := by
  rcases h : (pr.set t).is_door with _ | _
  · rfl
  · rcases set_is_door_imp pr t h with ⟨o, ho⟩ | ⟨o, ho⟩
    · exact absurd ho (hnd o).1
    · exact absurd ho (hnd o).2

/-- A map with no door tiles anywhere. -/
def Map.nodoors (m : Map) : Prop := ∀ p : TilePos, (m.index_tile p).is_door = false

theorem nodoors_new : Map.new.nodoors := fun _ => rfl

theorem nodoors_set_at (m : Map) (q : TilePos) (t : Tile)
    (hnd : ∀ o, t.ty ≠ TileType.DoorNS o ∧ t.ty ≠ TileType.DoorEW o)
    (hm : m.nodoors) : (m.set_at q t).nodoors := by
  intro p
  rw [Map.set_at, index_tile_set]
  by_cases hpq : p = q
  · rw [if_pos hpq]
    exact set_is_door_false _ _ hnd
  · rw [if_neg hpq]
    exact hm p

theorem nodoors_foldl {α : Type} (g : α → TilePos) (t : Tile)
    (hnd : ∀ o, t.ty ≠ TileType.DoorNS o ∧ t.ty ≠ TileType.DoorEW o) :
    ∀ (l : List α) (m : Map), m.nodoors →
      (l.foldl (fun mm q => mm.set_at (g q) t) m).nodoors := by
  intro l
  induction l with
  | nil => exact fun m hm => hm
  | cons a rest ih =>
      intro m hm
      rw [List.foldl_cons]
      exact ih _ (nodoors_set_at m (g a) t hnd hm)

theorem fill_nodoors (m : MutMap) (t : Tile) (a b : TilePos)
    (hnd : ∀ o, t.ty ≠ TileType.DoorNS o ∧ t.ty ≠ TileType.DoorEW o)
    (hm : m.map.nodoors) : (m.fill t a b).map.nodoors :=
  nodoors_foldl (fun q => q) t hnd _ _ hm

theorem fill_line_nodoors (m : MutMap) (t : Tile) (a b : TilePos) (m2 : MutMap)
    (h : m.fill_line t a b = .ok m2)
    (hnd : ∀ o, t.ty ≠ TileType.DoorNS o ∧ t.ty ≠ TileType.DoorEW o)
    (hm : m.map.nodoors) : m2.map.nodoors := by
  simp only [MutMap.fill_line] at h
  split_ifs at h with h1 h2
  · simp only [Except.ok.injEq] at h
    rw [← h]
    exact nodoors_foldl (fun x => TilePos.of x (TileRect.new a b).min.y) t hnd _ _ hm
  · simp only [Except.ok.injEq] at h
    rw [← h]
    exact nodoors_foldl (fun y => TilePos.of (TileRect.new a b).min.x y) t hnd _ _ hm

theorem fill_border_nodoors (m : MutMap) (t : Tile) (a b : TilePos) (m2 : MutMap)
    (h : m.fill_border t a b = .ok m2)
    (hnd : ∀ o, t.ty ≠ TileType.DoorNS o ∧ t.ty ≠ TileType.DoorEW o)
    (hm : m.map.nodoors) : m2.map.nodoors := by
  simp only [MutMap.fill_border] at h
  rcases h1 : m.fill_line t (TilePos.of (TileRect.new a b).min.x (TileRect.new a b).min.y)
      (TilePos.of (TileRect.new a b).max.x (TileRect.new a b).min.y) with e1 | m1 <;>
    rw [h1] at h <;> simp only [Except.bind] at h
  · exact Except.noConfusion h
  · rcases h2 : m1.fill_line t
        (TilePos.of (TileRect.new a b).min.x (TileRect.new a b).max.y)
        (TilePos.of (TileRect.new a b).max.x (TileRect.new a b).max.y) with e2 | mm2 <;>
      rw [h2] at h <;> simp only [Except.bind] at h
    · exact Except.noConfusion h
    · rcases h3 : mm2.fill_line t
          (TilePos.of (TileRect.new a b).min.x (TileRect.new a b).min.y)
          (TilePos.of (TileRect.new a b).min.x (TileRect.new a b).max.y) with e3 | m3 <;>
        rw [h3] at h <;> simp only [Except.bind] at h
      · exact Except.noConfusion h
      · have hm1 := fill_line_nodoors _ _ _ _ _ h1 hnd hm
        have hm2 := fill_line_nodoors _ _ _ _ _ h2 hnd hm1
        have hm3 := fill_line_nodoors _ _ _ _ _ h3 hnd hm2
        exact fill_line_nodoors _ _ _ _ _ h hnd hm3

/-- The door invariant carried through the door placement loops: the recorded
list contains exactly the door tiles, every door sits in a correct wall
context, and no two doors are von Neumann adjacent. -/
def doors_inv (m : Map) (doors : List TilePos) : Prop :=
  (∀ p : TilePos, (m.index_tile p).is_door = true → p ∈ doors) ∧
  (∀ p ∈ doors, (m.index_tile p).is_door = true) ∧
  (∀ p : TilePos, (m.index_tile p).is_door = true →
    ((∃ o, (m.index_tile p).foreground.ty = TileType.DoorNS o) ∧
      (m.index_tile (p.neighbor .North)).is_wall = true ∧
      (m.index_tile (p.neighbor .South)).is_wall = true) ∨
    ((∃ o, (m.index_tile p).foreground.ty = TileType.DoorEW o) ∧
      (m.index_tile (p.neighbor .East)).is_wall = true ∧
      (m.index_tile (p.neighbor .West)).is_wall = true)) ∧
  (∀ p q : TilePos, (m.index_tile p).is_door = true → (m.index_tile q).is_door = true →
    q ∈ p.von_neumann_neighborhood → False)

/-- Placing a door at a position not von Neumann adjacent to any existing door,
with the checked wall context, preserves the door invariant. -/
theorem doors_inv_place (m : Map) (doors : List TilePos) (pos : TilePos) (t : Tile)
    (hinv : doors_inv m doors)
    (hany : ∀ nb ∈ pos.von_neumann_neighborhood, (m.index_tile nb).is_door = false)
    (hctx :
      ((∃ o, t = Tile.mk (TileType.DoorNS o) t.tileset) ∧
        (m.index_tile (pos.neighbor .North)).is_wall = true ∧
        (m.index_tile (pos.neighbor .South)).is_wall = true) ∨
      ((∃ o, t = Tile.mk (TileType.DoorEW o) t.tileset) ∧
        (m.index_tile (pos.neighbor .East)).is_wall = true ∧
        (m.index_tile (pos.neighbor .West)).is_wall = true)) :
    doors_inv (m.set_at pos t) (doors ++ [pos]) := by
  obtain ⟨hmem, hdoors, hctxAll, hpair⟩ := hinv
  have hread : ∀ q : TilePos, (m.set_at pos t).index_tile q
      = if q = pos then (m.index_tile pos).set t else m.index_tile q := by
    intro q
    rw [Map.set_at, index_tile_set]
  have hposdoor : ((m.index_tile pos).set t).is_door = true := by
    rcases hctx with ⟨⟨o, ho⟩, _, _⟩ | ⟨⟨o, ho⟩, _, _⟩
    · rw [ho]
      exact set_doorNS_is_door _ _ _
    · rw [ho]
      exact set_doorEW_is_door _ _ _
  have hold : ∀ q : TilePos, q ≠ pos →
      (m.set_at pos t).index_tile q = m.index_tile q := by
    intro q hq
    rw [hread, if_neg hq]
  have hCnb : ∀ q : TilePos, (m.index_tile q).is_door = true → ∀ d : Direction,
      q.neighbor d ∈ q.von_neumann_neighborhood → q.neighbor d ≠ pos := by
    intro q hq d hdvn heq
    have hqvn : q ∈ pos.von_neumann_neighborhood := vn_symm (heq ▸ hdvn)
    rw [hany q hqvn] at hq
    exact Bool.noConfusion hq
  refine ⟨?_, ?_, ?_, ?_⟩
  · intro p hp
    rw [hread] at hp
    by_cases hppos : p = pos
    · exact List.mem_append_right _ (hppos ▸ List.mem_singleton_self pos)
    · rw [if_neg hppos] at hp
      exact List.mem_append_left _ (hmem p hp)
  · intro p hpmem
    rw [hread]
    by_cases hppos : p = pos
    · rw [if_pos hppos]
      exact hposdoor
    · rw [if_neg hppos]
      rcases List.mem_append.mp hpmem with hl | hr
      · exact hdoors p hl
      · exact absurd (List.mem_singleton.mp hr) hppos
  · intro p hp
    by_cases hppos : p = pos
    · rw [hppos]
      rcases hctx with ⟨⟨o, ho⟩, hN, hS⟩ | ⟨⟨o, ho⟩, hE, hW⟩
      · refine Or.inl ⟨⟨o, ?_⟩, ?_, ?_⟩
        · rw [hread, if_pos rfl, ho, set_doorNS_foreground]
        · rw [hold _ (neighbor_ne pos .North)]
          exact hN
        · rw [hold _ (neighbor_ne pos .South)]
          exact hS
      · refine Or.inr ⟨⟨o, ?_⟩, ?_, ?_⟩
        · rw [hread, if_pos rfl, ho, set_doorEW_foreground]
        · rw [hold _ (neighbor_ne pos .East)]
          exact hE
        · rw [hold _ (neighbor_ne pos .West)]
          exact hW
    · rw [hread, if_neg hppos] at hp
      rcases hctxAll p hp with ⟨⟨o, ho⟩, hN, hS⟩ | ⟨⟨o, ho⟩, hE, hW⟩
      · refine Or.inl ⟨⟨o, ?_⟩, ?_, ?_⟩
        · rw [hold p hppos]
          exact ho
        · rw [hold _ (hCnb p hp .North (neighbor_north_vn p))]
          exact hN
        · rw [hold _ (hCnb p hp .South (neighbor_south_vn p))]
          exact hS
      · refine Or.inr ⟨⟨o, ?_⟩, ?_, ?_⟩
        · rw [hold p hppos]
          exact ho
        · rw [hold _ (hCnb p hp .East (neighbor_east_vn p))]
          exact hE
        · rw [hold _ (hCnb p hp .West (neighbor_west_vn p))]
          exact hW
  · intro p q hp hq hqvn
    rw [hread] at hp hq
    by_cases hppos : p = pos <;> by_cases hqpos : q = pos
    · rw [hppos, hqpos] at hqvn
      exact self_not_vn pos hqvn
    · rw [if_neg hqpos] at hq
      rw [hppos] at hqvn
      rw [hany q hqvn] at hq
      exact Bool.noConfusion hq
    · rw [if_neg hppos] at hp
      rw [hqpos] at hqvn
      have hpvn : p ∈ pos.von_neumann_neighborhood := vn_symm hqvn
      rw [hany p hpvn] at hp
      exact Bool.noConfusion hp
    · rw [if_neg hppos] at hp
      rw [if_neg hqpos] at hq
      exact hpair p q hp hq hqvn

theorem and_true_parts {a b : Bool} (h : (a && b) = true) : a = true ∧ b = true := by
  rcases ha : a with _ | _ <;> rcases hb : b with _ | _ <;> simp_all

/-- The bounded door retry loop preserves the invariant and grows the recorded
door list by at most one position. -/
theorem place_door_attempts_inv (fuel : Nat) :
    ∀ (rng : RngState) (res : MutMap) (rect : TileRect) (ts : Tileset)
      (doors : List TilePos) (res2 : MutMap) (doors2 : List TilePos) (rng2 : RngState),
    doors_inv res.map doors →
    place_door_attempts fuel rng res rect ts doors = .ok (res2, doors2, rng2) →
    doors_inv res2.map doors2 ∧ (doors2 = doors ∨ ∃ pos, doors2 = doors ++ [pos]) := by
  induction fuel with
  | zero =>
      intro rng res rect ts doors res2 doors2 rng2 hinv h
      rw [place_door_attempts] at h
      simp only [Except.ok.injEq, Prod.mk.injEq] at h
      obtain ⟨rfl, rfl, rfl⟩ := h
      exact ⟨hinv, Or.inl rfl⟩
  | succ fuel ih =>
      intro rng res rect ts doors res2 doors2 rng2 hinv h
      rw [place_door_attempts] at h
      rcases htob : rect.tile_on_border rng with e | ⟨pos, rng1⟩ <;> simp only [htob] at h
      · exact Except.noConfusion h
      · by_cases hany : (pos.von_neumann_neighborhood.any
            fun nb => (res.map.index_tile nb).is_door) = true
        · rw [if_pos hany] at h
          exact ih rng1 res rect ts doors res2 doors2 rng2 hinv h
        · rw [if_neg hany] at h
          have hanyf : ∀ nb ∈ pos.von_neumann_neighborhood,
              (res.map.index_tile nb).is_door = false := by
            intro nb hnb
            rcases hb : (res.map.index_tile nb).is_door with _ | _
            · rfl
            · exact absurd (List.any_eq_true.mpr ⟨nb, hnb, hb⟩) hany
          by_cases hns : ((res.map.index_tile (pos.neighbor .North)).is_wall &&
              (res.map.index_tile (pos.neighbor .South)).is_wall) = true
          · rw [if_pos hns] at h
            simp only [Except.ok.injEq, Prod.mk.injEq] at h
            obtain ⟨rfl, rfl, rfl⟩ := h
            obtain ⟨hN, hS⟩ := and_true_parts hns
            refine ⟨?_, Or.inr ⟨pos, rfl⟩⟩
            rw [set_at_mm_map]
            exact doors_inv_place _ _ _ _ hinv hanyf (Or.inl ⟨⟨false, rfl⟩, hN, hS⟩)
          · rw [if_neg hns] at h
            by_cases hew : ((res.map.index_tile (pos.neighbor .East)).is_wall &&
                (res.map.index_tile (pos.neighbor .West)).is_wall) = true
            · rw [if_pos hew] at h
              simp only [Except.ok.injEq, Prod.mk.injEq] at h
              obtain ⟨rfl, rfl, rfl⟩ := h
              obtain ⟨hE, hW⟩ := and_true_parts hew
              refine ⟨?_, Or.inr ⟨pos, rfl⟩⟩
              rw [set_at_mm_map]
              exact doors_inv_place _ _ _ _ hinv hanyf (Or.inr ⟨⟨false, rfl⟩, hE, hW⟩)
            · rw [if_neg hew] at h
              exact ih rng1 res rect ts doors res2 doors2 rng2 hinv h

/-- The outer door loop preserves the invariant, adds at most one door per
round, and yields a nonempty recorded list when it runs at least one round. -/
theorem place_doors_inv_result (n : Nat) :
    ∀ (rng : RngState) (res : MutMap) (rect : TileRect) (ts : Tileset)
      (doors : List TilePos) (res2 : MutMap) (doors2 : List TilePos) (rng2 : RngState),
    doors_inv res.map doors →
    place_doors n rng res rect ts doors = .ok (res2, doors2, rng2) →
    doors_inv res2.map doors2 ∧ doors2.length ≤ doors.length + n ∧
      ((1 ≤ n ∨ doors ≠ []) → doors2 ≠ []) := by
  induction n with
  | zero =>
      intro rng res rect ts doors res2 doors2 rng2 hinv h
      rw [place_doors] at h
      simp only [Except.ok.injEq, Prod.mk.injEq] at h
      obtain ⟨rfl, rfl, rfl⟩ := h
      exact ⟨hinv, Nat.le_refl _, fun hd => hd.resolve_left (by omega)⟩
  | succ n ih =>
      intro rng res rect ts doors res2 doors2 rng2 hinv h
      rw [place_doors] at h
      rcases hpda : place_door_attempts 1000 rng res rect ts doors
          with e | ⟨resA, doorsA, rngA⟩ <;> simp only [hpda] at h
      · exact Except.noConfusion h
      · obtain ⟨hinvA, hshape⟩ :=
          place_door_attempts_inv 1000 rng res rect ts doors resA doorsA rngA hinv hpda
        by_cases hemp : doorsA.isEmpty = true
        · rw [if_pos hemp] at h
          exact Except.noConfusion h
        · rw [if_neg hemp] at h
          have hrec := ih rngA resA rect ts doorsA res2 doors2 rng2 hinvA h
          have hlenA : doorsA.length ≤ doors.length + 1 := by
            rcases hshape with rfl | ⟨pos, rfl⟩
            · omega
            · rw [List.length_append]
              simp
          have hAne : doorsA ≠ [] := by
            intro hnil
            rw [hnil] at hemp
            exact hemp rfl
          have hlen2 := hrec.2.1
          exact ⟨hrec.1, by omega, fun _ => hrec.2.2 (Or.inr hAne)⟩

/-- Claim C4: every successfully generated room records a door list that is
nonempty, of length at most 4, and holding exactly the door tiles of the room
map; no two door tiles are von Neumann adjacent; and every door tile is a
DoorNS with wall tiles on its north and south neighbors or a DoorEW with wall
tiles on its east and west neighbors. -/
theorem generate_room_door_properties (f : Nat → Nat → Nat) (rng : RngState)
    (rect : TileRect) (entropy : RngState) :
    match generate_room f rng rect entropy with
    | .error _ => True
    | .ok ((room, doors), _, _) =>
        doors ≠ [] ∧ doors.length ≤ 4 ∧
        (∀ p : TilePos, (room.map.index_tile p).is_door = true ↔ p ∈ doors) ∧
        (∀ p q : TilePos, (room.map.index_tile p).is_door = true →
          (room.map.index_tile q).is_door = true →
          q ∈ p.von_neumann_neighborhood → False) ∧
        (∀ p : TilePos, (room.map.index_tile p).is_door = true →
          ((∃ o, (room.map.index_tile p).foreground.ty = TileType.DoorNS o) ∧
            (room.map.index_tile (p.neighbor .North)).is_wall = true ∧
            (room.map.index_tile (p.neighbor .South)).is_wall = true) ∨
          ((∃ o, (room.map.index_tile p).foreground.ty = TileType.DoorEW o) ∧
            (room.map.index_tile (p.neighbor .East)).is_wall = true ∧
            (room.map.index_tile (p.neighbor .West)).is_wall = true)) := by
  rw [generate_room]
  rcases hc : choose room_tilesets rng with ⟨_ | tileset, rng1⟩ <;> simp only [hc]
  rcases hfb : ((MutMap.new f none entropy).1.fill ⟨.Floor .Tileset, tileset⟩
      rect.min rect.max).fill_border ⟨.Wall .Solid, tileset⟩ rect.min rect.max
    with e | resB <;> simp only [hfb]
  rcases hs : choose [Landmark.ShrineIdol, Landmark.ShrineSkulls] rng1
      with ⟨_ | shrineType, rng2⟩ <;> simp only [hs]
  rcases hx : gen_range rng2 (rect.min.x + 1) rect.max.x
      with ex | ⟨sx, rng3⟩ <;> simp only [hx]
  rcases hy : gen_range rng3 (rect.min.y + 1) rect.max.y
      with ey | ⟨sy, rng4⟩ <;> simp only [hy]
  rcases hnD : gen_range_incl (gen_bool rng4).2 1 4
      with en | ⟨numDoors, rng5⟩ <;> simp only [hnD]
  rcases hpd : place_doors numDoors.toNat rng5
      (resB.set_at_mm (TilePos.of sx sy)
        ⟨.Landmark shrineType (gen_bool rng4).1, .BrickBlue⟩)
      rect tileset [] with ep | ⟨resD, doorsD, rngD⟩ <;> simp only [hpd]
  have h0 : (MutMap.new f none entropy).1.map.nodoors := nodoors_new
  have h1 : ((MutMap.new f none entropy).1.fill ⟨.Floor .Tileset, tileset⟩
      rect.min rect.max).map.nodoors :=
    fill_nodoors _ _ _ _
      (fun o => ⟨fun hh => TileType.noConfusion hh,
        fun hh => TileType.noConfusion hh⟩) h0
  have h2 : resB.map.nodoors :=
    fill_border_nodoors _ _ _ _ _ hfb
      (fun o => ⟨fun hh => TileType.noConfusion hh,
        fun hh => TileType.noConfusion hh⟩) h1
  have h3 : (resB.set_at_mm (TilePos.of sx sy)
      ⟨.Landmark shrineType (gen_bool rng4).1, .BrickBlue⟩).map.nodoors := by
    rw [set_at_mm_map]
    exact nodoors_set_at _ _ _
      (fun o => ⟨fun hh => TileType.noConfusion hh,
        fun hh => TileType.noConfusion hh⟩) h2
  have hinv0 : doors_inv (resB.set_at_mm (TilePos.of sx sy)
      ⟨.Landmark shrineType (gen_bool rng4).1, .BrickBlue⟩).map [] := by
    refine ⟨?_, ?_, ?_, ?_⟩
    · intro p hp
      rw [h3 p] at hp
      exact Bool.noConfusion hp
    · intro p hp
      exact absurd hp (List.not_mem_nil p)
    · intro p hp
      rw [h3 p] at hp
      exact Bool.noConfusion hp
    · intro p q hp _ _
      rw [h3 p] at hp
      exact Bool.noConfusion hp
  obtain ⟨hinvD, hlen, hne⟩ :=
    place_doors_inv_result numDoors.toNat rng5 _ rect tileset []
      resD doorsD rngD hinv0 hpd
  obtain ⟨hlo, hhi⟩ := gen_range_incl_ok_bounds hnD
  refine ⟨?_, ?_, ?_, ?_, ?_⟩
  · exact hne (Or.inl (by omega))
  · simp only [List.length_nil] at hlen
    omega
  · exact fun p => ⟨hinvD.1 p, hinvD.2.1 p⟩
  · exact hinvD.2.2.2
  · exact hinvD.2.2.1


/-! ## Claim C3, part 1: the perimeter walling pass and the spawn pass -/

theorem set_wall_rock_nonempty (pr : TilePair) : (pr.set wall_rock).is_empty = false := rfl

theorem set_wall_rock_not_floor (pr : TilePair) : (pr.set wall_rock).is_floor = false := rfl

/-- An all-empty pair is not a floor. -/
theorem empty_pair_not_floor (pr : TilePair) (h : pr.is_empty = true) :
    pr.is_floor = false := by
  obtain ⟨⟨fty, fts⟩, ⟨bty, bts⟩, pl⟩ := pr
  cases bty <;> simp_all [TilePair.is_empty, TilePair.is_floor, Tile.is_empty]

/-- A floor pair is nonempty. -/
theorem floor_pair_nonempty (pr : TilePair) (h : pr.is_floor = true) :
    pr.is_empty = false := by
  obtain ⟨⟨fty, fts⟩, ⟨bty, bts⟩, pl⟩ := pr
  cases bty <;> simp_all [TilePair.is_empty, TilePair.is_floor, Tile.is_empty]

/-- Single-cell write, read back at any position. -/
theorem set_at_mm_index (m : MutMap) (q : TilePos) (t : Tile) (p : TilePos) :
    (m.set_at_mm q t).map.index_tile p
      = if p = q then (m.map.index_tile q).set t else m.map.index_tile p := by
  rw [set_at_mm_map, Map.set_at, index_tile_set]

/-- The neighbor-walling fold leaves every nonempty cell untouched. -/
theorem wn_fold_preserve (l : List TilePos) : ∀ (m : MutMap) (q : TilePos),
    (m.map.index_tile q).is_empty = false →
    ((l.foldl (fun res nb =>
        if (res.map.index_tile nb).is_empty then res.set_at_mm nb wall_rock else res)
      m).map.index_tile q) = m.map.index_tile q := by
  induction l with
  | nil => exact fun m q _ => rfl
  | cons nb rest ih =>
      intro m q hq
      rw [List.foldl_cons]
      by_cases hc : (m.map.index_tile nb).is_empty = true
      · rw [if_pos hc]
        have hqnb : q ≠ nb := by
          intro he
          rw [he, hc] at hq
          exact Bool.noConfusion hq
        have hstep : ((m.set_at_mm nb wall_rock)).map.index_tile q = m.map.index_tile q := by
          rw [set_at_mm_index, if_neg hqnb]
        rw [ih _ q (by rw [hstep]; exact hq), hstep]
      · rw [if_neg hc]
        exact ih _ q hq

/-- The neighbor-walling fold changes a cell only into a nonempty non-floor. -/
theorem wn_fold_write (l : List TilePos) : ∀ (m : MutMap) (q : TilePos),
    ((l.foldl (fun res nb =>
        if (res.map.index_tile nb).is_empty then res.set_at_mm nb wall_rock else res)
      m).map.index_tile q = m.map.index_tile q) ∨
    (((l.foldl (fun res nb =>
        if (res.map.index_tile nb).is_empty then res.set_at_mm nb wall_rock else res)
      m).map.index_tile q).is_floor = false ∧
     ((l.foldl (fun res nb =>
        if (res.map.index_tile nb).is_empty then res.set_at_mm nb wall_rock else res)
      m).map.index_tile q).is_empty = false) := by
  induction l with
  | nil => exact fun m q => Or.inl rfl
  | cons nb rest ih =>
      intro m q
      rw [List.foldl_cons]
      by_cases hc : (m.map.index_tile nb).is_empty = true
      · rw [if_pos hc]
        by_cases hqnb : q = nb
        · have hstep : ((m.set_at_mm nb wall_rock)).map.index_tile q
              = (m.map.index_tile nb).set wall_rock := by
            rw [set_at_mm_index, if_pos hqnb]
          rcases ih (m.set_at_mm nb wall_rock) q with heq | hflo
          · refine Or.inr ?_
            rw [heq, hstep]
            exact ⟨set_wall_rock_not_floor _, set_wall_rock_nonempty _⟩
          · exact Or.inr hflo
        · have hstep : ((m.set_at_mm nb wall_rock)).map.index_tile q
              = m.map.index_tile q := by
            rw [set_at_mm_index, if_neg hqnb]
          rcases ih (m.set_at_mm nb wall_rock) q with heq | hflo
          · exact Or.inl (heq.trans hstep)
          · exact Or.inr hflo
      · rw [if_neg hc]
        exact ih m q

/-- After the neighbor-walling fold, every listed position is nonempty. -/
theorem wn_fold_covers (l : List TilePos) : ∀ (m : MutMap) (nb : TilePos), nb ∈ l →
    ((l.foldl (fun res nb =>
        if (res.map.index_tile nb).is_empty then res.set_at_mm nb wall_rock else res)
      m).map.index_tile nb).is_empty = false := by
  induction l with
  | nil => exact fun m nb h => absurd h (List.not_mem_nil nb)
  | cons nb0 rest ih =>
      intro m nb hmem
      rw [List.foldl_cons]
      rcases List.mem_cons.mp hmem with rfl | hrest
      · by_cases hc : (m.map.index_tile nb).is_empty = true
        · rw [if_pos hc]
          have hstep : ((m.set_at_mm nb wall_rock)).map.index_tile nb
              = (m.map.index_tile nb).set wall_rock := by
            rw [set_at_mm_index, if_pos rfl]
          have hne : (((m.set_at_mm nb wall_rock)).map.index_tile nb).is_empty = false := by
            rw [hstep]
            exact set_wall_rock_nonempty _
          rw [wn_fold_preserve rest _ nb hne]
          exact hne
        · rw [if_neg hc]
          have hne : (m.map.index_tile nb).is_empty = false := by
            rcases hb : (m.map.index_tile nb).is_empty with _ | _
            · rfl
            · exact absurd hb hc
          rw [wn_fold_preserve rest _ nb hne]
          exact hne
      · by_cases hc : (m.map.index_tile nb0).is_empty = true
        · rw [if_pos hc]
          exact ih _ nb hrest
        · rw [if_neg hc]
          exact ih _ nb hrest

/-- One step of the walling pass leaves nonempty cells untouched. -/
theorem wp_step_preserve (m : MutMap) (pos : TilePos) (q : TilePos)
    (hq : (m.map.index_tile q).is_empty = false) :
    (if (m.map.index_tile pos).is_floor then wall_neighbors m pos
      else m).map.index_tile q = m.map.index_tile q := by
  by_cases hf : (m.map.index_tile pos).is_floor = true
  · rw [if_pos hf, wall_neighbors]
    exact wn_fold_preserve _ m q hq
  · rw [if_neg hf]

/-- One step of the walling pass changes a cell only into a nonempty non-floor. -/
theorem wp_step_write (m : MutMap) (pos : TilePos) (q : TilePos) :
    ((if (m.map.index_tile pos).is_floor then wall_neighbors m pos
      else m).map.index_tile q = m.map.index_tile q) ∨
    (((if (m.map.index_tile pos).is_floor then wall_neighbors m pos
      else m).map.index_tile q).is_floor = false ∧
     ((if (m.map.index_tile pos).is_floor then wall_neighbors m pos
      else m).map.index_tile q).is_empty = false) := by
  by_cases hf : (m.map.index_tile pos).is_floor = true
  · rw [if_pos hf, wall_neighbors]
    exact wn_fold_write _ m q
  · rw [if_neg hf]
    exact Or.inl rfl

/-- The walling pass leaves nonempty cells untouched. -/
theorem wall_pass_preserve (positions : List TilePos) : ∀ (m : MutMap) (q : TilePos),
    (m.map.index_tile q).is_empty = false →
    ((wall_pass positions m).map.index_tile q) = m.map.index_tile q := by
  induction positions with
  | nil => exact fun m q _ => rfl
  | cons pos rest ih =>
      intro m q hq
      rw [wall_pass, List.foldl_cons]
      have hstep := wp_step_preserve m pos q hq
      rw [show (rest.foldl (fun res pos =>
          if (res.map.index_tile pos).is_floor then wall_neighbors res pos else res)
          (if (m.map.index_tile pos).is_floor then wall_neighbors m pos else m))
        = wall_pass rest (if (m.map.index_tile pos).is_floor then wall_neighbors m pos
            else m) from rfl]
      rw [ih _ q (by rw [hstep]; exact hq), hstep]

/-- The walling pass changes a cell only into a nonempty non-floor. -/
theorem wall_pass_write (positions : List TilePos) : ∀ (m : MutMap) (q : TilePos),
    ((wall_pass positions m).map.index_tile q = m.map.index_tile q) ∨
    (((wall_pass positions m).map.index_tile q).is_floor = false ∧
     ((wall_pass positions m).map.index_tile q).is_empty = false) := by
  induction positions with
  | nil => exact fun m q => Or.inl rfl
  | cons pos rest ih =>
      intro m q
      rw [wall_pass, List.foldl_cons]
      rw [show (rest.foldl (fun res pos =>
          if (res.map.index_tile pos).is_floor then wall_neighbors res pos else res)
          (if (m.map.index_tile pos).is_floor then wall_neighbors m pos else m))
        = wall_pass rest (if (m.map.index_tile pos).is_floor then wall_neighbors m pos
            else m) from rfl]
      rcases ih (if (m.map.index_tile pos).is_floor then wall_neighbors m pos else m) q
        with heq | hflo
      · rcases wp_step_write m pos q with heq2 | hflo2
        · exact Or.inl (heq.trans heq2)
        · refine Or.inr ?_
          rw [heq]
          exact hflo2
      · exact Or.inr hflo

/-- A cell that is a floor after the walling pass was that same floor before. -/
theorem wall_pass_floor_back (positions : List TilePos) (m : MutMap) (q : TilePos)
    (h : ((wall_pass positions m).map.index_tile q).is_floor = true) :
    (wall_pass positions m).map.index_tile q = m.map.index_tile q := by
  rcases wall_pass_write positions m q with heq | hflo
  · exact heq
  · rw [hflo.1] at h
    exact Bool.noConfusion h

/-- After the walling pass, every Moore neighbor of a scanned floor cell is
nonempty. -/
theorem wall_pass_covers (positions : List TilePos) : ∀ (m : MutMap) (p : TilePos),
    p ∈ positions →
    ((wall_pass positions m).map.index_tile p).is_floor = true →
    ∀ nb ∈ p.moore_neighborhood,
      ((wall_pass positions m).map.index_tile nb).is_empty = false := by
  induction positions with
  | nil => exact fun m p h => absurd h (List.not_mem_nil p)
  | cons pos rest ih =>
      intro m p hmem hfloor nb hnb
      rw [wall_pass, List.foldl_cons] at hfloor ⊢
      rw [show (rest.foldl (fun res pos =>
          if (res.map.index_tile pos).is_floor then wall_neighbors res pos else res)
          (if (m.map.index_tile pos).is_floor then wall_neighbors m pos else m))
        = wall_pass rest (if (m.map.index_tile pos).is_floor then wall_neighbors m pos
            else m) from rfl] at hfloor ⊢
      rcases List.mem_cons.mp hmem with rfl | hrest
      · by_cases hf : (m.map.index_tile p).is_floor = true
        · rw [if_pos hf] at hfloor ⊢
          have hcov : ((wall_neighbors m p).map.index_tile nb).is_empty = false := by
            rw [wall_neighbors]
            exact wn_fold_covers _ m nb hnb
          rw [wall_pass_preserve rest _ nb hcov]
          exact hcov
        · rw [if_neg hf] at hfloor
          have := wall_pass_floor_back rest m p hfloor
          rw [this] at hfloor
          exact absurd hfloor hf
      · exact ih _ p hrest hfloor nb hnb

/-- The spawn landmark write: a nonempty, non-floor foreground. -/
theorem spawn_value_not_floor (tp : TilePair) :
    ({ tp with foreground :=
        { tp.foreground with ty := .Landmark .SpawnPlayer false } } : TilePair).is_floor
      = false := rfl

theorem spawn_value_nonempty (tp : TilePair) :
    ({ tp with foreground :=
        { tp.foreground with ty := .Landmark .SpawnPlayer false } } : TilePair).is_empty
      = false := rfl

/-- The spawn pass changes a cell only into a nonempty non-floor landmark. -/
theorem spawn_loop_write (fuel : Nat) : ∀ (spawns : Nat) (rooms : List TileRect)
    (res : MutMap) (rng : RngState) (res2 : MutMap) (rng2 : RngState),
    spawn_loop fuel spawns rooms res rng = .ok (res2, rng2) →
    ∀ q : TilePos, res2.map.index_tile q = res.map.index_tile q ∨
      ((res2.map.index_tile q).is_floor = false ∧
       (res2.map.index_tile q).is_empty = false) := by
  induction fuel with
  | zero =>
      intro spawns rooms res rng res2 rng2 h q
      rw [spawn_loop] at h
      simp only [Except.ok.injEq, Prod.mk.injEq] at h
      rw [← h.1]
      exact Or.inl rfl
  | succ fuel ih =>
      intro spawns rooms res rng res2 rng2 h q
      rw [spawn_loop] at h
      rcases hch : choose rooms rng with ⟨_ | room, rngA⟩ <;> simp only [hch] at h
      · exact Except.noConfusion h
      · rcases hgx : gen_range_incl rngA room.min.x room.max.x
            with ex | ⟨x, rngB⟩ <;> simp only [hgx] at h
        · exact Except.noConfusion h
        · rcases hgy : gen_range_incl rngB room.min.y room.max.y
              with ey | ⟨y, rngC⟩ <;> simp only [hgy] at h
          · exact Except.noConfusion h
          · by_cases hfl : (res.map.index_tile (TilePos.of x y)).is_floor = true
            · rw [if_neg (by rw [hfl]; intro hc; exact Bool.noConfusion hc)] at h
              set tp := res.map.index_tile (TilePos.of x y) with htp
              set res1 : MutMap := { res with map := (res.map.set_tile (TilePos.of x y)
                { tp with foreground :=
                    { tp.foreground with ty := .Landmark .SpawnPlayer false } }) }
                with hres1
              have hstep : ∀ r : TilePos, res1.map.index_tile r = res.map.index_tile r ∨
                  ((res1.map.index_tile r).is_floor = false ∧
                   (res1.map.index_tile r).is_empty = false) := by
                intro r
                rw [hres1]
                show (res.map.set_tile (TilePos.of x y) _).index_tile r = _ ∨ _
                rw [index_tile_set]
                by_cases hr : r = TilePos.of x y
                · rw [if_pos hr]
                  exact Or.inr ⟨spawn_value_not_floor tp, spawn_value_nonempty tp⟩
                · rw [if_neg hr]
                  exact Or.inl rfl
              by_cases hs5 : spawns + 1 ≥ 5
              · rw [if_pos hs5] at h
                simp only [Except.ok.injEq, Prod.mk.injEq] at h
                rw [← h.1]
                exact hstep q
              · rw [if_neg hs5] at h
                rcases ih (spawns + 1) rooms res1 rngC res2 rng2 h q with heq | hflo
                · rcases hstep q with heq2 | hflo2
                  · exact Or.inl (heq.trans heq2)
                  · refine Or.inr ?_
                    rw [heq]
                    exact hflo2
                · exact Or.inr hflo
            · rw [if_pos (by
                rcases hb : (res.map.index_tile (TilePos.of x y)).is_floor with _ | _
                · rfl
                · exact absurd hb hfl)] at h
              exact ih spawns rooms res rngC res2 rng2 h q

/-! ## Claim C3, part 2: used_tiles covers every nonempty cell -/

/-- Every stored chunk's recorded position is its store key. -/
def Map.wellkeyed (m : Map) : Prop := ∀ e ∈ m.chunks, e.2.pos = e.1

/-- Every stored chunk key is far inside the i32 range. -/
def Map.chunks_inrange (m : Map) : Prop :=
  ∀ e ∈ m.chunks, -1000000 ≤ e.1.x ∧ e.1.x ≤ 1000000 ∧
    -1000000 ≤ e.1.y ∧ e.1.y ≤ 1000000

/-- The cell list scanned per chunk by used_tiles. -/
def chunkCells (c : Chunk) : List (TilePair × TilePos) :=
  ((List.range (diameterTiles ^ 2)).map c.tiles).zip c.tile_positions

/-- One accumulator update of the used_tiles cell scan. -/
def scanStep (acc : TilePos × TilePos) (tp : TilePair × TilePos) : TilePos × TilePos :=
  if tp.1.is_empty then acc else (acc.1.minP tp.2, acc.2.maxP tp.2)

/-- The border chunk list scanned by used_tiles. -/
def borderOf (minChunk maxChunk : ChunkPos) : List ChunkPos :=
  ((intRange minChunk.x maxChunk.x).map fun x => ChunkPos.of x minChunk.y) ++
  ((intRange minChunk.x maxChunk.x).map fun x => ChunkPos.of x maxChunk.y) ++
  ((intRange (minChunk.y + 1) (maxChunk.y - 1)).map fun y => ChunkPos.of minChunk.x y) ++
  ((intRange (minChunk.y + 1) (maxChunk.y - 1)).map fun y => ChunkPos.of maxChunk.x y)

theorem used_tiles_eq (m : Map) : m.used_tiles = TileRect.new_presorted
    ((borderOf m.used_chunks.1 m.used_chunks.2).foldl
      (fun acc cp => (chunkCells (m.index_chunk cp)).foldl scanStep acc)
      (TilePos.of i32Max i32Max, TilePos.of i32Min i32Min)).1
    ((borderOf m.used_chunks.1 m.used_chunks.2).foldl
      (fun acc cp => (chunkCells (m.index_chunk cp)).foldl scanStep acc)
      (TilePos.of i32Max i32Max, TilePos.of i32Min i32Min)).2 := rfl

theorem uc_fold_mono (m : Map) (l : List (ChunkPos × Chunk)) :
    ∀ acc : ChunkPos × ChunkPos,
    (l.foldl (fun acc e => if (m.index_chunk e.1).is_empty then acc
        else (acc.1.minC e.1, acc.2.maxC e.1)) acc).1.x ≤ acc.1.x ∧
    (l.foldl (fun acc e => if (m.index_chunk e.1).is_empty then acc
        else (acc.1.minC e.1, acc.2.maxC e.1)) acc).1.y ≤ acc.1.y ∧
    acc.2.x ≤ (l.foldl (fun acc e => if (m.index_chunk e.1).is_empty then acc
        else (acc.1.minC e.1, acc.2.maxC e.1)) acc).2.x ∧
    acc.2.y ≤ (l.foldl (fun acc e => if (m.index_chunk e.1).is_empty then acc
        else (acc.1.minC e.1, acc.2.maxC e.1)) acc).2.y := by
  induction l with
  | nil => exact fun acc => ⟨le_refl _, le_refl _, le_refl _, le_refl _⟩
  | cons e rest ih =>
      intro acc
      rw [List.foldl_cons]
      by_cases hc : (m.index_chunk e.1).is_empty = true
      · rw [if_pos hc]
        exact ih acc
      · rw [if_neg hc]
        obtain ⟨h1, h2, h3, h4⟩ := ih (acc.1.minC e.1, acc.2.maxC e.1)
        refine ⟨le_trans h1 ?_, le_trans h2 ?_, le_trans ?_ h3, le_trans ?_ h4⟩
        · exact min_le_left _ _
        · exact min_le_left _ _
        · exact le_max_left _ _
        · exact le_max_left _ _

theorem uc_fold_contrib (m : Map) (l : List (ChunkPos × Chunk)) :
    ∀ (acc : ChunkPos × ChunkPos) (e : ChunkPos × Chunk), e ∈ l →
    (m.index_chunk e.1).is_empty = false →
    (l.foldl (fun acc e => if (m.index_chunk e.1).is_empty then acc
        else (acc.1.minC e.1, acc.2.maxC e.1)) acc).1.x ≤ e.1.x ∧
    (l.foldl (fun acc e => if (m.index_chunk e.1).is_empty then acc
        else (acc.1.minC e.1, acc.2.maxC e.1)) acc).1.y ≤ e.1.y ∧
    e.1.x ≤ (l.foldl (fun acc e => if (m.index_chunk e.1).is_empty then acc
        else (acc.1.minC e.1, acc.2.maxC e.1)) acc).2.x ∧
    e.1.y ≤ (l.foldl (fun acc e => if (m.index_chunk e.1).is_empty then acc
        else (acc.1.minC e.1, acc.2.maxC e.1)) acc).2.y := by
  induction l with
  | nil => exact fun acc e he _ => absurd he (List.not_mem_nil e)
  | cons e0 rest ih =>
      intro acc e he hne
      rw [List.foldl_cons]
      rcases List.mem_cons.mp he with rfl | hrest
      · rw [if_neg (by rw [hne]; intro hcc; exact Bool.noConfusion hcc)]
        obtain ⟨h1, h2, h3, h4⟩ := uc_fold_mono m rest (acc.1.minC e.1, acc.2.maxC e.1)
        refine ⟨le_trans h1 ?_, le_trans h2 ?_, le_trans ?_ h3, le_trans ?_ h4⟩
        · exact min_le_right _ _
        · exact min_le_right _ _
        · exact le_max_right _ _
        · exact le_max_right _ _
      · by_cases hc : (m.index_chunk e0.1).is_empty = true
        · rw [if_pos hc]
          exact ih acc e hrest hne
        · rw [if_neg hc]
          exact ih _ e hrest hne

theorem uc_fold_min_x (m : Map) (l : List (ChunkPos × Chunk)) :
    ∀ acc : ChunkPos × ChunkPos,
    ((l.foldl (fun acc e => if (m.index_chunk e.1).is_empty then acc
        else (acc.1.minC e.1, acc.2.maxC e.1)) acc).1.x = acc.1.x) ∨
    (∃ e ∈ l, (m.index_chunk e.1).is_empty = false ∧
      e.1.x = (l.foldl (fun acc e => if (m.index_chunk e.1).is_empty then acc
        else (acc.1.minC e.1, acc.2.maxC e.1)) acc).1.x) := by
  induction l with
  | nil => exact fun acc => Or.inl rfl
  | cons e0 rest ih =>
      intro acc
      rw [List.foldl_cons]
      by_cases hc : (m.index_chunk e0.1).is_empty = true
      · rw [if_pos hc]
        rcases ih acc with h | ⟨e, he, hek, heq⟩
        · exact Or.inl h
        · exact Or.inr ⟨e, List.mem_cons_of_mem _ he, hek, heq⟩
      · rw [if_neg hc]
        have hcf : (m.index_chunk e0.1).is_empty = false := by
          rcases hb : (m.index_chunk e0.1).is_empty with _ | _
          · rfl
          · exact absurd hb hc
        rcases ih (acc.1.minC e0.1, acc.2.maxC e0.1) with h | ⟨e, he, hek, heq⟩
        · by_cases hle : acc.1.x ≤ e0.1.x
          · refine Or.inl ?_
            rw [h]
            exact min_eq_left hle
          · refine Or.inr ⟨e0, List.mem_cons_self _ _, hcf, ?_⟩
            rw [h]
            exact (min_eq_right (by omega)).symm
        · exact Or.inr ⟨e, List.mem_cons_of_mem _ he, hek, heq⟩

theorem uc_fold_min_y (m : Map) (l : List (ChunkPos × Chunk)) :
    ∀ acc : ChunkPos × ChunkPos,
    ((l.foldl (fun acc e => if (m.index_chunk e.1).is_empty then acc
        else (acc.1.minC e.1, acc.2.maxC e.1)) acc).1.y = acc.1.y) ∨
    (∃ e ∈ l, (m.index_chunk e.1).is_empty = false ∧
      e.1.y = (l.foldl (fun acc e => if (m.index_chunk e.1).is_empty then acc
        else (acc.1.minC e.1, acc.2.maxC e.1)) acc).1.y) := by
  induction l with
  | nil => exact fun acc => Or.inl rfl
  | cons e0 rest ih =>
      intro acc
      rw [List.foldl_cons]
      by_cases hc : (m.index_chunk e0.1).is_empty = true
      · rw [if_pos hc]
        rcases ih acc with h | ⟨e, he, hek, heq⟩
        · exact Or.inl h
        · exact Or.inr ⟨e, List.mem_cons_of_mem _ he, hek, heq⟩
      · rw [if_neg hc]
        have hcf : (m.index_chunk e0.1).is_empty = false := by
          rcases hb : (m.index_chunk e0.1).is_empty with _ | _
          · rfl
          · exact absurd hb hc
        rcases ih (acc.1.minC e0.1, acc.2.maxC e0.1) with h | ⟨e, he, hek, heq⟩
        · by_cases hle : acc.1.y ≤ e0.1.y
          · refine Or.inl ?_
            rw [h]
            exact min_eq_left hle
          · refine Or.inr ⟨e0, List.mem_cons_self _ _, hcf, ?_⟩
            rw [h]
            exact (min_eq_right (by omega)).symm
        · exact Or.inr ⟨e, List.mem_cons_of_mem _ he, hek, heq⟩

theorem uc_fold_max_x (m : Map) (l : List (ChunkPos × Chunk)) :
    ∀ acc : ChunkPos × ChunkPos,
    ((l.foldl (fun acc e => if (m.index_chunk e.1).is_empty then acc
        else (acc.1.minC e.1, acc.2.maxC e.1)) acc).2.x = acc.2.x) ∨
    (∃ e ∈ l, (m.index_chunk e.1).is_empty = false ∧
      e.1.x = (l.foldl (fun acc e => if (m.index_chunk e.1).is_empty then acc
        else (acc.1.minC e.1, acc.2.maxC e.1)) acc).2.x) := by
  induction l with
  | nil => exact fun acc => Or.inl rfl
  | cons e0 rest ih =>
      intro acc
      rw [List.foldl_cons]
      by_cases hc : (m.index_chunk e0.1).is_empty = true
      · rw [if_pos hc]
        rcases ih acc with h | ⟨e, he, hek, heq⟩
        · exact Or.inl h
        · exact Or.inr ⟨e, List.mem_cons_of_mem _ he, hek, heq⟩
      · rw [if_neg hc]
        have hcf : (m.index_chunk e0.1).is_empty = false := by
          rcases hb : (m.index_chunk e0.1).is_empty with _ | _
          · rfl
          · exact absurd hb hc
        rcases ih (acc.1.minC e0.1, acc.2.maxC e0.1) with h | ⟨e, he, hek, heq⟩
        · by_cases hle : e0.1.x ≤ acc.2.x
          · refine Or.inl ?_
            rw [h]
            exact max_eq_left hle
          · refine Or.inr ⟨e0, List.mem_cons_self _ _, hcf, ?_⟩
            rw [h]
            exact (max_eq_right (by omega)).symm
        · exact Or.inr ⟨e, List.mem_cons_of_mem _ he, hek, heq⟩

theorem uc_fold_max_y (m : Map) (l : List (ChunkPos × Chunk)) :
    ∀ acc : ChunkPos × ChunkPos,
    ((l.foldl (fun acc e => if (m.index_chunk e.1).is_empty then acc
        else (acc.1.minC e.1, acc.2.maxC e.1)) acc).2.y = acc.2.y) ∨
    (∃ e ∈ l, (m.index_chunk e.1).is_empty = false ∧
      e.1.y = (l.foldl (fun acc e => if (m.index_chunk e.1).is_empty then acc
        else (acc.1.minC e.1, acc.2.maxC e.1)) acc).2.y) := by
  induction l with
  | nil => exact fun acc => Or.inl rfl
  | cons e0 rest ih =>
      intro acc
      rw [List.foldl_cons]
      by_cases hc : (m.index_chunk e0.1).is_empty = true
      · rw [if_pos hc]
        rcases ih acc with h | ⟨e, he, hek, heq⟩
        · exact Or.inl h
        · exact Or.inr ⟨e, List.mem_cons_of_mem _ he, hek, heq⟩
      · rw [if_neg hc]
        have hcf : (m.index_chunk e0.1).is_empty = false := by
          rcases hb : (m.index_chunk e0.1).is_empty with _ | _
          · rfl
          · exact absurd hb hc
        rcases ih (acc.1.minC e0.1, acc.2.maxC e0.1) with h | ⟨e, he, hek, heq⟩
        · by_cases hle : e0.1.y ≤ acc.2.y
          · refine Or.inl ?_
            rw [h]
            exact max_eq_left hle
          · refine Or.inr ⟨e0, List.mem_cons_self _ _, hcf, ?_⟩
            rw [h]
            exact (max_eq_right (by omega)).symm
        · exact Or.inr ⟨e, List.mem_cons_of_mem _ he, hek, heq⟩

/-- A nonempty chunk read comes from a stored entry with the queried key. -/
theorem index_chunk_entry (m : Map) (cp : ChunkPos)
    (h : (m.index_chunk cp).is_empty = false) :
    ∃ e ∈ m.chunks, e.1 = cp ∧ e.2 = m.index_chunk cp := by
  rcases hf : m.find_chunk cp with _ | c
  · exfalso
    rw [Map.index_chunk, hf, Option.getD_none] at h
    have hg : ghostChunk.is_empty = true := List.all_eq_true.mpr (fun i _ => rfl)
    rw [hg] at h
    exact Bool.noConfusion h
  · rw [Map.find_chunk] at hf
    obtain ⟨e, hfind, hsnd⟩ := Option.map_eq_some'.mp hf
    have hmem := List.mem_of_find?_eq_some hfind
    have hkey : (e.1 == cp) = true := by
      have := List.find?_some hfind
      exact this
    refine ⟨e, hmem, beq_iff_eq.mp hkey, ?_⟩
    rw [Map.index_chunk, Map.find_chunk, hfind, Option.map_some', Option.getD_some]

theorem chunk_nonempty_of_cell (c : Chunk) (i : Nat) (hi : i < diameterTiles ^ 2)
    (h : (c.tiles i).is_empty = false) : c.is_empty = false := by
  rcases hb : c.is_empty with _ | _
  · rfl
  · exfalso
    have := List.all_eq_true.mp hb i (List.mem_range.mpr hi)
    rw [h] at this
    exact Bool.noConfusion this

theorem chunk_cell_of_nonempty (c : Chunk) (h : c.is_empty = false) :
    ∃ i : Nat, i < diameterTiles ^ 2 ∧ (c.tiles i).is_empty = false := by
  by_contra hno
  push_neg at hno
  have hall : (List.range (diameterTiles ^ 2)).all (fun i => (c.tiles i).is_empty) = true := by
    refine List.all_eq_true.mpr ?_
    intro i hi
    have hlt := List.mem_range.mp hi
    rcases hb : (c.tiles i).is_empty with _ | _
    · exact absurd hb (hno i hlt)
    · rfl
  rw [Chunk.is_empty] at h
  rw [hall] at h
  exact Bool.noConfusion h

theorem intRange_getElem (lo hi : Int) (i : Nat) (hilen : i < (hi + 1 - lo).toNat) :
    (intRange lo hi)[i]? = some (lo + (i : Int)) := by
  rw [intRange, List.getElem?_map]
  simp [List.getElem?_range, hilen]

theorem flatMap_getElem_uniform {β : Type} (k : Nat) (f : Int → List β) :
    ∀ (ls : List Int), (∀ y ∈ ls, (f y).length = k) → ∀ (i : Nat), i < ls.length * k →
    (ls.flatMap f)[i]? = (ls[i / k]?.bind fun y => (f y)[i % k]?) := by
  intro ls
  induction ls with
  | nil =>
      intro _ i hi
      simp at hi
  | cons y rest ih =>
      intro hlen i hi
      have hk0 : 0 < k := by
        rcases Nat.eq_zero_or_pos k with rfl | h
        · rw [Nat.mul_zero] at hi
          omega
        · exact h
      have hky : (f y).length = k := hlen y (List.mem_cons_self y rest)
      rw [List.flatMap_cons]
      by_cases hik : i < k
      · rw [List.getElem?_append, if_pos (by rw [hky]; exact hik)]
        rw [Nat.div_eq_of_lt hik, Nat.mod_eq_of_lt hik]
        rw [List.getElem?_cons_zero, Option.some_bind]
      · rw [List.getElem?_append, if_neg (by rw [hky]; exact hik)]
        rw [hky]
        have hi' : i - k < rest.length * k := by
          rw [List.length_cons, Nat.succ_mul] at hi
          omega
        rw [ih (fun z hz => hlen z (List.mem_cons_of_mem _ hz)) (i - k) hi']
        have hj : i = (i - k) + k := by omega
        have hdiv : i / k = (i - k) / k + 1 := by
          conv_lhs => rw [hj]
          rw [Nat.add_div_right _ hk0]
        have hmod : i % k = (i - k) % k := by
          conv_lhs => rw [hj]
          rw [Nat.add_mod_right]
        rw [hdiv, hmod, List.getElem?_cons_succ]

theorem diameter_sq : diameterTiles ^ 2 = 1024 := by
  norm_num [diameterTiles]

theorem intRange31_len : ((diameterTiles - 1 : Nat) : Int) + 1 - 0 = 32 := by
  norm_num [diameterTiles]

theorem tile_positions_getElem (c : Chunk) (i : Nat) (hi : i < 1024) :
    c.tile_positions[i]? = some (TilePos.of (32 * c.pos.x + ((i % 32 : Nat) : Int))
      (32 * c.pos.y + ((i / 32 : Nat) : Int))) := by
  rw [Chunk.tile_positions]
  have hlen : ∀ y ∈ intRange 0 ((diameterTiles - 1 : Nat) : Int),
      ((intRange 0 ((diameterTiles - 1 : Nat) : Int)).map (fun x =>
        TilePos.of (Int.lor (shl5 c.pos.x) x) (Int.lor (shl5 c.pos.y) y))).length = 32 := by
    intro y _
    rw [List.length_map, intRange, List.length_map, List.length_range, intRange31_len]
    rfl
  have hlslen : (intRange 0 ((diameterTiles - 1 : Nat) : Int)).length = 32 := by
    rw [intRange, List.length_map, List.length_range, intRange31_len]
    rfl
  rw [flatMap_getElem_uniform 32 _ _ hlen i (by rw [hlslen]; omega)]
  have hdivlt : i / 32 < 32 := by omega
  have hmodlt : i % 32 < 32 := by omega
  rw [intRange_getElem 0 _ (i / 32) (by rw [show (((diameterTiles - 1 : Nat) : Int) + 1 - 0).toNat = 32 by rw [intRange31_len]; rfl]; exact hdivlt)]
  rw [Option.some_bind]
  rw [List.getElem?_map]
  rw [intRange_getElem 0 _ (i % 32) (by rw [show (((diameterTiles - 1 : Nat) : Int) + 1 - 0).toNat = 32 by rw [intRange31_len]; rfl]; exact hmodlt)]
  rw [Option.map_some']
  simp only [zero_add]
  have hx : Int.lor (shl5 c.pos.x) ((i % 32 : Nat) : Int)
      = 32 * c.pos.x + ((i % 32 : Nat) : Int) := by
    rw [shl5, mul_comm]
    exact int_lor_low c.pos.x ((i % 32 : Nat) : Int) (by omega) (by omega)
  have hy : Int.lor (shl5 c.pos.y) ((i / 32 : Nat) : Int)
      = 32 * c.pos.y + ((i / 32 : Nat) : Int) := by
    rw [shl5, mul_comm]
    exact int_lor_low c.pos.y ((i / 32 : Nat) : Int) (by omega) (by omega)
  rw [hx, hy]

theorem chunkCells_mem (c : Chunk) (i : Nat) (hi : i < 1024) :
    (c.tiles i, TilePos.of (32 * c.pos.x + ((i % 32 : Nat) : Int))
      (32 * c.pos.y + ((i / 32 : Nat) : Int))) ∈ chunkCells c := by
  rw [chunkCells]
  have hin : i < diameterTiles ^ 2 := by
    rw [diameter_sq]
    exact hi
  have h1 : ((List.range (diameterTiles ^ 2)).map c.tiles)[i]? = some (c.tiles i) := by
    rw [List.getElem?_map]
    simp [List.getElem?_range, hin]
  have h2 := tile_positions_getElem c i hi
  have hz : (((List.range (diameterTiles ^ 2)).map c.tiles).zip c.tile_positions)[i]?
      = some (c.tiles i, TilePos.of (32 * c.pos.x + ((i % 32 : Nat) : Int))
        (32 * c.pos.y + ((i / 32 : Nat) : Int))) := by
    simp only [List.getElem?_zip_eq_some]
    exact ⟨h1, h2⟩
  exact List.getElem?_mem hz

theorem chunkCells_elim (c : Chunk) (t : TilePair) (q : TilePos)
    (h : (t, q) ∈ chunkCells c) :
    ∃ i : Nat, i < 1024 ∧ t = c.tiles i ∧
      q = TilePos.of (32 * c.pos.x + ((i % 32 : Nat) : Int))
        (32 * c.pos.y + ((i / 32 : Nat) : Int)) := by
  rw [chunkCells] at h
  obtain ⟨i, hg⟩ := List.mem_iff_getElem?.mp h
  simp only [List.getElem?_zip_eq_some] at hg
  obtain ⟨h1, h2⟩ := hg
  rw [List.getElem?_map] at h1
  have hin : i < diameterTiles ^ 2 := by
    by_contra hno
    rw [List.getElem?_eq_none (by rw [List.length_range]; omega)] at h1
    exact Option.noConfusion h1
  have hilt : i < 1024 := by
    rw [diameter_sq] at hin
    exact hin
  refine ⟨i, hilt, ?_, ?_⟩
  · have hr : (List.range (diameterTiles ^ 2))[i]? = some i := by
      simp [List.getElem?_range, hin]
    rw [hr, Option.map_some'] at h1
    exact (Option.some.inj h1).symm
  · rw [tile_positions_getElem c i hilt] at h2
    exact (Option.some.inj h2).symm

theorem scan_fold_mono (l : List (TilePair × TilePos)) : ∀ acc : TilePos × TilePos,
    (l.foldl scanStep acc).1.x ≤ acc.1.x ∧ (l.foldl scanStep acc).1.y ≤ acc.1.y ∧
    acc.2.x ≤ (l.foldl scanStep acc).2.x ∧ acc.2.y ≤ (l.foldl scanStep acc).2.y := by
  induction l with
  | nil => exact fun acc => ⟨le_refl _, le_refl _, le_refl _, le_refl _⟩
  | cons tp rest ih =>
      intro acc
      rw [List.foldl_cons]
      by_cases hc : tp.1.is_empty = true
      · rw [show scanStep acc tp = acc by rw [scanStep, if_pos hc]]
        exact ih acc
      · rw [show scanStep acc tp = (acc.1.minP tp.2, acc.2.maxP tp.2) by
          rw [scanStep, if_neg hc]]
        obtain ⟨h1, h2, h3, h4⟩ := ih (acc.1.minP tp.2, acc.2.maxP tp.2)
        refine ⟨le_trans h1 ?_, le_trans h2 ?_, le_trans ?_ h3, le_trans ?_ h4⟩
        · exact min_le_left _ _
        · exact min_le_left _ _
        · exact le_max_left _ _
        · exact le_max_left _ _

theorem scan_fold_contrib (l : List (TilePair × TilePos)) :
    ∀ (acc : TilePos × TilePos) (t : TilePair) (q : TilePos), (t, q) ∈ l →
    t.is_empty = false →
    (l.foldl scanStep acc).1.x ≤ q.x ∧ (l.foldl scanStep acc).1.y ≤ q.y ∧
    q.x ≤ (l.foldl scanStep acc).2.x ∧ q.y ≤ (l.foldl scanStep acc).2.y := by
  induction l with
  | nil => exact fun acc t q h _ => absurd h (List.not_mem_nil _)
  | cons tp rest ih =>
      obtain ⟨t0, q0⟩ := tp
      intro acc t q hmem hne
      rw [List.foldl_cons]
      rcases List.mem_cons.mp hmem with heq | hrest
      · rw [Prod.mk.injEq] at heq
        obtain ⟨rfl, rfl⟩ := heq
        rw [show scanStep acc (t, q) = (acc.1.minP q, acc.2.maxP q) from by
          rw [scanStep, if_neg (by rw [hne]; intro hcc; exact Bool.noConfusion hcc)]]
        obtain ⟨h1, h2, h3, h4⟩ := scan_fold_mono rest (acc.1.minP q, acc.2.maxP q)
        refine ⟨le_trans h1 ?_, le_trans h2 ?_, le_trans ?_ h3, le_trans ?_ h4⟩
        · exact min_le_right _ _
        · exact min_le_right _ _
        · exact le_max_right _ _
        · exact le_max_right _ _
      · exact ih (scanStep acc (t0, q0)) t q hrest hne

theorem border_fold_mono (m : Map) (l : List ChunkPos) : ∀ acc : TilePos × TilePos,
    (l.foldl (fun acc cp => (chunkCells (m.index_chunk cp)).foldl scanStep acc)
      acc).1.x ≤ acc.1.x ∧
    (l.foldl (fun acc cp => (chunkCells (m.index_chunk cp)).foldl scanStep acc)
      acc).1.y ≤ acc.1.y ∧
    acc.2.x ≤ (l.foldl (fun acc cp => (chunkCells (m.index_chunk cp)).foldl scanStep acc)
      acc).2.x ∧
    acc.2.y ≤ (l.foldl (fun acc cp => (chunkCells (m.index_chunk cp)).foldl scanStep acc)
      acc).2.y := by
  induction l with
  | nil => exact fun acc => ⟨le_refl _, le_refl _, le_refl _, le_refl _⟩
  | cons cp rest ih =>
      intro acc
      rw [List.foldl_cons]
      obtain ⟨g1, g2, g3, g4⟩ := scan_fold_mono (chunkCells (m.index_chunk cp)) acc
      obtain ⟨h1, h2, h3, h4⟩ := ih ((chunkCells (m.index_chunk cp)).foldl scanStep acc)
      exact ⟨le_trans h1 g1, le_trans h2 g2, le_trans g3 h3, le_trans g4 h4⟩

theorem border_fold_contrib (m : Map) (l : List ChunkPos) :
    ∀ (acc : TilePos × TilePos) (cp : ChunkPos), cp ∈ l →
    ∀ (t : TilePair) (q : TilePos), (t, q) ∈ chunkCells (m.index_chunk cp) →
    t.is_empty = false →
    (l.foldl (fun acc cp => (chunkCells (m.index_chunk cp)).foldl scanStep acc)
      acc).1.x ≤ q.x ∧
    (l.foldl (fun acc cp => (chunkCells (m.index_chunk cp)).foldl scanStep acc)
      acc).1.y ≤ q.y ∧
    q.x ≤ (l.foldl (fun acc cp => (chunkCells (m.index_chunk cp)).foldl scanStep acc)
      acc).2.x ∧
    q.y ≤ (l.foldl (fun acc cp => (chunkCells (m.index_chunk cp)).foldl scanStep acc)
      acc).2.y := by
  induction l with
  | nil => exact fun acc cp h _ _ _ _ => absurd h (List.not_mem_nil _)
  | cons cp0 rest ih =>
      intro acc cp hmem t q hcell hne
      rw [List.foldl_cons]
      rcases List.mem_cons.mp hmem with rfl | hrest
      · obtain ⟨g1, g2, g3, g4⟩ := scan_fold_contrib (chunkCells (m.index_chunk cp))
          acc t q hcell hne
        obtain ⟨h1, h2, h3, h4⟩ := border_fold_mono m rest
          ((chunkCells (m.index_chunk cp)).foldl scanStep acc)
        exact ⟨le_trans h1 g1, le_trans h2 g2, le_trans g3 h3, le_trans g4 h4⟩
      · exact ih _ cp hrest t q hcell hne

theorem mem_borderOf_row_min (mc Mc cp : ChunkPos) (hx1 : mc.x ≤ cp.x) (hx2 : cp.x ≤ Mc.x)
    (hy : cp.y = mc.y) : cp ∈ borderOf mc Mc := by
  rw [borderOf]
  refine List.mem_append_left _ (List.mem_append_left _ (List.mem_append_left _ ?_))
  refine List.mem_map.mpr ⟨cp.x, mem_intRange.mpr ⟨hx1, hx2⟩, ?_⟩
  have hself : ChunkPos.of cp.x cp.y = cp := rfl
  rw [hy] at hself
  exact hself

theorem mem_borderOf_row_max (mc Mc cp : ChunkPos) (hx1 : mc.x ≤ cp.x) (hx2 : cp.x ≤ Mc.x)
    (hy : cp.y = Mc.y) : cp ∈ borderOf mc Mc := by
  rw [borderOf]
  refine List.mem_append_left _ (List.mem_append_left _ (List.mem_append_right _ ?_))
  refine List.mem_map.mpr ⟨cp.x, mem_intRange.mpr ⟨hx1, hx2⟩, ?_⟩
  have hself : ChunkPos.of cp.x cp.y = cp := rfl
  rw [hy] at hself
  exact hself

theorem mem_borderOf_col_min (mc Mc cp : ChunkPos) (hy1 : mc.y + 1 ≤ cp.y)
    (hy2 : cp.y ≤ Mc.y - 1) (hx : cp.x = mc.x) : cp ∈ borderOf mc Mc := by
  rw [borderOf]
  refine List.mem_append_left _ (List.mem_append_right _ ?_)
  refine List.mem_map.mpr ⟨cp.y, mem_intRange.mpr ⟨hy1, hy2⟩, ?_⟩
  have hself : ChunkPos.of cp.x cp.y = cp := rfl
  rw [hx] at hself
  exact hself

theorem mem_borderOf_col_max (mc Mc cp : ChunkPos) (hy1 : mc.y + 1 ≤ cp.y)
    (hy2 : cp.y ≤ Mc.y - 1) (hx : cp.x = Mc.x) : cp ∈ borderOf mc Mc := by
  rw [borderOf]
  refine List.mem_append_right _ ?_
  refine List.mem_map.mpr ⟨cp.y, mem_intRange.mpr ⟨hy1, hy2⟩, ?_⟩
  have hself : ChunkPos.of cp.x cp.y = cp := rfl
  rw [hx] at hself
  exact hself

theorem mem_borderOf_any (mc Mc cp : ChunkPos)
    (hx1 : mc.x ≤ cp.x) (hx2 : cp.x ≤ Mc.x) (hy1 : mc.y ≤ cp.y) (hy2 : cp.y ≤ Mc.y)
    (hb : cp.x = mc.x ∨ cp.x = Mc.x ∨ cp.y = mc.y ∨ cp.y = Mc.y) :
    cp ∈ borderOf mc Mc := by
  by_cases hymin : cp.y = mc.y
  · exact mem_borderOf_row_min _ _ _ hx1 hx2 hymin
  by_cases hymax : cp.y = Mc.y
  · exact mem_borderOf_row_max _ _ _ hx1 hx2 hymax
  rcases hb with hx | hx | hy | hy
  · exact mem_borderOf_col_min _ _ _ (by omega) (by omega) hx
  · exact mem_borderOf_col_max _ _ _ (by omega) (by omega) hx
  · exact absurd hy hymin
  · exact absurd hy hymax

/-- A nonempty border chunk contributes a cell position inside its own 32 by
32 tile box to the used_tiles accumulator. -/
theorem border_chunk_cell_bounds (m : Map) (hwk : m.wellkeyed)
    (mc Mc : ChunkPos) (e0 : ChunkPos × Chunk) (he0 : e0 ∈ m.chunks)
    (hne0 : (m.index_chunk e0.1).is_empty = false)
    (hmemb : e0.1 ∈ borderOf mc Mc) :
    ∃ q : TilePos,
      ((borderOf mc Mc).foldl
        (fun acc cp => (chunkCells (m.index_chunk cp)).foldl scanStep acc)
        (TilePos.of i32Max i32Max, TilePos.of i32Min i32Min)).1.x ≤ q.x ∧
      ((borderOf mc Mc).foldl
        (fun acc cp => (chunkCells (m.index_chunk cp)).foldl scanStep acc)
        (TilePos.of i32Max i32Max, TilePos.of i32Min i32Min)).1.y ≤ q.y ∧
      q.x ≤ ((borderOf mc Mc).foldl
        (fun acc cp => (chunkCells (m.index_chunk cp)).foldl scanStep acc)
        (TilePos.of i32Max i32Max, TilePos.of i32Min i32Min)).2.x ∧
      q.y ≤ ((borderOf mc Mc).foldl
        (fun acc cp => (chunkCells (m.index_chunk cp)).foldl scanStep acc)
        (TilePos.of i32Max i32Max, TilePos.of i32Min i32Min)).2.y ∧
      32 * e0.1.x ≤ q.x ∧ q.x ≤ 32 * e0.1.x + 31 ∧
      32 * e0.1.y ≤ q.y ∧ q.y ≤ 32 * e0.1.y + 31 := by
  obtain ⟨eA, heAmem, heAkey, heAval⟩ := index_chunk_entry m e0.1 hne0
  have hpos0 : (m.index_chunk e0.1).pos = e0.1 := by
    rw [← heAval, hwk eA heAmem, heAkey]
  obtain ⟨j, hjlt0, hjne⟩ := chunk_cell_of_nonempty (m.index_chunk e0.1) hne0
  have hjlt : j < 1024 := by
    rw [diameter_sq] at hjlt0
    exact hjlt0
  have hcell := chunkCells_mem (m.index_chunk e0.1) j hjlt
  rw [hpos0] at hcell
  have hcontrib := border_fold_contrib m (borderOf mc Mc)
    (TilePos.of i32Max i32Max, TilePos.of i32Min i32Min) e0.1 hmemb _ _ hcell hjne
  refine ⟨TilePos.of (32 * e0.1.x + ((j % 32 : Nat) : Int))
      (32 * e0.1.y + ((j / 32 : Nat) : Int)),
    hcontrib.1, hcontrib.2.1, hcontrib.2.2.1, hcontrib.2.2.2, ?_, ?_, ?_, ?_⟩
  · show 32 * e0.1.x ≤ 32 * e0.1.x + ((j % 32 : Nat) : Int)
    omega
  · show 32 * e0.1.x + ((j % 32 : Nat) : Int) ≤ 32 * e0.1.x + 31
    omega
  · show 32 * e0.1.y ≤ 32 * e0.1.y + ((j / 32 : Nat) : Int)
    omega
  · show 32 * e0.1.y + ((j / 32 : Nat) : Int) ≤ 32 * e0.1.y + 31
    omega

/-- used_tiles covers every nonempty cell: the tight bounding rectangle
reported by the border-chunk scan contains every nonempty tile of a map whose
chunk store is well keyed and far inside the i32 range. -/
theorem nonempty_tile_mem_used_tiles (m : Map) (hwk : m.wellkeyed)
    (hir : m.chunks_inrange) (p : TilePos)
    (hne : (m.index_tile p).is_empty = false) : p ∈ m.used_tiles.tiles := by
  have hilt : p.chunk_relative.chunk_index < 1024 := chunk_index_lt p
  have hcellne : ((m.index_chunk (ChunkPos.fromTile p)).tiles
      p.chunk_relative.chunk_index).is_empty = false := hne
  have hchne : (m.index_chunk (ChunkPos.fromTile p)).is_empty = false :=
    chunk_nonempty_of_cell _ _ (by rw [diameter_sq]; exact hilt) hcellne
  obtain ⟨e, hemem, hekey, heval⟩ := index_chunk_entry m (ChunkPos.fromTile p) hchne
  have hpos : (m.index_chunk (ChunkPos.fromTile p)).pos = ChunkPos.fromTile p := by
    rw [← heval, hwk e hemem, hekey]
  have hd := tile_decomposition p
  have hrelb := chunk_relative_bounds p
  have hidx := chunk_relative_index p
  have hrx : p.chunk_relative.x = p.x % 32 := by
    show Int.land p.x 0x1F = p.x % 32
    rw [show (0x1F : Int) = 31 from rfl]
    exact int_land_31 p.x
  have hry : p.chunk_relative.y = p.y % 32 := by
    show Int.land p.y 0x1F = p.y % 32
    rw [show (0x1F : Int) = 31 from rfl]
    exact int_land_31 p.y
  have hcx : 32 * (ChunkPos.fromTile p).x
      + ((p.chunk_relative.chunk_index % 32 : Nat) : Int) = p.x := by
    omega
  have hcy : 32 * (ChunkPos.fromTile p).y
      + ((p.chunk_relative.chunk_index / 32 : Nat) : Int) = p.y := by
    omega
  have hcell := chunkCells_mem (m.index_chunk (ChunkPos.fromTile p))
    p.chunk_relative.chunk_index hilt
  rw [hpos] at hcell
  have hpt : TilePos.of
      (32 * (ChunkPos.fromTile p).x + ((p.chunk_relative.chunk_index % 32 : Nat) : Int))
      (32 * (ChunkPos.fromTile p).y + ((p.chunk_relative.chunk_index / 32 : Nat) : Int))
      = p := by
    conv_rhs => rw [show p = TilePos.of p.x p.y from rfl]
    rw [hcx, hcy]
  rw [hpt] at hcell
  have huc : m.used_chunks = m.chunks.foldl
      (fun acc e => if (m.index_chunk e.1).is_empty then acc
        else (acc.1.minC e.1, acc.2.maxC e.1))
      (ChunkPos.of i32Max i32Max, ChunkPos.of i32Min i32Min) := rfl
  have hucb := uc_fold_contrib m m.chunks
    (ChunkPos.of i32Max i32Max, ChunkPos.of i32Min i32Min) e hemem
    (by rw [hekey]; exact hchne)
  rw [← huc, hekey] at hucb
  have hcir := hir e hemem
  rw [hekey] at hcir
  rw [used_tiles_eq, mem_tiles]
  by_cases hborder : (ChunkPos.fromTile p).x = m.used_chunks.1.x ∨
      (ChunkPos.fromTile p).x = m.used_chunks.2.x ∨
      (ChunkPos.fromTile p).y = m.used_chunks.1.y ∨
      (ChunkPos.fromTile p).y = m.used_chunks.2.y
  · have hmemb : ChunkPos.fromTile p ∈ borderOf m.used_chunks.1 m.used_chunks.2 :=
      mem_borderOf_any _ _ _ hucb.1 hucb.2.2.1 hucb.2.1 hucb.2.2.2 hborder
    have hcontrib := border_fold_contrib m (borderOf m.used_chunks.1 m.used_chunks.2)
      (TilePos.of i32Max i32Max, TilePos.of i32Min i32Min) (ChunkPos.fromTile p)
      hmemb _ _ hcell hcellne
    exact ⟨hcontrib.1, hcontrib.2.2.1, hcontrib.2.1, hcontrib.2.2.2⟩
  · push_neg at hborder
    obtain ⟨hbx1, hbx2, hby1, hby2⟩ := hborder
    have hsent1 : (ChunkPos.of i32Max i32Max, ChunkPos.of i32Min i32Min).1.x
        = 2147483647 := rfl
    have hsent2 : (ChunkPos.of i32Max i32Max, ChunkPos.of i32Min i32Min).1.y
        = 2147483647 := rfl
    have hsent3 : (ChunkPos.of i32Max i32Max, ChunkPos.of i32Min i32Min).2.x
        = -2147483648 := rfl
    have hsent4 : (ChunkPos.of i32Max i32Max, ChunkPos.of i32Min i32Min).2.y
        = -2147483648 := rfl
    refine ⟨?_, ?_, ?_, ?_⟩
    · rcases uc_fold_min_x m m.chunks
          (ChunkPos.of i32Max i32Max, ChunkPos.of i32Min i32Min) with hs | ⟨e0, he0, hne0, heq0⟩
      · rw [← huc] at hs
        rw [hsent1] at hs
        omega
      · rw [← huc] at heq0
        have hub := uc_fold_contrib m m.chunks
          (ChunkPos.of i32Max i32Max, ChunkPos.of i32Min i32Min) e0 he0 hne0
        rw [← huc] at hub
        have hmemb0 : e0.1 ∈ borderOf m.used_chunks.1 m.used_chunks.2 :=
          mem_borderOf_any _ _ _ hub.1 hub.2.2.1 hub.2.1 hub.2.2.2 (Or.inl heq0)
        obtain ⟨q, hq1, hq2, hq3, hq4, hb1, hb2, hb3, hb4⟩ :=
          border_chunk_cell_bounds m hwk m.used_chunks.1 m.used_chunks.2 e0 he0 hne0 hmemb0
        exact le_trans hq1 (by omega)
    · rcases uc_fold_max_x m m.chunks
          (ChunkPos.of i32Max i32Max, ChunkPos.of i32Min i32Min) with hs | ⟨e0, he0, hne0, heq0⟩
      · rw [← huc] at hs
        rw [hsent3] at hs
        omega
      · rw [← huc] at heq0
        have hub := uc_fold_contrib m m.chunks
          (ChunkPos.of i32Max i32Max, ChunkPos.of i32Min i32Min) e0 he0 hne0
        rw [← huc] at hub
        have hmemb0 : e0.1 ∈ borderOf m.used_chunks.1 m.used_chunks.2 :=
          mem_borderOf_any _ _ _ hub.1 hub.2.2.1 hub.2.1 hub.2.2.2 (Or.inr (Or.inl heq0))
        obtain ⟨q, hq1, hq2, hq3, hq4, hb1, hb2, hb3, hb4⟩ :=
          border_chunk_cell_bounds m hwk m.used_chunks.1 m.used_chunks.2 e0 he0 hne0 hmemb0
        exact le_trans (by omega) hq3
    · rcases uc_fold_min_y m m.chunks
          (ChunkPos.of i32Max i32Max, ChunkPos.of i32Min i32Min) with hs | ⟨e0, he0, hne0, heq0⟩
      · rw [← huc] at hs
        rw [hsent2] at hs
        omega
      · rw [← huc] at heq0
        have hub := uc_fold_contrib m m.chunks
          (ChunkPos.of i32Max i32Max, ChunkPos.of i32Min i32Min) e0 he0 hne0
        rw [← huc] at hub
        have hmemb0 : e0.1 ∈ borderOf m.used_chunks.1 m.used_chunks.2 :=
          mem_borderOf_any _ _ _ hub.1 hub.2.2.1 hub.2.1 hub.2.2.2
            (Or.inr (Or.inr (Or.inl heq0)))
        obtain ⟨q, hq1, hq2, hq3, hq4, hb1, hb2, hb3, hb4⟩ :=
          border_chunk_cell_bounds m hwk m.used_chunks.1 m.used_chunks.2 e0 he0 hne0 hmemb0
        exact le_trans hq2 (by omega)
    · rcases uc_fold_max_y m m.chunks
          (ChunkPos.of i32Max i32Max, ChunkPos.of i32Min i32Min) with hs | ⟨e0, he0, hne0, heq0⟩
      · rw [← huc] at hs
        rw [hsent4] at hs
        omega
      · rw [← huc] at heq0
        have hub := uc_fold_contrib m m.chunks
          (ChunkPos.of i32Max i32Max, ChunkPos.of i32Min i32Min) e0 he0 hne0
        rw [← huc] at hub
        have hmemb0 : e0.1 ∈ borderOf m.used_chunks.1 m.used_chunks.2 :=
          mem_borderOf_any _ _ _ hub.1 hub.2.2.1 hub.2.1 hub.2.2.2
            (Or.inr (Or.inr (Or.inr heq0)))
        obtain ⟨q, hq1, hq2, hq3, hq4, hb1, hb2, hb3, hb4⟩ :=
          border_chunk_cell_bounds m hwk m.used_chunks.1 m.used_chunks.2 e0 he0 hne0 hmemb0
        exact le_trans (by omega) hq4

/-! ## Claim C3, part 3: store invariants of the generation phases -/

/-- A tile position within the 32B-wide box that keeps its chunk key within B. -/
def posIn (B : Int) (q : TilePos) : Prop :=
  -(32 * B) ≤ q.x ∧ q.x ≤ 32 * B + 31 ∧ -(32 * B) ≤ q.y ∧ q.y ≤ 32 * B + 31

/-- The chunk store invariant: well keyed, with keys within B per axis. -/
def Map.mapOK (m : Map) (B : Int) : Prop :=
  ∀ e ∈ m.chunks, e.2.pos = e.1 ∧ -B ≤ e.1.x ∧ e.1.x ≤ B ∧ -B ≤ e.1.y ∧ e.1.y ≤ B

theorem mapOK_wellkeyed {m : Map} {B : Int} (h : m.mapOK B) : m.wellkeyed :=
  fun e he => (h e he).1

theorem mapOK_inrange {m : Map} (h : m.mapOK 1000000) : m.chunks_inrange :=
  fun e he => (h e he).2

theorem mapOK_new (B : Int) : Map.new.mapOK B :=
  fun e he => absurd he (List.not_mem_nil e)

theorem fromTile_bounds (B : Int) (p : TilePos) (hp : posIn B p) :
    -B ≤ (ChunkPos.fromTile p).x ∧ (ChunkPos.fromTile p).x ≤ B ∧
    -B ≤ (ChunkPos.fromTile p).y ∧ (ChunkPos.fromTile p).y ≤ B := by
  obtain ⟨hdx, hdy⟩ := fromTile_eq_div p
  obtain ⟨h1, h2, h3, h4⟩ := hp
  rw [hdx, hdy]
  omega

theorem mapOK_set_tile (m : Map) (B : Int) (p : TilePos) (v : TilePair)
    (h : m.mapOK B) (hp : posIn B p) : (m.set_tile p v).mapOK B := by
  have hkb := fromTile_bounds B p hp
  rw [Map.set_tile, Map.modify_chunk]
  rcases hc : m.find_chunk (ChunkPos.fromTile p) with _ | c
  · intro e he
    rcases List.mem_append.mp he with hold | hnew
    · exact h e hold
    · have heq := List.mem_singleton.mp hnew
      rw [heq]
      exact ⟨rfl, hkb.1, hkb.2.1, hkb.2.2.1, hkb.2.2.2⟩
  · intro e he
    obtain ⟨e0, he0, rfl⟩ := List.mem_map.mp he
    by_cases hk : (e0.1 == ChunkPos.fromTile p) = true
    · rw [if_pos hk]
      obtain ⟨hpos, hb1, hb2, hb3, hb4⟩ := h e0 he0
      exact ⟨hpos, hb1, hb2, hb3, hb4⟩
    · rw [if_neg hk]
      exact h e0 he0

theorem mapOK_set_at (m : Map) (B : Int) (p : TilePos) (t : Tile)
    (h : m.mapOK B) (hp : posIn B p) : (m.set_at p t).mapOK B :=
  mapOK_set_tile m B p _ h hp

theorem mapOK_set_at_mm (m : MutMap) (B : Int) (p : TilePos) (t : Tile)
    (h : m.map.mapOK B) (hp : posIn B p) : (m.set_at_mm p t).map.mapOK B := by
  rw [set_at_mm_map]
  exact mapOK_set_at m.map B p t h hp

/-- Invariant preservation for a fold of single-cell writes whose positions
all lie in the box. -/
theorem mapOK_foldl_w {α : Type} (pos : α → TilePos) (val : Map → α → TilePair)
    (B : Int) : ∀ (l : List α), (∀ x ∈ l, posIn B (pos x)) → ∀ m : Map, m.mapOK B →
    (l.foldl (fun mm x => mm.set_tile (pos x) (val mm x)) m).mapOK B := by
  intro l
  induction l with
  | nil => exact fun _ m hm => hm
  | cons a rest ih =>
      intro hl m hm
      rw [List.foldl_cons]
      exact ih (fun x hx => hl x (List.mem_cons_of_mem _ hx)) _
        (mapOK_set_tile m B (pos a) _ hm (hl a (List.mem_cons_self _ _)))

theorem mapOK_fill (m : MutMap) (t : Tile) (a b : TilePos) (B : Int)
    (h : m.map.mapOK B) (ha : posIn B a) (hb : posIn B b) :
    (m.fill t a b).map.mapOK B := by
  refine mapOK_foldl_w (fun q => q) (fun mm q => (mm.index_tile q).set t) B
    (TileRect.new a b).tiles ?_ m.map h
  intro q hq
  rw [mem_tiles] at hq
  obtain ⟨ha1, ha2, ha3, ha4⟩ := ha
  obtain ⟨hb1, hb2, hb3, hb4⟩ := hb
  have hmin : (TileRect.new a b).min.x = min a.x b.x ∧
      (TileRect.new a b).min.y = min a.y b.y ∧
      (TileRect.new a b).max.x = max a.x b.x ∧
      (TileRect.new a b).max.y = max a.y b.y := ⟨rfl, rfl, rfl, rfl⟩
  obtain ⟨hm1, hm2, hm3, hm4⟩ := hmin
  rw [hm1, hm3, hm2, hm4] at hq
  show posIn B q
  exact ⟨by omega, by omega, by omega, by omega⟩

theorem mapOK_fill_line (m : MutMap) (t : Tile) (a b : TilePos) (m2 : MutMap) (B : Int)
    (hfl : m.fill_line t a b = .ok m2)
    (h : m.map.mapOK B) (ha : posIn B a) (hb : posIn B b) : m2.map.mapOK B := by
  obtain ⟨ha1, ha2, ha3, ha4⟩ := ha
  obtain ⟨hb1, hb2, hb3, hb4⟩ := hb
  have hmin : (TileRect.new a b).min.x = min a.x b.x ∧
      (TileRect.new a b).min.y = min a.y b.y ∧
      (TileRect.new a b).max.x = max a.x b.x ∧
      (TileRect.new a b).max.y = max a.y b.y := ⟨rfl, rfl, rfl, rfl⟩
  obtain ⟨hm1, hm2, hm3, hm4⟩ := hmin
  simp only [MutMap.fill_line] at hfl
  split_ifs at hfl with h1 h2
  · simp only [Except.ok.injEq] at hfl
    rw [← hfl]
    refine mapOK_foldl_w (fun x => TilePos.of x (TileRect.new a b).min.y)
      (fun mm x => (mm.index_tile (TilePos.of x (TileRect.new a b).min.y)).set t) B
      _ ?_ m.map h
    intro x hx
    rw [mem_intRange, hm1, hm3] at hx
    refine ⟨?_, ?_, ?_, ?_⟩
    · show -(32 * B) ≤ x
      omega
    · show x ≤ 32 * B + 31
      omega
    · show -(32 * B) ≤ (TileRect.new a b).min.y
      rw [hm2]
      omega
    · show (TileRect.new a b).min.y ≤ 32 * B + 31
      rw [hm2]
      omega
  · simp only [Except.ok.injEq] at hfl
    rw [← hfl]
    refine mapOK_foldl_w (fun y => TilePos.of (TileRect.new a b).min.x y)
      (fun mm y => (mm.index_tile (TilePos.of (TileRect.new a b).min.x y)).set t) B
      _ ?_ m.map h
    intro y hy
    rw [mem_intRange, hm2, hm4] at hy
    refine ⟨?_, ?_, ?_, ?_⟩
    · show -(32 * B) ≤ (TileRect.new a b).min.x
      rw [hm1]
      omega
    · show (TileRect.new a b).min.x ≤ 32 * B + 31
      rw [hm1]
      omega
    · show -(32 * B) ≤ y
      omega
    · show y ≤ 32 * B + 31
      omega

theorem mapOK_fill_border (m : MutMap) (t : Tile) (a b : TilePos) (m2 : MutMap) (B : Int)
    (hfb : m.fill_border t a b = .ok m2)
    (h : m.map.mapOK B) (ha : posIn B a) (hb : posIn B b) : m2.map.mapOK B := by
  have hcorner : posIn B (TileRect.new a b).min ∧ posIn B (TileRect.new a b).max := by
    obtain ⟨ha1, ha2, ha3, ha4⟩ := ha
    obtain ⟨hb1, hb2, hb3, hb4⟩ := hb
    have hm1 : (TileRect.new a b).min.x = min a.x b.x := rfl
    have hm2 : (TileRect.new a b).min.y = min a.y b.y := rfl
    have hm3 : (TileRect.new a b).max.x = max a.x b.x := rfl
    have hm4 : (TileRect.new a b).max.y = max a.y b.y := rfl
    exact ⟨⟨by rw [hm1]; omega, by rw [hm1]; omega, by rw [hm2]; omega, by rw [hm2]; omega⟩,
      ⟨by rw [hm3]; omega, by rw [hm3]; omega, by rw [hm4]; omega, by rw [hm4]; omega⟩⟩
  obtain ⟨hcmin, hcmax⟩ := hcorner
  have hcmix1 : posIn B (TilePos.of (TileRect.new a b).min.x (TileRect.new a b).min.y) :=
    ⟨hcmin.1, hcmin.2.1, hcmin.2.2.1, hcmin.2.2.2⟩
  have hcmix2 : posIn B (TilePos.of (TileRect.new a b).max.x (TileRect.new a b).min.y) :=
    ⟨hcmax.1, hcmax.2.1, hcmin.2.2.1, hcmin.2.2.2⟩
  have hcmix3 : posIn B (TilePos.of (TileRect.new a b).min.x (TileRect.new a b).max.y) :=
    ⟨hcmin.1, hcmin.2.1, hcmax.2.2.1, hcmax.2.2.2⟩
  have hcmix4 : posIn B (TilePos.of (TileRect.new a b).max.x (TileRect.new a b).max.y) :=
    ⟨hcmax.1, hcmax.2.1, hcmax.2.2.1, hcmax.2.2.2⟩
  simp only [MutMap.fill_border] at hfb
  rcases h1 : m.fill_line t (TilePos.of (TileRect.new a b).min.x (TileRect.new a b).min.y)
      (TilePos.of (TileRect.new a b).max.x (TileRect.new a b).min.y) with e1 | m1 <;>
    rw [h1] at hfb <;> simp only [Except.bind] at hfb
  · exact Except.noConfusion hfb
  · rcases h2 : m1.fill_line t
        (TilePos.of (TileRect.new a b).min.x (TileRect.new a b).max.y)
        (TilePos.of (TileRect.new a b).max.x (TileRect.new a b).max.y) with e2 | mm2 <;>
      rw [h2] at hfb <;> simp only [Except.bind] at hfb
    · exact Except.noConfusion hfb
    · rcases h3 : mm2.fill_line t
          (TilePos.of (TileRect.new a b).min.x (TileRect.new a b).min.y)
          (TilePos.of (TileRect.new a b).min.x (TileRect.new a b).max.y) with e3 | m3 <;>
        rw [h3] at hfb <;> simp only [Except.bind] at hfb
      · exact Except.noConfusion hfb
      · have k1 := mapOK_fill_line _ _ _ _ _ _ h1 h hcmix1 hcmix2
        have k2 := mapOK_fill_line _ _ _ _ _ _ h2 k1 hcmix3 hcmix4
        have k3 := mapOK_fill_line _ _ _ _ _ _ h3 k2 hcmix1 hcmix3
        exact mapOK_fill_line _ _ _ _ _ _ hfb k3 hcmix2 hcmix4

/-- A rectangle produced by the BSP pass: sorted corners within the map box. -/
def rectOK (r : TileRect) : Prop :=
  -60 ≤ r.min.x ∧ r.min.x ≤ r.max.x ∧ r.max.x ≤ 60 ∧
  -60 ≤ r.min.y ∧ r.min.y ≤ r.max.y ∧ r.max.y ≤ 60

theorem rectOK_posIn (r : TileRect) (h : rectOK r) (B : Int) (hB : 2 ≤ B) :
    posIn B r.min ∧ posIn B r.max := by
  obtain ⟨h1, h2, h3, h4, h5, h6⟩ := h
  exact ⟨⟨by omega, by omega, by omega, by omega⟩,
    ⟨by omega, by omega, by omega, by omega⟩⟩

theorem mapOK_hall_fill (rects : List TileRect) : ∀ (res : MutMap) (out : MutMap),
    (∀ r ∈ rects, rectOK r) → res.map.mapOK 1000000 →
    hall_fill rects res = .ok out → out.map.mapOK 1000000 := by
  induction rects with
  | nil =>
      intro res out _ hm h
      rw [hall_fill] at h
      simp only [Except.ok.injEq] at h
      rw [← h]
      exact hm
  | cons rect rest ih =>
      intro res out hrects hm h
      rw [hall_fill] at h
      rcases hfb : res.fill_border floor_rock rect.min rect.max with e | res2 <;>
        simp only [hfb] at h
      · exact Except.noConfusion h
      · have hr := hrects rect (List.mem_cons_self _ _)
        obtain ⟨hpmin, hpmax⟩ := rectOK_posIn rect hr 1000000 (by omega)
        have hm2 := mapOK_fill_border res floor_rock rect.min rect.max res2 1000000
          hfb hm hpmin hpmax
        exact ih res2 out (fun r hr => hrects r (List.mem_cons_of_mem _ hr)) hm2 h

/-- Both children of a BSP split stay inside the parent rectangle. -/
theorem bsp_children_ok (rect : TileRect) (hr : rectOK rect) (xAxis : Bool) (j : Int)
    (hj1 : (-(if xAxis then rect.size.1 else rect.size.2)).tdiv 4 ≤ j)
    (hj2 : j < (if xAxis then rect.size.1 else rect.size.2).tdiv 4) :
    rectOK ((rect.split xAxis
      ((if xAxis then rect.size.1 else rect.size.2).tdiv 2 + j)).1) ∧
    rectOK ((rect.split xAxis
      ((if xAxis then rect.size.1 else rect.size.2).tdiv 2 + j)).2) := by
  obtain ⟨hr1, hr2, hr3, hr4, hr5, hr6⟩ := hr
  by_cases hx : xAxis = true
  · rw [hx] at hj1 hj2 ⊢
    rw [if_pos rfl] at hj1 hj2 ⊢
    have hsz : rect.size.1 = rect.max.x - rect.min.x := rfl
    have htd1 : (-(rect.size.1)).tdiv 4 = -(rect.size.1.tdiv 4) := Int.neg_tdiv _ _
    have htd2 : rect.size.1.tdiv 4 = rect.size.1 / 4 :=
      Int.tdiv_eq_ediv (by rw [hsz]; omega) (by omega)
    have htd3 : rect.size.1.tdiv 2 = rect.size.1 / 2 :=
      Int.tdiv_eq_ediv (by rw [hsz]; omega) (by omega)
    rw [htd1, htd2] at hj1
    rw [htd2] at hj2
    rw [TileRect.split, if_pos rfl, htd3]
    have hchild1 : rectOK (TileRect.new_presorted rect.min
        (TilePos.of (rect.min.x + (rect.size.1 / 2 + j)) rect.max.y)) := by
      refine ⟨?_, ?_, ?_, ?_, ?_, ?_⟩
      · show -60 ≤ rect.min.x
        omega
      · show rect.min.x ≤ rect.min.x + (rect.size.1 / 2 + j)
        omega
      · show rect.min.x + (rect.size.1 / 2 + j) ≤ 60
        omega
      · show -60 ≤ rect.min.y
        omega
      · show rect.min.y ≤ rect.max.y
        omega
      · show rect.max.y ≤ 60
        omega
    have hchild2 : rectOK (TileRect.new_presorted
        (TilePos.of (rect.min.x + (rect.size.1 / 2 + j)) rect.min.y) rect.max) := by
      refine ⟨?_, ?_, ?_, ?_, ?_, ?_⟩
      · show -60 ≤ rect.min.x + (rect.size.1 / 2 + j)
        omega
      · show rect.min.x + (rect.size.1 / 2 + j) ≤ rect.max.x
        omega
      · show rect.max.x ≤ 60
        omega
      · show -60 ≤ rect.min.y
        omega
      · show rect.min.y ≤ rect.max.y
        omega
      · show rect.max.y ≤ 60
        omega
    exact ⟨hchild1, hchild2⟩
  · have hxf : xAxis = false := by
      rcases hb : xAxis with _ | _
      · rfl
      · exact absurd hb hx
    rw [hxf] at hj1 hj2 ⊢
    rw [if_neg (by intro hc; exact Bool.noConfusion hc)] at hj1 hj2 ⊢
    have hsz : rect.size.2 = rect.max.y - rect.min.y := rfl
    have htd1 : (-(rect.size.2)).tdiv 4 = -(rect.size.2.tdiv 4) := Int.neg_tdiv _ _
    have htd2 : rect.size.2.tdiv 4 = rect.size.2 / 4 :=
      Int.tdiv_eq_ediv (by rw [hsz]; omega) (by omega)
    have htd3 : rect.size.2.tdiv 2 = rect.size.2 / 2 :=
      Int.tdiv_eq_ediv (by rw [hsz]; omega) (by omega)
    rw [htd1, htd2] at hj1
    rw [htd2] at hj2
    rw [TileRect.split, if_neg (by intro hc; exact Bool.noConfusion hc), htd3]
    have hchild1 : rectOK (TileRect.new_presorted rect.min
        (TilePos.of rect.max.x (rect.min.y + (rect.size.2 / 2 + j)))) := by
      refine ⟨?_, ?_, ?_, ?_, ?_, ?_⟩
      · show -60 ≤ rect.min.x
        omega
      · show rect.min.x ≤ rect.max.x
        omega
      · show rect.max.x ≤ 60
        omega
      · show -60 ≤ rect.min.y
        omega
      · show rect.min.y ≤ rect.min.y + (rect.size.2 / 2 + j)
        omega
      · show rect.min.y + (rect.size.2 / 2 + j) ≤ 60
        omega
    have hchild2 : rectOK (TileRect.new_presorted
        (TilePos.of rect.min.x (rect.min.y + (rect.size.2 / 2 + j))) rect.max) := by
      refine ⟨?_, ?_, ?_, ?_, ?_, ?_⟩
      · show -60 ≤ rect.min.x
        omega
      · show rect.min.x ≤ rect.max.x
        omega
      · show rect.max.x ≤ 60
        omega
      · show -60 ≤ rect.min.y + (rect.size.2 / 2 + j)
        omega
      · show rect.min.y + (rect.size.2 / 2 + j) ≤ rect.max.y
        omega
      · show rect.max.y ≤ 60
        omega
    exact ⟨hchild1, hchild2⟩

/-- The BSP split loop only emits rectangles inside the starting map box. -/
theorem bsp_loop_rects (queue : List (Nat × Bool × TileRect))
    (allRects roomRects : List TileRect) (rng : RngState)
    (out : List TileRect × List TileRect × RngState) :
    (∀ it ∈ queue, rectOK it.2.2) → (∀ r ∈ allRects, rectOK r) →
    (∀ r ∈ roomRects, rectOK r) →
    bsp_loop queue allRects roomRects rng = .ok out →
    (∀ r ∈ out.1, rectOK r) ∧ (∀ r ∈ out.2.1, rectOK r) := by
  induction queue, allRects, roomRects, rng using bsp_loop.induct with
  | case1 allRects roomRects rng =>
      intro _ hall hroom h
      rw [bsp_loop] at h
      simp only [Except.ok.injEq] at h
      rw [← h]
      exact ⟨hall, hroom⟩
  | case2 allRects roomRects rng depth xAxis rect rest hdepth ih =>
      intro hq hall hroom h
      rw [bsp_loop, if_pos hdepth] at h
      refine ih (fun it hit => hq it (List.mem_cons_of_mem _ hit)) ?_ ?_ h
      · intro r hr
        rcases List.mem_append.mp hr with hl | hs
        · exact hall r hl
        · rw [List.mem_singleton.mp hs]
          exact hq (depth, xAxis, rect) (List.mem_cons_self _ _)
      · intro r hr
        rcases List.mem_append.mp hr with hl | hs
        · exact hroom r hl
        · rw [List.mem_singleton.mp hs]
          exact hq (depth, xAxis, rect) (List.mem_cons_self _ _)
  | case3 allRects roomRects rng depth xAxis rect rest hdep size e heq =>
      intro hq hall hroom h
      have heq2 : gen_range rng
          ((-(if xAxis = true then rect.size.1 else rect.size.2)).tdiv 4)
          ((if xAxis = true then rect.size.1 else rect.size.2).tdiv 4)
          = Except.error e := heq
      rw [bsp_loop, if_neg hdep] at h
      simp only [heq2] at h
      exact Except.noConfusion h
  | case4 allRects roomRects rng depth xAxis rect rest hdep size j rng2 heq firstWidth lr ih =>
      intro hq hall hroom h
      have heq2 : gen_range rng
          ((-(if xAxis = true then rect.size.1 else rect.size.2)).tdiv 4)
          ((if xAxis = true then rect.size.1 else rect.size.2).tdiv 4)
          = Except.ok (j, rng2) := heq
      rw [bsp_loop, if_neg hdep] at h
      simp only [heq2] at h
      have hb := gen_range_ok_bounds heq2
      have hrOK := hq (depth, xAxis, rect) (List.mem_cons_self _ _)
      have hsplit := bsp_children_ok rect hrOK xAxis j hb.1 hb.2
      refine ih ?_ ?_ hroom h
      · intro it hit
        rcases List.mem_cons.mp hit with rfl | hit2
        · exact hsplit.2
        · rcases List.mem_cons.mp hit2 with rfl | hit3
          · exact hsplit.1
          · exact hq it (List.mem_cons_of_mem _ hit3)
      · intro r hr
        rcases List.mem_append.mp hr with hl | hs
        · exact hall r hl
        · rw [List.mem_singleton.mp hs]
          exact hrOK

theorem posIn_of (B a b : Int) (h1 : -(32 * B) ≤ a) (h2 : a ≤ 32 * B + 31)
    (h3 : -(32 * B) ≤ b) (h4 : b ≤ 32 * B + 31) : posIn B (TilePos.of a b) :=
  ⟨h1, h2, h3, h4⟩

theorem tile_on_border_posIn (r : TileRect) (rng : RngState) (pos : TilePos)
    (rng2 : RngState) (B : Int)
    (h : r.tile_on_border rng = .ok (pos, rng2))
    (hmin : posIn B r.min) (hmax : posIn B r.max) : posIn B pos := by
  obtain ⟨ha1, ha2, ha3, ha4⟩ := hmin
  obtain ⟨hb1, hb2, hb3, hb4⟩ := hmax
  rw [TileRect.tile_on_border] at h
  rcases hg : gen_range rng 0 4 with e | ⟨dir, rngA⟩ <;> simp only [hg] at h
  · exact Except.noConfusion h
  · by_cases h01 : dir = 0 ∨ dir = 1
    · rw [if_pos h01] at h
      rcases hx : gen_range_incl rngA r.min.x r.max.x with ex | ⟨x, rngB⟩ <;>
        simp only [hx] at h
      · exact Except.noConfusion h
      · have hxb := gen_range_incl_ok_bounds hx
        simp only [Except.ok.injEq, Prod.mk.injEq] at h
        obtain ⟨hpos, _⟩ := h
        rw [← hpos]
        by_cases hd2 : dir % 2 = 0
        · rw [if_pos hd2]
          exact posIn_of B x r.min.y (by omega) (by omega) (by omega) (by omega)
        · rw [if_neg hd2]
          exact posIn_of B x r.max.y (by omega) (by omega) (by omega) (by omega)
    · rw [if_neg h01] at h
      by_cases h23 : dir = 2 ∨ dir = 3
      · rw [if_pos h23] at h
        rcases hy : gen_range_incl rngA r.min.y r.max.y with ey | ⟨y, rngB⟩ <;>
          simp only [hy] at h
        · exact Except.noConfusion h
        · have hyb := gen_range_incl_ok_bounds hy
          simp only [Except.ok.injEq, Prod.mk.injEq] at h
          obtain ⟨hpos, _⟩ := h
          rw [← hpos]
          by_cases hd2 : dir % 2 = 0
          · rw [if_pos hd2]
            exact posIn_of B r.min.x y (by omega) (by omega) (by omega) (by omega)
          · rw [if_neg hd2]
            exact posIn_of B r.max.x y (by omega) (by omega) (by omega) (by omega)
      · rw [if_neg h23] at h
        exact Except.noConfusion h

theorem place_door_attempts_mapOK (B : Int) (fuel : Nat) :
    ∀ (rng : RngState) (res : MutMap) (rect : TileRect) (ts : Tileset)
      (doors : List TilePos) (res2 : MutMap) (doors2 : List TilePos) (rng2 : RngState),
    place_door_attempts fuel rng res rect ts doors = .ok (res2, doors2, rng2) →
    res.map.mapOK B → posIn B rect.min → posIn B rect.max →
    (∀ d ∈ doors, posIn B d) →
    res2.map.mapOK B ∧ (∀ d ∈ doors2, posIn B d) := by
  induction fuel with
  | zero =>
      intro rng res rect ts doors res2 doors2 rng2 h hm hmin hmax hd
      rw [place_door_attempts] at h
      simp only [Except.ok.injEq, Prod.mk.injEq] at h
      obtain ⟨rfl, rfl, rfl⟩ := h
      exact ⟨hm, hd⟩
  | succ fuel ih =>
      intro rng res rect ts doors res2 doors2 rng2 h hm hmin hmax hd
      rw [place_door_attempts] at h
      rcases htob : rect.tile_on_border rng with e | ⟨pos, rng1⟩ <;> simp only [htob] at h
      · exact Except.noConfusion h
      · have hposB := tile_on_border_posIn rect rng pos rng1 B htob hmin hmax
        by_cases hany : (pos.von_neumann_neighborhood.any
            fun nb => (res.map.index_tile nb).is_door) = true
        · rw [if_pos hany] at h
          exact ih rng1 res rect ts doors res2 doors2 rng2 h hm hmin hmax hd
        · rw [if_neg hany] at h
          by_cases hns : ((res.map.index_tile (pos.neighbor .North)).is_wall &&
              (res.map.index_tile (pos.neighbor .South)).is_wall) = true
          · rw [if_pos hns] at h
            simp only [Except.ok.injEq, Prod.mk.injEq] at h
            obtain ⟨rfl, rfl, rfl⟩ := h
            refine ⟨mapOK_set_at_mm _ _ _ _ hm hposB, ?_⟩
            intro d hdm
            rcases List.mem_append.mp hdm with hl | hs
            · exact hd d hl
            · rw [List.mem_singleton.mp hs]
              exact hposB
          · rw [if_neg hns] at h
            by_cases hew : ((res.map.index_tile (pos.neighbor .East)).is_wall &&
                (res.map.index_tile (pos.neighbor .West)).is_wall) = true
            · rw [if_pos hew] at h
              simp only [Except.ok.injEq, Prod.mk.injEq] at h
              obtain ⟨rfl, rfl, rfl⟩ := h
              refine ⟨mapOK_set_at_mm _ _ _ _ hm hposB, ?_⟩
              intro d hdm
              rcases List.mem_append.mp hdm with hl | hs
              · exact hd d hl
              · rw [List.mem_singleton.mp hs]
                exact hposB
            · rw [if_neg hew] at h
              exact ih rng1 res rect ts doors res2 doors2 rng2 h hm hmin hmax hd

theorem place_doors_mapOK (B : Int) (n : Nat) :
    ∀ (rng : RngState) (res : MutMap) (rect : TileRect) (ts : Tileset)
      (doors : List TilePos) (res2 : MutMap) (doors2 : List TilePos) (rng2 : RngState),
    place_doors n rng res rect ts doors = .ok (res2, doors2, rng2) →
    res.map.mapOK B → posIn B rect.min → posIn B rect.max →
    (∀ d ∈ doors, posIn B d) →
    res2.map.mapOK B ∧ (∀ d ∈ doors2, posIn B d) := by
  induction n with
  | zero =>
      intro rng res rect ts doors res2 doors2 rng2 h hm hmin hmax hd
      rw [place_doors] at h
      simp only [Except.ok.injEq, Prod.mk.injEq] at h
      obtain ⟨rfl, rfl, rfl⟩ := h
      exact ⟨hm, hd⟩
  | succ n ih =>
      intro rng res rect ts doors res2 doors2 rng2 h hm hmin hmax hd
      rw [place_doors] at h
      rcases hpda : place_door_attempts 1000 rng res rect ts doors
          with e | ⟨resA, doorsA, rngA⟩ <;> simp only [hpda] at h
      · exact Except.noConfusion h
      · obtain ⟨hmA, hdA⟩ := place_door_attempts_mapOK B 1000 rng res rect ts doors
          resA doorsA rngA hpda hm hmin hmax hd
        by_cases hemp : doorsA.isEmpty = true
        · rw [if_pos hemp] at h
          exact Except.noConfusion h
        · rw [if_neg hemp] at h
          exact ih rngA resA rect ts doorsA res2 doors2 rng2 h hmA hmin hmax hdA

/-- The room map built by generate_room has a well keyed, tightly bounded
chunk store, and all recorded doors lie in the room box. -/
theorem generate_room_mapOK (f : Nat → Nat → Nat) (rng : RngState) (rect : TileRect)
    (entropy : RngState) (room : MutMap) (doors : List TilePos) (rngO entO : RngState)
    (h : generate_room f rng rect entropy = .ok ((room, doors), rngO, entO))
    (hmin : posIn 100 rect.min) (hmax : posIn 100 rect.max) :
    room.map.mapOK 100 ∧ (∀ d ∈ doors, posIn 100 d) := by
  rw [generate_room] at h
  rcases hc : choose room_tilesets rng with ⟨_ | tileset, rng1⟩ <;> simp only [hc] at h
  · exact Except.noConfusion h
  · rcases hfb : ((MutMap.new f none entropy).1.fill ⟨.Floor .Tileset, tileset⟩
        rect.min rect.max).fill_border ⟨.Wall .Solid, tileset⟩ rect.min rect.max
      with e | resB <;> simp only [hfb] at h
    · exact Except.noConfusion h
    · rcases hs : choose [Landmark.ShrineIdol, Landmark.ShrineSkulls] rng1
          with ⟨_ | shrineType, rng2⟩ <;> simp only [hs] at h
      · exact Except.noConfusion h
      · rcases hx : gen_range rng2 (rect.min.x + 1) rect.max.x
            with ex | ⟨sx, rng3⟩ <;> simp only [hx] at h
        · exact Except.noConfusion h
        · rcases hy : gen_range rng3 (rect.min.y + 1) rect.max.y
              with ey | ⟨sy, rng4⟩ <;> simp only [hy] at h
          · exact Except.noConfusion h
          · rcases hnD : gen_range_incl (gen_bool rng4).2 1 4
                with en | ⟨numDoors, rng5⟩ <;> simp only [hnD] at h
            · exact Except.noConfusion h
            · rcases hpd : place_doors numDoors.toNat rng5
                  (resB.set_at_mm (TilePos.of sx sy)
                    ⟨.Landmark shrineType (gen_bool rng4).1, .BrickBlue⟩)
                  rect tileset [] with ep | ⟨resD, doorsD, rngD⟩ <;> simp only [hpd] at h
              · exact Except.noConfusion h
              · have h0 : (MutMap.new f none entropy).1.map.mapOK 100 := mapOK_new 100
                have h1 := mapOK_fill (MutMap.new f none entropy).1
                  ⟨.Floor .Tileset, tileset⟩ rect.min rect.max 100 h0 hmin hmax
                have h2 := mapOK_fill_border _ ⟨.Wall .Solid, tileset⟩ rect.min rect.max
                  resB 100 hfb h1 hmin hmax
                have hxb := gen_range_ok_bounds hx
                have hyb := gen_range_ok_bounds hy
                obtain ⟨ha1, ha2, ha3, ha4⟩ := hmin
                obtain ⟨hb1, hb2, hb3, hb4⟩ := hmax
                have hsb : posIn 100 (TilePos.of sx sy) :=
                  posIn_of 100 sx sy (by omega) (by omega) (by omega) (by omega)
                have h3 := mapOK_set_at_mm resB 100 (TilePos.of sx sy)
                  ⟨.Landmark shrineType (gen_bool rng4).1, .BrickBlue⟩ h2 hsb
                obtain ⟨hmD, hdD⟩ := place_doors_mapOK 100 numDoors.toNat rng5 _
                  rect tileset [] resD doorsD rngD hpd h3
                  ⟨ha1, ha2, ha3, ha4⟩ ⟨hb1, hb2, hb3, hb4⟩
                  (fun d hd => absurd hd (List.not_mem_nil d))
                simp only [Except.ok.injEq, Prod.mk.injEq] at h
                obtain ⟨⟨hr1, hr2⟩, _, _⟩ := h
                rw [← hr1, ← hr2]
                exact ⟨hmD, hdD⟩

theorem cell_bounded (m : Map) (B : Int) (hm : m.mapOK B) (cp : ChunkPos)
    (t : TilePair) (q : TilePos) (hcell : (t, q) ∈ chunkCells (m.index_chunk cp))
    (hne : t.is_empty = false) :
    -(32 * B) ≤ q.x ∧ q.x ≤ 32 * B + 31 ∧ -(32 * B) ≤ q.y ∧ q.y ≤ 32 * B + 31 := by
  obtain ⟨i, hilt, ht, hq⟩ := chunkCells_elim _ _ _ hcell
  have hchne : (m.index_chunk cp).is_empty = false := by
    refine chunk_nonempty_of_cell _ i (by rw [diameter_sq]; exact hilt) ?_
    rw [← ht]
    exact hne
  obtain ⟨e, hemem, hekey, heval⟩ := index_chunk_entry m cp hchne
  have hpos : (m.index_chunk cp).pos = cp := by
    rw [← heval, (hm e hemem).1, hekey]
  obtain ⟨_, hk1, hk2, hk3, hk4⟩ := hm e hemem
  rw [hekey] at hk1 hk2 hk3 hk4
  rw [hq, hpos]
  refine ⟨?_, ?_, ?_, ?_⟩
  · show -(32 * B) ≤ 32 * cp.x + ((i % 32 : Nat) : Int)
    omega
  · show 32 * cp.x + ((i % 32 : Nat) : Int) ≤ 32 * B + 31
    omega
  · show -(32 * B) ≤ 32 * cp.y + ((i / 32 : Nat) : Int)
    omega
  · show 32 * cp.y + ((i / 32 : Nat) : Int) ≤ 32 * B + 31
    omega

/-- The accumulator invariant of the used_tiles scan over a bounded store:
either still the sentinel pair, or within the 32B tile box. -/
def accOK (B : Int) (acc : TilePos × TilePos) : Prop :=
  (acc = (TilePos.of i32Max i32Max, TilePos.of i32Min i32Min)) ∨
  (-(32 * B) ≤ acc.1.x ∧ acc.1.x ≤ 32 * B + 31 ∧
   -(32 * B) ≤ acc.1.y ∧ acc.1.y ≤ 32 * B + 31 ∧
   -(32 * B) ≤ acc.2.x ∧ acc.2.x ≤ 32 * B + 31 ∧
   -(32 * B) ≤ acc.2.y ∧ acc.2.y ≤ 32 * B + 31)

theorem scan_fold_accOK (m : Map) (B : Int) (hm : m.mapOK B) (hB : 0 ≤ B)
    (hBlt : 32 * B + 31 < 2147483647) (cp : ChunkPos) :
    ∀ (l : List (TilePair × TilePos)),
    (∀ tq ∈ l, tq ∈ chunkCells (m.index_chunk cp)) →
    ∀ acc, accOK B acc → accOK B (l.foldl scanStep acc) := by
  intro l
  induction l with
  | nil => exact fun _ acc hacc => hacc
  | cons tp rest ih =>
      obtain ⟨t, q⟩ := tp
      intro hl acc hacc
      rw [List.foldl_cons]
      refine ih (fun tq htq => hl tq (List.mem_cons_of_mem _ htq)) _ ?_
      by_cases hemp : t.is_empty = true
      · rw [show scanStep acc (t, q) = acc from by rw [scanStep, if_pos hemp]]
        exact hacc
      · have hne : t.is_empty = false := by
          rcases hb : t.is_empty with _ | _
          · rfl
          · exact absurd hb hemp
        have hqb := cell_bounded m B hm cp t q (hl (t, q) (List.mem_cons_self _ _)) hne
        rw [show scanStep acc (t, q) = (acc.1.minP q, acc.2.maxP q) from by
          rw [scanStep, if_neg hemp]]
        rcases hacc with hs | hbd
        · rw [hs]
          refine Or.inr ?_
          have hc1 : ((TilePos.of i32Max i32Max, TilePos.of i32Min i32Min).1.minP q).x
              = min 2147483647 q.x := rfl
          have hc2 : ((TilePos.of i32Max i32Max, TilePos.of i32Min i32Min).1.minP q).y
              = min 2147483647 q.y := rfl
          have hc3 : ((TilePos.of i32Max i32Max, TilePos.of i32Min i32Min).2.maxP q).x
              = max (-2147483648) q.x := rfl
          have hc4 : ((TilePos.of i32Max i32Max, TilePos.of i32Min i32Min).2.maxP q).y
              = max (-2147483648) q.y := rfl
          rw [hc1, hc2, hc3, hc4]
          refine ⟨by omega, by omega, by omega, by omega, by omega, by omega, by omega,
            by omega⟩
        · refine Or.inr ?_
          obtain ⟨hd1, hd2, hd3, hd4, hd5, hd6, hd7, hd8⟩ := hbd
          have hc1 : (acc.1.minP q).x = min acc.1.x q.x := rfl
          have hc2 : (acc.1.minP q).y = min acc.1.y q.y := rfl
          have hc3 : (acc.2.maxP q).x = max acc.2.x q.x := rfl
          have hc4 : (acc.2.maxP q).y = max acc.2.y q.y := rfl
          rw [hc1, hc2, hc3, hc4]
          refine ⟨by omega, by omega, by omega, by omega, by omega, by omega, by omega,
            by omega⟩

theorem border_fold_accOK (m : Map) (B : Int) (hm : m.mapOK B) (hB : 0 ≤ B)
    (hBlt : 32 * B + 31 < 2147483647) :
    ∀ (l : List ChunkPos) (acc : TilePos × TilePos), accOK B acc →
    accOK B (l.foldl (fun acc cp => (chunkCells (m.index_chunk cp)).foldl scanStep acc)
      acc) := by
  intro l
  induction l with
  | nil => exact fun acc hacc => hacc
  | cons cp rest ih =>
      intro acc hacc
      rw [List.foldl_cons]
      exact ih _ (scan_fold_accOK m B hm hB hBlt cp _ (fun tq htq => htq) acc hacc)

/-- The used_tiles rectangle of a bounded store is an empty sentinel pair or a
rectangle within the 32B tile box. -/
theorem used_tiles_bounded (m : Map) (B : Int) (hm : m.mapOK B) (hB : 0 ≤ B)
    (hBlt : 32 * B + 31 < 2147483647) :
    (m.used_tiles.max.x < m.used_tiles.min.x ∧ m.used_tiles.max.y < m.used_tiles.min.y) ∨
    (-(32 * B) ≤ m.used_tiles.min.x ∧ m.used_tiles.min.x ≤ 32 * B + 31 ∧
     -(32 * B) ≤ m.used_tiles.min.y ∧ m.used_tiles.min.y ≤ 32 * B + 31 ∧
     -(32 * B) ≤ m.used_tiles.max.x ∧ m.used_tiles.max.x ≤ 32 * B + 31 ∧
     -(32 * B) ≤ m.used_tiles.max.y ∧ m.used_tiles.max.y ≤ 32 * B + 31) := by
  have hacc := border_fold_accOK m B hm hB hBlt
    (borderOf m.used_chunks.1 m.used_chunks.2)
    (TilePos.of i32Max i32Max, TilePos.of i32Min i32Min) (Or.inl rfl)
  rw [used_tiles_eq]
  rcases hacc with hs | hbd
  · refine Or.inl ?_
    rw [show (TileRect.new_presorted
        ((borderOf m.used_chunks.1 m.used_chunks.2).foldl
          (fun acc cp => (chunkCells (m.index_chunk cp)).foldl scanStep acc)
          (TilePos.of i32Max i32Max, TilePos.of i32Min i32Min)).1
        ((borderOf m.used_chunks.1 m.used_chunks.2).foldl
          (fun acc cp => (chunkCells (m.index_chunk cp)).foldl scanStep acc)
          (TilePos.of i32Max i32Max, TilePos.of i32Min i32Min)).2)
      = TileRect.new_presorted (TilePos.of i32Max i32Max) (TilePos.of i32Min i32Min) from by
        rw [hs]]
    constructor
    · show (-2147483648 : Int) < 2147483647
      omega
    · show (-2147483648 : Int) < 2147483647
      omega
  · obtain ⟨hd1, hd2, hd3, hd4, hd5, hd6, hd7, hd8⟩ := hbd
    exact Or.inr ⟨hd1, hd2, hd3, hd4, hd5, hd6, hd7, hd8⟩

theorem intRange_empty (lo hi : Int) (h : hi < lo) : intRange lo hi = [] := by
  rw [intRange, show (hi + 1 - lo).toNat = 0 by omega]
  rfl

theorem copy_rows_mapOK (other : MutMap) (dest : TilePos) (rect : TileRect)
    (hb : -3300 ≤ rect.min.x ∧ rect.min.x ≤ 3300 ∧ -3300 ≤ rect.min.y ∧
      rect.min.y ≤ 3300 ∧ rect.max.x ≤ 3300 ∧ rect.max.y ≤ 3300)
    (hdest : -200 ≤ dest.x ∧ dest.x ≤ 200 ∧ -200 ≤ dest.y ∧ dest.y ≤ 200) :
    ∀ (ys : List Int), (∀ y ∈ ys, rect.min.y ≤ y ∧ y ≤ rect.max.y) →
    ∀ m : Map, m.mapOK 1000000 →
    ((ys.foldl (fun mm y => (intRange rect.min.x rect.max.x).foldl (fun mm x =>
      mm.set_tile (TilePos.of (dest.x + (x - rect.min.x)) (dest.y + (y - rect.min.y)))
        (other.map.index_tile (TilePos.of x y))) mm) m)).mapOK 1000000 := by
  intro ys
  induction ys with
  | nil => exact fun _ m hm => hm
  | cons y rest ih =>
      intro hys m hm
      rw [List.foldl_cons]
      refine ih (fun z hz => hys z (List.mem_cons_of_mem _ hz)) _ ?_
      refine mapOK_foldl_w
        (fun x => TilePos.of (dest.x + (x - rect.min.x)) (dest.y + (y - rect.min.y)))
        (fun mm x => other.map.index_tile (TilePos.of x y)) 1000000 _ ?_ m hm
      intro x hx
      rw [mem_intRange] at hx
      have hyb := hys y (List.mem_cons_self _ _)
      refine ⟨?_, ?_, ?_, ?_⟩
      · show -(32 * 1000000) ≤ dest.x + (x - rect.min.x)
        omega
      · show dest.x + (x - rect.min.x) ≤ 32 * 1000000 + 31
        omega
      · show -(32 * 1000000) ≤ dest.y + (y - rect.min.y)
        omega
      · show dest.y + (y - rect.min.y) ≤ 32 * 1000000 + 31
        omega

theorem mapOK_copy_from (m other : MutMap) (dest : TilePos)
    (hm : m.map.mapOK 1000000) (hother : other.map.mapOK 100)
    (hdest : -200 ≤ dest.x ∧ dest.x ≤ 200 ∧ -200 ≤ dest.y ∧ dest.y ≤ 200) :
    (m.copy_from other dest).map.mapOK 1000000 := by
  have hut := used_tiles_bounded other.map 100 hother (by omega) (by omega)
  show ((intRange other.map.used_tiles.min.y other.map.used_tiles.max.y).foldl
    (fun mm y => (intRange other.map.used_tiles.min.x other.map.used_tiles.max.x).foldl
      (fun mm x => mm.set_tile
        (TilePos.of (dest.x + (x - other.map.used_tiles.min.x))
          (dest.y + (y - other.map.used_tiles.min.y)))
        (other.map.index_tile (TilePos.of x y))) mm) m.map).mapOK 1000000
  rcases hut with hs | hbd
  · rw [intRange_empty _ _ hs.2]
    exact hm
  · obtain ⟨hd1, hd2, hd3, hd4, hd5, hd6, hd7, hd8⟩ := hbd
    refine copy_rows_mapOK other dest other.map.used_tiles
      ⟨by omega, by omega, by omega, by omega, by omega, by omega⟩ hdest _ ?_ m.map hm
    intro y hy
    rw [mem_intRange] at hy
    exact hy

theorem rooms_loop_mapOK (f : Nat → Nat → Nat) (rects : List TileRect) :
    ∀ (res : MutMap) (doors : List TilePos) (rng entropy : RngState)
      (res2 : MutMap) (doors2 : List TilePos) (rng2 ent2 : RngState),
    rooms_loop f rects res doors rng entropy = .ok (res2, doors2, rng2, ent2) →
    (∀ r ∈ rects, rectOK r) → res.map.mapOK 1000000 → (∀ d ∈ doors, posIn 1000 d) →
    res2.map.mapOK 1000000 ∧ (∀ d ∈ doors2, posIn 1000 d) := by
  induction rects with
  | nil =>
      intro res doors rng entropy res2 doors2 rng2 ent2 h _ hm hd
      rw [rooms_loop] at h
      simp only [Except.ok.injEq, Prod.mk.injEq] at h
      obtain ⟨rfl, rfl, rfl, rfl⟩ := h
      exact ⟨hm, hd⟩
  | cons rect rest ih =>
      intro res doors rng entropy res2 doors2 rng2 ent2 h hrects hm hd
      rw [rooms_loop] at h
      rcases hbs : gen_range rng 3 7 with e | ⟨borderSize, rng1⟩ <;> simp only [hbs] at h
      · exact Except.noConfusion h
      · have hbsb := gen_range_ok_bounds hbs
        have hrOK := hrects rect (List.mem_cons_self _ _)
        obtain ⟨hr1, hr2, hr3, hr4, hr5, hr6⟩ := hrOK
        rcases hgr : generate_room f rng1
            (TileRect.translate
              ⟨⟨rect.min.x + borderSize, rect.min.y + borderSize⟩,
               ⟨rect.max.x - borderSize, rect.max.y - borderSize⟩⟩
              (-(rect.min.x + borderSize), -(rect.min.y + borderSize)))
            entropy with er | ⟨⟨room, roomDoors⟩, rngR, entR⟩ <;> simp only [hgr] at h
        · exact Except.noConfusion h
        · have hTmin : posIn 100 (TileRect.translate
              ⟨⟨rect.min.x + borderSize, rect.min.y + borderSize⟩,
               ⟨rect.max.x - borderSize, rect.max.y - borderSize⟩⟩
              (-(rect.min.x + borderSize), -(rect.min.y + borderSize))).min := by
            refine ⟨?_, ?_, ?_, ?_⟩
            · show -(32 * 100 : Int) ≤ rect.min.x + borderSize + -(rect.min.x + borderSize)
              omega
            · show rect.min.x + borderSize + -(rect.min.x + borderSize) ≤ 32 * 100 + 31
              omega
            · show -(32 * 100 : Int) ≤ rect.min.y + borderSize + -(rect.min.y + borderSize)
              omega
            · show rect.min.y + borderSize + -(rect.min.y + borderSize) ≤ 32 * 100 + 31
              omega
          have hTmax : posIn 100 (TileRect.translate
              ⟨⟨rect.min.x + borderSize, rect.min.y + borderSize⟩,
               ⟨rect.max.x - borderSize, rect.max.y - borderSize⟩⟩
              (-(rect.min.x + borderSize), -(rect.min.y + borderSize))).max := by
            refine ⟨?_, ?_, ?_, ?_⟩
            · show -(32 * 100 : Int) ≤ rect.max.x - borderSize + -(rect.min.x + borderSize)
              omega
            · show rect.max.x - borderSize + -(rect.min.x + borderSize) ≤ 32 * 100 + 31
              omega
            · show -(32 * 100 : Int) ≤ rect.max.y - borderSize + -(rect.min.y + borderSize)
              omega
            · show rect.max.y - borderSize + -(rect.min.y + borderSize) ≤ 32 * 100 + 31
              omega
          obtain ⟨hroomM, hroomD⟩ := generate_room_mapOK f rng1 _ entropy room roomDoors
            rngR entR hgr hTmin hTmax
          refine ih _ _ _ _ res2 doors2 rng2 ent2 h
            (fun r hr => hrects r (List.mem_cons_of_mem _ hr)) ?_ ?_
          · refine mapOK_copy_from res room _ hm hroomM ?_
            refine ⟨?_, ?_, ?_, ?_⟩
            · show -200 ≤ rect.min.x + borderSize
              omega
            · show rect.min.x + borderSize ≤ 200
              omega
            · show -200 ≤ rect.min.y + borderSize
              omega
            · show rect.min.y + borderSize ≤ 200
              omega
          · intro d hdm
            rcases List.mem_append.mp hdm with hl | hr
            · exact hd d hl
            · obtain ⟨p, hp, rfl⟩ := List.mem_map.mp hr
              have hpB := hroomD p hp
              obtain ⟨hp1, hp2, hp3, hp4⟩ := hpB
              refine ⟨?_, ?_, ?_, ?_⟩
              · show -(32 * 1000) ≤ p.x + (rect.min.x + borderSize)
                omega
              · show p.x + (rect.min.x + borderSize) ≤ 32 * 1000 + 31
                omega
              · show -(32 * 1000) ≤ p.y + (rect.min.y + borderSize)
                omega
              · show p.y + (rect.min.y + borderSize) ≤ 32 * 1000 + 31
                omega

theorem delta_small (d : Direction) :
    -1 ≤ d.delta.1 ∧ d.delta.1 ≤ 1 ∧ -1 ≤ d.delta.2 ∧ d.delta.2 ≤ 1 := by
  cases d <;> decide

theorem mapOK_pave_walk (fuel : Nat) : ∀ (res : MutMap) (pos : TilePos) (dir : Direction)
    (t : Int), res.map.mapOK 1000000 → posIn 1000 pos → 1 ≤ t → t + fuel ≤ 260 →
    (pave_walk res pos dir t fuel).map.mapOK 1000000 := by
  induction fuel with
  | zero =>
      intro res pos dir t hm _ _ _
      rw [pave_walk]
      exact hm
  | succ fuel ih =>
      intro res pos dir t hm hpos ht hfu
      rw [pave_walk]
      by_cases hemp : ((res.map.index_tile
          (TilePos.of (pos.x + dir.delta.1 * t) (pos.y + dir.delta.2 * t))).is_empty
          = true)
      · rw [if_neg (by rw [hemp]; intro hc; exact Bool.noConfusion hc)]
        obtain ⟨hp1, hp2, hp3, hp4⟩ := hpos
        obtain ⟨hD1, hD2, hD3, hD4⟩ := delta_small dir
        have hnp : posIn 1000000
            (TilePos.of (pos.x + dir.delta.1 * t) (pos.y + dir.delta.2 * t)) := by
          refine ⟨?_, ?_, ?_, ?_⟩
          · show -(32 * 1000000) ≤ pos.x + dir.delta.1 * t
            nlinarith
          · show pos.x + dir.delta.1 * t ≤ 32 * 1000000 + 31
            nlinarith
          · show -(32 * 1000000) ≤ pos.y + dir.delta.2 * t
            nlinarith
          · show pos.y + dir.delta.2 * t ≤ 32 * 1000000 + 31
            nlinarith
        refine ih _ pos dir (t + 1) ?_ ⟨hp1, hp2, hp3, hp4⟩ (by omega) (by omega)
        exact mapOK_set_at_mm res 1000000 _ floor_rock hm hnp
      · rw [if_pos (by
          rcases hb : ((res.map.index_tile (TilePos.of (pos.x + dir.delta.1 * t)
              (pos.y + dir.delta.2 * t))).is_empty) with _ | _
          · rfl
          · exact absurd hb hemp)]
        exact hm

theorem mapOK_paving_loop (doors : List TilePos) : ∀ (res : MutMap) (out : MutMap),
    paving_loop doors res = .ok out → res.map.mapOK 1000000 →
    (∀ d ∈ doors, posIn 1000 d) → out.map.mapOK 1000000 := by
  induction doors with
  | nil =>
      intro res out h hm _
      rw [paving_loop] at h
      simp only [Except.ok.injEq] at h
      rw [← h]
      exact hm
  | cons pos rest ih =>
      intro res out h hm hd
      rw [paving_loop] at h
      by_cases hdoor : ((res.map.index_tile pos).is_door) = true
      · rw [if_neg (by rw [hdoor]; intro hc; exact Bool.noConfusion hc)] at h
        have hposB := hd pos (List.mem_cons_self _ _)
        rcases hty : (res.map.index_tile pos).foreground.ty with _ | ft | ws | o | o | ⟨lm, fl⟩ <;>
          simp only [hty] at h
        · exact Except.noConfusion h
        · exact Except.noConfusion h
        · exact Except.noConfusion h
        · refine ih _ out h ?_ (fun d hdm => hd d (List.mem_cons_of_mem _ hdm))
          exact mapOK_pave_walk 249 res pos _ 1 hm hposB (by omega) (by omega)
        · refine ih _ out h ?_ (fun d hdm => hd d (List.mem_cons_of_mem _ hdm))
          exact mapOK_pave_walk 249 res pos _ 1 hm hposB (by omega) (by omega)
        · exact Except.noConfusion h
      · rw [if_pos (by
          rcases hb : ((res.map.index_tile pos).is_door) with _ | _
          · rfl
          · exact absurd hb hdoor)] at h
        exact Except.noConfusion h

/-! ## Claim C3: floor tiles of a generated map are fully enclosed -/

theorem mapRect_rectOK :
    rectOK (TileRect.new (TilePos.of (-60) (-60)) (TilePos.of 60 60)) := by
  refine ⟨?_, ?_, ?_, ?_, ?_, ?_⟩
  · show (-60 : Int) ≤ min (-60) 60
    omega
  · show min (-60 : Int) 60 ≤ max (-60) 60
    omega
  · show max (-60 : Int) 60 ≤ 60
    omega
  · show (-60 : Int) ≤ min (-60) 60
    omega
  · show min (-60 : Int) 60 ≤ max (-60) 60
    omega
  · show max (-60 : Int) 60 ≤ 60
    omega

/-- Claim C3: in a successfully generated map, every one of the 8 Moore
neighbors of every floor cell (empty foreground over a floor background) is a
nonempty TilePair, so it holds a floor, wall, door, or landmark tile. -/
theorem generate_map_floor_enclosure (f : Nat → Nat → Nat) (s : Nat)
    (entropy : RngState) :
    match generate_map f s entropy with
    | .error _ => True
    | .ok res =>
        ∀ p : TilePos, (res.map.index_tile p).is_floor = true →
          ∀ nb ∈ p.moore_neighborhood, (res.map.index_tile nb).is_empty = false := by
  simp only [generate_map.eq_def]
  rcases hb : bsp_loop
      [(0, false, TileRect.new (TilePos.of (-60) (-60)) (TilePos.of 60 60))] [] []
      ⟨f s, 0⟩ with eb | ⟨allRects, roomRects, rng⟩ <;> simp only [hb]
  rcases hh : hall_fill allRects (MutMap.from_rng rng) with eh | mid1 <;> simp only [hh]
  rcases hr : rooms_loop f roomRects mid1 [] rng entropy
      with er | ⟨res1, doors1, rng1, ent1⟩ <;> simp only [hr]
  rcases hp : paving_loop doors1 res1 with ep | mid <;> simp only [hp]
  rcases hs : spawn_loop 1000 0 roomRects (wall_pass mid.map.used_tiles.tiles mid) rng1
      with es | ⟨resF, rngF⟩ <;> simp only [hs]
  obtain ⟨hallOK, hroomOK⟩ := bsp_loop_rects
    [(0, false, TileRect.new (TilePos.of (-60) (-60)) (TilePos.of 60 60))] [] []
    ⟨f s, 0⟩ (allRects, roomRects, rng)
    (fun it hit => by
      rw [List.mem_singleton] at hit
      rw [hit]
      exact mapRect_rectOK)
    (fun r hrm => absurd hrm (List.not_mem_nil r))
    (fun r hrm => absurd hrm (List.not_mem_nil r)) hb
  have hm0 : (MutMap.from_rng rng).map.mapOK 1000000 := mapOK_new 1000000
  have hm1 := mapOK_hall_fill allRects (MutMap.from_rng rng) mid1 hallOK hm0 hh
  obtain ⟨hm2, hdoors⟩ := rooms_loop_mapOK f roomRects mid1 [] rng entropy
    res1 doors1 rng1 ent1 hr hroomOK hm1 (fun d hd => absurd hd (List.not_mem_nil d))
  have hm3 := mapOK_paving_loop doors1 res1 mid hp hm2 hdoors
  intro p hfloor nb hnb
  rcases spawn_loop_write 1000 0 roomRects (wall_pass mid.map.used_tiles.tiles mid)
      rng1 resF rngF hs p with hWp | hnofl
  · have hWfloor : ((wall_pass mid.map.used_tiles.tiles mid).map.index_tile p).is_floor
        = true := by rw [← hWp]; exact hfloor
    have heq := wall_pass_floor_back mid.map.used_tiles.tiles mid p hWfloor
    have hmidfloor : (mid.map.index_tile p).is_floor = true := by
      rw [← heq]
      exact hWfloor
    have hmidne := floor_pair_nonempty _ hmidfloor
    have hpmem := nonempty_tile_mem_used_tiles mid.map (mapOK_wellkeyed hm3)
      (mapOK_inrange hm3) p hmidne
    have hcov := wall_pass_covers mid.map.used_tiles.tiles mid p hpmem hWfloor nb hnb
    rcases spawn_loop_write 1000 0 roomRects (wall_pass mid.map.used_tiles.tiles mid)
        rng1 resF rngF hs nb with hWnb | hnb2
    · rw [hWnb]
      exact hcov
    · exact hnb2.2
  · rw [hnofl.1] at hfloor
    exact Bool.noConfusion hfloor

end Undercity
